import Mathlib

/-!
# Paging simulator (`paging_simulator.cpp`): embedding and properties

The simulator keeps two fixed pools of frame slots (`ram`, `swap`), a list of
live processes with their page tables, and four counters.  The three mutating
member functions `createProcess`, `finishRandomProcess` and
`accessVirtualAddress` are embedded as functions on an explicit `State`.

Conventions of the embedding:

* a `Page*` slot is an `Option Page` (`none` is `nullptr`); a move of a pointer
  is a move of the record;
* the random draws (process size, process index, page index) and the readings
  of `time(nullptr)` are parameters of the embedded functions;
* `int` sizes, counts, indices, pids and `time_t` readings are natural numbers
  (unbounded); the sentinel `victimFrame = -1` is `none`;
* `ramPages` and `swapPages` are the lengths of `ram` and `swap` (the
  constructor sizes the vectors with them and nothing resizes them);
* undefined behaviour of the C++ code (division by zero, out-of-range vector
  access, dereference of `nullptr`) is the result `none`.
-/

namespace PagingSimulator

/-- Field `location` of a page-table entry: the string "RAM" or "SWAP". -/
inductive Location where
  | RAM
  | SWAP
deriving DecidableEq, Repr

/-- Embedding of `struct PageTableEntry`. -/
structure PageTableEntry where
  virtualPage : Nat
  physicalFrame : Nat
  location : Location
deriving DecidableEq, Repr

/-- Embedding of `struct Process`. -/
structure Process where
  pid : Nat
  sizeKB : Nat
  numPages : Nat
  pageTable : List PageTableEntry
  creationTime : Nat
deriving DecidableEq, Repr

/-- Embedding of `struct Page`. -/
structure Page where
  pid : Nat
  pageNum : Nat
  loadTime : Nat
deriving DecidableEq, Repr

/-- A pool of frame slots: `vector<Page*>`. -/
abbrev Frames := List (Option Page)

/-- Mutable members of `class PagingSimulator` read or written by the three operations. -/
structure State where
  pageSizeKB : Nat
  ram : Frames
  swap : Frames
  processes : List Process
  nextPid : Nat
  pageFaults : Nat
  processesCreated : Nat
  processesFinished : Nat
deriving DecidableEq, Repr

/-- State right after the constructor body: both pools all `nullptr`, no process,
`nextPid = 1`, counters zero. -/
def freshState (pageSizeKB ramPages swapPages : Nat) : State :=
  { pageSizeKB := pageSizeKB
    ram := List.replicate ramPages none
    swap := List.replicate swapPages none
    processes := []
    nextPid := 1
    pageFaults := 0
    processesCreated := 0
    processesFinished := 0 }

/-- The constructor: `ramPages = physicalMemMB * 1024 / pageSizeKB`,
`swapPages = virtualMemMB * 1024 / pageSizeKB - ramPages`, where `virtualMemMB`
is the value drawn for the virtual memory size.  Division by zero is `none`. -/
def construct (physicalMemMB virtualMemMB pageSizeKB : Nat) : Option State :=
  if pageSizeKB = 0 then none
  else
    let ramPages := physicalMemMB * 1024 / pageSizeKB
    let totalPages := virtualMemMB * 1024 / pageSizeKB
    some (freshState pageSizeKB ramPages (totalPages - ramPages))

/-- Number of `nullptr` slots: `count(v.begin(), v.end(), nullptr)`. -/
def countFree : Frames → Nat
  | [] => 0
  | none :: xs => countFree xs + 1
  | some _ :: xs => countFree xs

/-- Number of occupied slots (the loop in `printMemoryStatus`). -/
def countUsed : Frames → Nat
  | [] => 0
  | none :: xs => countUsed xs
  | some _ :: xs => countUsed xs + 1

/-- Index of the first `nullptr` slot: `distance(v.begin(), find(v.begin(), v.end(), nullptr))`;
it is the length of the pool when there is none. -/
def firstFree : Frames → Nat
  | [] => 0
  | none :: _ => 0
  | some _ :: xs => firstFree xs + 1

/-- The page-assignment loop of `createProcess`.  The first argument is the number
of iterations left, `i` the loop counter, `ramFree` the local counter. -/
def allocPages (pid now : Nat) :
    Nat → Nat → Nat → Frames → Frames → List PageTableEntry →
      Option (Frames × Frames × List PageTableEntry)
  | 0, _, _, ram, swap, pt => some (ram, swap, pt)
  | n + 1, i, ramFree, ram, swap, pt =>
    if 0 < ramFree then
      let frameIdx := firstFree ram
      if frameIdx < ram.length then
        allocPages pid now n (i + 1) (ramFree - 1)
          (ram.set frameIdx (some ⟨pid, i, now⟩)) swap (pt ++ [⟨i, frameIdx, Location.RAM⟩])
      else none
    else
      let frameIdx := firstFree swap
      if frameIdx < swap.length then
        allocPages pid now n (i + 1) ramFree
          ram (swap.set frameIdx (some ⟨pid, i, now⟩)) (pt ++ [⟨i, frameIdx, Location.SWAP⟩])
      else none

/-- The value `pagesNeeded = (sizeKB + pageSizeKB - 1) / pageSizeKB`. -/
def pagesNeeded (sizeKB pageSizeKB : Nat) : Nat :=
  (sizeKB + pageSizeKB - 1) / pageSizeKB

/-- Embedding of `createProcess`.  `sizeKB` is the drawn size, `creationTime` and `now`
the two clock readings.  The Boolean is the returned value. -/
def createProcess (s : State) (sizeKB creationTime now : Nat) : Option (Bool × State) :=
  if s.pageSizeKB = 0 then none
  else
    let needed := pagesNeeded sizeKB s.pageSizeKB
    let ramFree := countFree s.ram
    let swapFree := countFree s.swap
    if needed > ramFree + swapFree then some (false, s)
    else
      match allocPages s.nextPid now needed 0 ramFree s.ram s.swap [] with
      | none => none
      | some (ram, swap, pt) =>
        some (true,
          { s with
            ram := ram
            swap := swap
            processes := s.processes ++ [⟨s.nextPid, sizeKB, needed, pt, creationTime⟩]
            nextPid := s.nextPid + 1
            processesCreated := s.processesCreated + 1 })

/-- The release loop of `finishRandomProcess`: every entry's slot is deleted and set to
`nullptr` (deleting `nullptr` is a no-op). -/
def releaseFrames : List PageTableEntry → Frames → Frames → Option (Frames × Frames)
  | [], ram, swap => some (ram, swap)
  | e :: es, ram, swap =>
    match e.location with
    | Location.RAM =>
      if e.physicalFrame < ram.length then releaseFrames es (ram.set e.physicalFrame none) swap
      else none
    | Location.SWAP =>
      if e.physicalFrame < swap.length then releaseFrames es ram (swap.set e.physicalFrame none)
      else none

/-- Embedding of `finishRandomProcess`; `idx` is the drawn process index. -/
def finishRandomProcess (s : State) (idx : Nat) : Option State :=
  if s.processes.isEmpty then some s
  else
    match s.processes[idx]? with
    | none => none
    | some proc =>
      match releaseFrames proc.pageTable s.ram s.swap with
      | none => none
      | some (ram, swap) =>
        some { s with
          ram := ram
          swap := swap
          processesFinished := s.processesFinished + 1
          processes := s.processes.eraseIdx idx }

/-- The FIFO scan of `accessVirtualAddress`: `i` is the loop counter, `oldestTime` and
`victimFrame` the two locals (`none` for `-1`). -/
def scanVictim : Frames → Nat → Nat → Option Nat → Option Nat
  | [], _, _, victimFrame => victimFrame
  | none :: xs, i, oldestTime, victimFrame => scanVictim xs (i + 1) oldestTime victimFrame
  | some p :: xs, i, oldestTime, victimFrame =>
    if p.loadTime < oldestTime then scanVictim xs (i + 1) p.loadTime (some i)
    else scanVictim xs (i + 1) oldestTime victimFrame

/-- Victim selection: `oldestTime` starts at the clock reading, `victimFrame` at `-1`. -/
def findVictim (ram : Frames) (now : Nat) : Option Nat :=
  scanVictim ram 0 now none

/-- Inner loop of the victim relocation: the first entry with the victim's page number and
location RAM is rewritten to the first free SWAP slot, if there is one; then `break`. -/
def relocateEntry (victim : Page) : List PageTableEntry → Frames → List PageTableEntry × Frames
  | [], swap => ([], swap)
  | e :: es, swap =>
    if e.virtualPage = victim.pageNum ∧ e.location = Location.RAM then
      let swapIdx := firstFree swap
      if swapIdx < swap.length then
        ({ e with physicalFrame := swapIdx, location := Location.SWAP } :: es,
          swap.set swapIdx (some victim))
      else (e :: es, swap)
    else
      let r := relocateEntry victim es swap
      (e :: r.1, r.2)

/-- Outer loop of the victim relocation: the first process with the victim's pid; then `break`. -/
def relocateVictim (victim : Page) : List Process → Frames → List Process × Frames
  | [], swap => ([], swap)
  | p :: ps, swap =>
    if p.pid = victim.pid then
      let r := relocateEntry victim p.pageTable swap
      ({ p with pageTable := r.1 } :: ps, r.2)
    else
      let r := relocateVictim victim ps swap
      (p :: r.1, r.2)

/-- In-place update of the `n`-th element of a vector through a reference. -/
def modifyAt {α : Type} (f : α → α) : List α → Nat → List α
  | [], _ => []
  | x :: xs, 0 => f x :: xs
  | x :: xs, n + 1 => x :: modifyAt f xs n

/-- The two writes `entry.physicalFrame = victimFrame; entry.location = "RAM"` on
`processes[procIdx]->pageTable[virtualPage]`. -/
def loadEntry (procs : List Process) (procIdx virtualPage victimFrame : Nat) : List Process :=
  modifyAt
    (fun p => { p with
      pageTable := modifyAt
        (fun e => { e with physicalFrame := victimFrame, location := Location.RAM })
        p.pageTable virtualPage })
    procs procIdx

/-- Embedding of `accessVirtualAddress`.  `procIdx` and `virtualPage` are the drawn indices,
`tScan` the clock reading that initialises `oldestTime`, `tLoad` the reading stored as the
new `loadTime`.  The reference `entry` has location SWAP on the fault path and the victim
relocation rewrites only an entry with location RAM, so `entry.physicalFrame` read after
the relocation is the value read before it. -/
def accessVirtualAddress (s : State) (procIdx virtualPage tScan tLoad : Nat) : Option State :=
  if s.processes.isEmpty then some s
  else
    match s.processes[procIdx]? with
    | none => none
    | some proc =>
      match proc.pageTable[virtualPage]? with
      | none => none
      | some entry =>
        match entry.location with
        | Location.RAM => some s
        | Location.SWAP =>
          match findVictim s.ram tScan with
          | none => some { s with pageFaults := s.pageFaults + 1 }
          | some victimFrame =>
            match s.ram[victimFrame]? with
            | some (some victim) =>
              let r := relocateVictim victim s.processes s.swap
              match r.2[entry.physicalFrame]? with
              | some (some requestedPage) =>
                some { s with
                  pageFaults := s.pageFaults + 1
                  ram := s.ram.set victimFrame (some { requestedPage with loadTime := tLoad })
                  swap := r.2.set entry.physicalFrame none
                  processes := loadEntry r.1 procIdx virtualPage victimFrame }
              | _ => none
            | _ => none

/-- One call made by the driver loop, with the values it draws and the clock readings. -/
inductive Op where
  | create (sizeKB creationTime now : Nat)
  | finish (idx : Nat)
  | access (procIdx virtualPage tScan tLoad : Nat)
deriving DecidableEq, Repr

/-- Effect of one call on the state (the Boolean of `createProcess` is dropped). -/
def step (s : State) : Op → Option State
  | Op.create sizeKB creationTime now => (createProcess s sizeKB creationTime now).map Prod.snd
  | Op.finish idx => finishRandomProcess s idx
  | Op.access procIdx virtualPage tScan tLoad =>
    accessVirtualAddress s procIdx virtualPage tScan tLoad

/-- A sequence of calls, left to right. -/
def run : State → List Op → Option State
  | s, [] => some s
  | s, op :: ops =>
    match step s op with
    | none => none
    | some s1 => run s1 ops

/-- Clock readings taken by a call, in the order they are taken. -/
def Op.readings : Op → List Nat
  | Op.create _ creationTime now => [creationTime, now]
  | Op.finish _ => []
  | Op.access _ _ tScan tLoad => [tScan, tLoad]

/-- All clock readings of a sequence of calls. -/
def readings : List Op → List Nat
  | [] => []
  | op :: ops => op.readings ++ readings ops

/-- The clock never goes back. -/
def ClockMonotone (ops : List Op) : Prop :=
  (readings ops).Pairwise (fun a b => a ≤ b)

instance (ops : List Op) : Decidable (ClockMonotone ops) := by
  unfold ClockMonotone; infer_instance

/-- States reachable from a freshly constructed simulator by calls of the three operations
taken at non-decreasing clock readings. -/
def Reachable (s : State) : Prop :=
  ∃ pageSizeKB ramPages swapPages ops,
    ClockMonotone ops ∧ run (freshState pageSizeKB ramPages swapPages) ops = some s

/-- Sum of `numPages` over the live processes. -/
def totalPages : List Process → Nat
  | [] => 0
  | p :: ps => p.numPages + totalPages ps

/-- Total number of free slots in both pools. -/
def totalFree (s : State) : Nat :=
  countFree s.ram + countFree s.swap

/-- Indices of the free slots of a pool, in ascending order, the first slot having index `i`. -/
def freeSlotsFrom : Frames → Nat → List Nat
  | [], _ => []
  | none :: xs, i => i :: freeSlotsFrom xs (i + 1)
  | some _ :: xs, i => freeSlotsFrom xs (i + 1)

/-- Indices of the free slots of a pool, in ascending order. -/
def freeSlots (xs : Frames) : List Nat :=
  freeSlotsFrom xs 0

/-- Entry `j` of the page table of the process at index `i` of the process list. -/
def entryAt (procs : List Process) (i j : Nat) : Option PageTableEntry :=
  match procs[i]? with
  | none => none
  | some p => p.pageTable[j]?

/-- Pid of the process at index `i` of the process list. -/
def pidAt (procs : List Process) (i : Nat) : Option Nat :=
  match procs[i]? with
  | none => none
  | some p => some p.pid

/-- Content of slot `k` of the pool named by a location. -/
def slotAt (s : State) : Location → Nat → Option (Option Page)
  | Location.RAM, k => s.ram[k]?
  | Location.SWAP, k => s.swap[k]?

/-- Every page-table entry points at a slot that holds a page carrying the pid of the entry's
process and the entry's virtual page number. -/
def EntriesPointAtOwnPage (s : State) : Prop :=
  ∀ (i j : Nat) (pid : Nat) (e : PageTableEntry),
    pidAt s.processes i = some pid → entryAt s.processes i j = some e →
    ∃ pg : Page, slotAt s e.location e.physicalFrame = some (some pg) ∧
      pg.pid = pid ∧ pg.pageNum = e.virtualPage

/-- Every occupied slot is pointed at by a page-table entry. -/
def SlotsHaveEntry (s : State) : Prop :=
  ∀ (loc : Location) (k : Nat) (pg : Page), slotAt s loc k = some (some pg) →
    ∃ (i j : Nat) (e : PageTableEntry), entryAt s.processes i j = some e ∧
      e.location = loc ∧ e.physicalFrame = k

/-- No slot is pointed at by two page-table entries. -/
def NoSharedSlot (s : State) : Prop :=
  ∀ (i j i1 j1 : Nat) (e e1 : PageTableEntry),
    entryAt s.processes i j = some e → entryAt s.processes i1 j1 = some e1 →
    e.location = e1.location → e.physicalFrame = e1.physicalFrame → i = i1 ∧ j = j1

/-- Consistent state: every page-table entry points at a slot holding exactly that process's
page, and every occupied slot is pointed at by exactly one entry. -/
def Consistent (s : State) : Prop :=
  EntriesPointAtOwnPage s ∧ SlotsHaveEntry s ∧ NoSharedSlot s

/-- Live processes have pairwise distinct pids. -/
def DistinctPids (s : State) : Prop :=
  ∀ (i i1 : Nat) (pid : Nat),
    pidAt s.processes i = some pid → pidAt s.processes i1 = some pid → i = i1

/-- Within each page table, the entries have pairwise distinct virtual page numbers. -/
def DistinctVirtualPages (s : State) : Prop :=
  ∀ (i j j1 : Nat) (e e1 : PageTableEntry),
    entryAt s.processes i j = some e → entryAt s.processes i j1 = some e1 →
    e.virtualPage = e1.virtualPage → j = j1

/-- The process list after the fields `physicalFrame` and `location` of entry `j` of process
`i` are overwritten. -/
def writeEntry (procs : List Process) (i j frame : Nat) (loc : Location) : List Process :=
  modifyAt
    (fun p => { p with
      pageTable := modifyAt
        (fun e => { e with physicalFrame := frame, location := loc })
        p.pageTable j })
    procs i

/-- Every entry with location SWAP points at an occupied SWAP slot, and no two such entries
point at the same slot.  This part of consistency is what keeps a fault free of a
`nullptr` dereference. -/
def SwapEntriesSound (s : State) : Prop :=
  (∀ (i j : Nat) (e : PageTableEntry), entryAt s.processes i j = some e →
    e.location = Location.SWAP → ∃ pg : Page, s.swap[e.physicalFrame]? = some (some pg)) ∧
  (∀ (i j i1 j1 : Nat) (e e1 : PageTableEntry),
    entryAt s.processes i j = some e → entryAt s.processes i1 j1 = some e1 →
    e.location = Location.SWAP → e1.location = Location.SWAP →
    e.physicalFrame = e1.physicalFrame → i = i1 ∧ j = j1)

/-- One call of `accessVirtualAddress`: the two drawn indices and the two clock readings. -/
structure Access where
  procIdx : Nat
  virtualPage : Nat
  tScan : Nat
  tLoad : Nat
deriving DecidableEq, Repr

/-- Consecutive calls of `accessVirtualAddress`, with no creation or termination in between. -/
def runAccesses : State → List Access → Option State
  | s, [] => some s
  | s, a :: rest =>
    match accessVirtualAddress s a.procIdx a.virtualPage a.tScan a.tLoad with
    | none => none
    | some s1 => runAccesses s1 rest

/-- The eviction made by an access: when the accessed entry has location SWAP and the scan
selects the victim frame `v`, the pair of `v` and the page that RAM slot `v` holds. -/
def evicted (s : State) (a : Access) : Option (Nat × Page) :=
  match entryAt s.processes a.procIdx a.virtualPage with
  | none => none
  | some e =>
    match e.location with
    | Location.RAM => none
    | Location.SWAP =>
      match findVictim s.ram a.tScan with
      | none => none
      | some v =>
        match s.ram[v]? with
        | some (some pg) => some (v, pg)
        | _ => none

/-- The evictions made by consecutive accesses, in order. -/
def evictions : State → List Access → List (Option (Nat × Page))
  | _, [] => []
  | s, a :: rest =>
    evicted s a ::
      (match accessVirtualAddress s a.procIdx a.virtualPage a.tScan a.tLoad with
      | none => []
      | some s1 => evictions s1 rest)

/-- Every access of the sequence is a fault: at the time it is made, the accessed entry exists
and has location SWAP. -/
def AllFaults : State → List Access → Prop
  | _, [] => True
  | s, a :: rest =>
    (∃ e : PageTableEntry, entryAt s.processes a.procIdx a.virtualPage = some e ∧
      e.location = Location.SWAP) ∧
    ∀ s1 : State, accessVirtualAddress s a.procIdx a.virtualPage a.tScan a.tLoad = some s1 →
      AllFaults s1 rest

/-- The pages of a list paired with the RAM slot indices `i`, `i + 1`, ... -/
def numbered : Nat → List Page → List (Option (Nat × Page))
  | _, [] => []
  | i, p :: ps => some (i, p) :: numbered (i + 1) ps

/-- A consistent state with one process of two pages, the second one in SWAP. -/
def faultExample : State :=
  { pageSizeKB := 4
    ram := [some ⟨1, 0, 3⟩]
    swap := [some ⟨1, 1, 3⟩, none]
    processes := [⟨1, 8, 2, [⟨0, 0, Location.RAM⟩, ⟨1, 0, Location.SWAP⟩], 3⟩]
    nextPid := 2
    pageFaults := 0
    processesCreated := 1
    processesFinished := 0 }

/-- The state after three processes are created at clock readings 1, 2 and 3 on 2 RAM slots and
3 SWAP slots with 4 KB pages: the one-page processes 1 and 2 fill the RAM pool, the two pages
of process 3 are in SWAP, and one SWAP slot is free. -/
def fifoExample : State :=
  { pageSizeKB := 4
    ram := [some ⟨1, 0, 1⟩, some ⟨2, 0, 2⟩]
    swap := [some ⟨3, 0, 3⟩, some ⟨3, 1, 3⟩, none]
    processes :=
      [⟨1, 4, 1, [⟨0, 0, Location.RAM⟩], 1⟩,
        ⟨2, 4, 1, [⟨0, 1, Location.RAM⟩], 2⟩,
        ⟨3, 8, 2, [⟨0, 0, Location.SWAP⟩, ⟨1, 1, Location.SWAP⟩], 3⟩]
    nextPid := 4
    pageFaults := 0
    processesCreated := 3
    processesFinished := 0 }

/-- The call that takes `s` to `s1` evicts the page `p` from RAM slot `k`.  Before the call,
`p` is the record in RAM slot `k` and the entry for `p`'s page number of the process with
`p`'s pid is {RAM, k}.  After the call, no RAM slot holds a record with `p`'s pid and page
number, every RAM slot other than `k` is as before, the record `p` is in a SWAP slot that was
free before the call, and the entry of `p`'s process for `p`'s page number is {SWAP, that
slot}. -/
def Evicts (s s1 : State) (k : Nat) (p : Page) : Prop :=
  s.ram[k]? = some (some p) ∧
  (∀ (m : Nat) (q : Page), s1.ram[m]? = some (some q) →
    ¬ (q.pid = p.pid ∧ q.pageNum = p.pageNum)) ∧
  (∀ m : Nat, m ≠ k → s1.ram[m]? = s.ram[m]?) ∧
  ∃ (idx i : Nat),
    s.swap[idx]? = some none ∧
    s1.swap[idx]? = some (some p) ∧
    pidAt s.processes i = some p.pid ∧
    pidAt s1.processes i = some p.pid ∧
    entryAt s.processes i p.pageNum = some ⟨p.pageNum, k, Location.RAM⟩ ∧
    entryAt s1.processes i p.pageNum = some ⟨p.pageNum, idx, Location.SWAP⟩

/-- Consecutive accesses evict the pages of a list in order, from consecutive RAM slots: the
first access selects the victim in RAM slot `k`, returns, and evicts the first page of the
list from that slot; the remaining accesses, made in the state it returns, evict the
remaining pages from the slots `k + 1`, `k + 2`, ...  There are as many accesses as pages. -/
def EvictsInOrder : State → List Access → Nat → List Page → Prop
  | _, [], _, [] => True
  | s, a :: rest, k, p :: ps =>
    findVictim s.ram a.tScan = some k ∧
    ∃ s1 : State, accessVirtualAddress s a.procIdx a.virtualPage a.tScan a.tLoad = some s1 ∧
      Evicts s s1 k p ∧ EvictsInOrder s1 rest (k + 1) ps
  | _, _ :: _, _, [] => False
  | _, [], _, _ :: _ => False

/-- The page-assignment loop of `createProcess` with a ghost log: for every page placed, in
order, the tier it is placed in and the number of free RAM slots at the moment of the
placement.  Without the log it is `allocPages`. -/
def allocPagesLogged (pid now : Nat) :
    Nat → Nat → Nat → Frames → Frames → List PageTableEntry → List (Location × Nat) →
      Option (Frames × Frames × List PageTableEntry × List (Location × Nat))
  | 0, _, _, ram, swap, pt, log => some (ram, swap, pt, log)
  | n + 1, i, ramFree, ram, swap, pt, log =>
    if 0 < ramFree then
      let frameIdx := firstFree ram
      if frameIdx < ram.length then
        allocPagesLogged pid now n (i + 1) (ramFree - 1)
          (ram.set frameIdx (some ⟨pid, i, now⟩)) swap (pt ++ [⟨i, frameIdx, Location.RAM⟩])
          (log ++ [(Location.RAM, countFree ram)])
      else none
    else
      let frameIdx := firstFree swap
      if frameIdx < swap.length then
        allocPagesLogged pid now n (i + 1) ramFree
          ram (swap.set frameIdx (some ⟨pid, i, now⟩)) (pt ++ [⟨i, frameIdx, Location.SWAP⟩])
          (log ++ [(Location.SWAP, countFree ram)])
      else none

/-- Length of the page table and `numPages` of the process at index `i`. -/
def sizesAt (procs : List Process) (i : Nat) : Option (Nat × Nat) :=
  match procs[i]? with
  | none => none
  | some p => some (p.pageTable.length, p.numPages)

/-- Every live pid is at least 1 and below `nextPid`. -/
def PidsInRange (s : State) : Prop :=
  ∀ (i pid : Nat), pidAt s.processes i = some pid → 1 ≤ pid ∧ pid < s.nextPid

/-- Every page table has `numPages` entries and its `j`-th entry is for virtual page `j`. -/
def PageTableShape (s : State) : Prop :=
  (∀ (i len n : Nat), sizesAt s.processes i = some (len, n) → len = n) ∧
  (∀ (i j : Nat) (e : PageTableEntry), entryAt s.processes i j = some e → e.virtualPage = j)

/-- Every entry with location SWAP points at a SWAP slot that holds a page carrying the pid of
the entry's process and the entry's virtual page number. -/
def SwapEntriesOwnPage (s : State) : Prop :=
  ∀ (i j pid : Nat) (e : PageTableEntry),
    pidAt s.processes i = some pid → entryAt s.processes i j = some e →
    e.location = Location.SWAP →
    ∃ pg : Page, s.swap[e.physicalFrame]? = some (some pg) ∧
      pg.pid = pid ∧ pg.pageNum = e.virtualPage

/-- Every occupied slot holds a page of a live process whose entry for that page has the
slot's tier and index. -/
def SlotsHaveOwner (s : State) : Prop :=
  ∀ (loc : Location) (k : Nat) (pg : Page), slotAt s loc k = some (some pg) →
    ∃ (i j : Nat) (e : PageTableEntry), pidAt s.processes i = some pg.pid ∧
      entryAt s.processes i j = some e ∧ e.virtualPage = pg.pageNum ∧
      e.location = loc ∧ e.physicalFrame = k

/-- The invariant of the reachable states. -/
structure Inv (s : State) : Prop where
  nextPos : 1 ≤ s.nextPid
  pids : DistinctPids s
  range : PidsInRange s
  shape : PageTableShape s
  swapOwn : SwapEntriesOwnPage s
  owner : SlotsHaveOwner s

/-- The pids given to the processes created along a sequence of calls, in order: after each
successful `createProcess`, the pid of the process it appended. -/
def createdPids : State → List Op → List Nat
  | _, [] => []
  | s, Op.create sizeKB creationTime now :: ops =>
    match createProcess s sizeKB creationTime now with
    | none => []
    | some (false, s1) => createdPids s1 ops
    | some (true, s1) =>
      match s1.processes.getLast? with
      | none => createdPids s1 ops
      | some p => p.pid :: createdPids s1 ops
  | s, Op.finish idx :: ops =>
    match finishRandomProcess s idx with
    | none => []
    | some s1 => createdPids s1 ops
  | s, Op.access procIdx virtualPage tScan tLoad :: ops =>
    match accessVirtualAddress s procIdx virtualPage tScan tLoad with
    | none => []
    | some s1 => createdPids s1 ops

/-- The state after A (12 KB, 3 pages) and B (8 KB, 2 pages) are created at clock reading 0
on 4 RAM and 4 SWAP slots with 4 KB pages. -/
def scenarioState : State :=
  { pageSizeKB := 4
    ram := [some ⟨1, 0, 0⟩, some ⟨1, 1, 0⟩, some ⟨1, 2, 0⟩, some ⟨2, 0, 0⟩]
    swap := [some ⟨2, 1, 0⟩, none, none, none]
    processes :=
      [⟨1, 12, 3, [⟨0, 0, Location.RAM⟩, ⟨1, 1, Location.RAM⟩, ⟨2, 2, Location.RAM⟩], 0⟩,
        ⟨2, 8, 2, [⟨0, 3, Location.RAM⟩, ⟨1, 0, Location.SWAP⟩], 0⟩]
    nextPid := 3
    pageFaults := 0
    processesCreated := 2
    processesFinished := 0 }

/-! ## Basic facts about the pools -/

theorem countFree_add_countUsed (xs : Frames) : countFree xs + countUsed xs = xs.length := by
  induction xs with
  | nil => rfl
  | cons x xs ih =>
    cases x with
    | none => simp only [countFree, countUsed, List.length_cons]; omega
    | some p => simp only [countFree, countUsed, List.length_cons]; omega

theorem firstFree_le_length (xs : Frames) : firstFree xs ≤ xs.length := by
  induction xs with
  | nil => simp [firstFree]
  | cons x xs ih =>
    cases x with
    | none => simp [firstFree]
    | some p => simp only [firstFree, List.length_cons]; omega

theorem firstFree_lt_iff (xs : Frames) : firstFree xs < xs.length ↔ 0 < countFree xs := by
  induction xs with
  | nil => simp [firstFree, countFree]
  | cons x xs ih =>
    cases x with
    | none => simp [firstFree, countFree]
    | some p => simp only [firstFree, countFree, List.length_cons]; omega

theorem getElem?_firstFree (xs : Frames) (h : firstFree xs < xs.length) :
    xs[firstFree xs]? = some none := by
  induction xs with
  | nil => simp at h
  | cons x xs ih =>
    cases x with
    | none => simp [firstFree]
    | some p =>
      simp only [firstFree, List.length_cons] at h ⊢
      simpa using ih (by omega)

theorem firstFree_min (xs : Frames) (k : Nat) (h : k < firstFree xs) :
    ∃ p, xs[k]? = some (some p) := by
  induction xs generalizing k with
  | nil => simp [firstFree] at h
  | cons x xs ih =>
    cases x with
    | none => simp [firstFree] at h
    | some p =>
      cases k with
      | zero => exact ⟨p, by simp⟩
      | succ k =>
        simp only [firstFree] at h
        simpa using ih k (by omega)

theorem countFree_set_some (xs : Frames) (p : Page) (h : firstFree xs < xs.length) :
    countFree (xs.set (firstFree xs) (some p)) + 1 = countFree xs := by
  induction xs with
  | nil => simp at h
  | cons x xs ih =>
    cases x with
    | none => simp [firstFree, countFree]
    | some q =>
      simp only [firstFree, List.length_cons] at h
      simpa [firstFree, countFree] using ih (by omega)

theorem length_freeSlotsFrom (xs : Frames) (i : Nat) :
    (freeSlotsFrom xs i).length = countFree xs := by
  induction xs generalizing i with
  | nil => rfl
  | cons x xs ih =>
    cases x with
    | none => simp [freeSlotsFrom, countFree, ih]
    | some p => simp [freeSlotsFrom, countFree, ih]

theorem freeSlotsFrom_eq_cons (xs : Frames) (i : Nat) (p : Page)
    (h : firstFree xs < xs.length) :
    freeSlotsFrom xs i
      = (i + firstFree xs) :: freeSlotsFrom (xs.set (firstFree xs) (some p)) i := by
  induction xs generalizing i with
  | nil => simp at h
  | cons x xs ih =>
    cases x with
    | none => simp [freeSlotsFrom, firstFree]
    | some q =>
      simp only [firstFree, List.length_cons] at h
      have := ih (i + 1) (by omega)
      simp only [freeSlotsFrom, firstFree, List.set_cons_succ]
      rw [this]
      congr 1
      omega

theorem getElem?_set_firstFree_of_some (xs : Frames) (x : Option Page) (k : Nat) (pg : Page)
    (h : xs[k]? = some (some pg)) : (xs.set (firstFree xs) x)[k]? = some (some pg) := by
  by_cases hk : firstFree xs = k
  · by_cases hlt : firstFree xs < xs.length
    · have := getElem?_firstFree xs hlt
      rw [hk, h] at this
      simp at this
    · rw [List.getElem?_eq_none (by omega)] at h
      simp at h
  · rw [List.getElem?_set_ne hk]
    exact h

/-- What the page-assignment loop does when its counter `ramFree` is the number of free RAM
slots and the pages fit: it returns, and the `j`-th new page goes to the `j`-th free RAM
slot while there is one, then to the free SWAP slots in order. -/
theorem allocPages_spec (pid now : Nat) (n : Nat) :
    ∀ (i : Nat) (ram swap : Frames) (pt : List PageTableEntry),
      n ≤ countFree ram + countFree swap →
      ∃ ram1 swap1 pt1,
        allocPages pid now n i (countFree ram) ram swap pt = some (ram1, swap1, pt1) ∧
        pt1.length = pt.length + n ∧
        (∀ j : Nat, j < pt.length → pt1[j]? = pt[j]?) ∧
        countFree ram1 + countFree swap1 + n = countFree ram + countFree swap ∧
        ram1.length = ram.length ∧ swap1.length = swap.length ∧
        (∀ (k : Nat) (pg : Page), ram[k]? = some (some pg) → ram1[k]? = some (some pg)) ∧
        (∀ (k : Nat) (pg : Page), swap[k]? = some (some pg) → swap1[k]? = some (some pg)) ∧
        (∀ j, j < n → j < countFree ram →
          ∃ k, (freeSlots ram)[j]? = some k ∧
            pt1[pt.length + j]? = some ⟨i + j, k, Location.RAM⟩ ∧
            ram1[k]? = some (some ⟨pid, i + j, now⟩)) ∧
        (∀ j, j < n → countFree ram ≤ j →
          ∃ k, (freeSlots swap)[j - countFree ram]? = some k ∧
            pt1[pt.length + j]? = some ⟨i + j, k, Location.SWAP⟩ ∧
            swap1[k]? = some (some ⟨pid, i + j, now⟩)) := by
  induction n with
  | zero =>
    intro i ram swap pt _
    refine ⟨ram, swap, pt, rfl, rfl, fun _ _ => rfl, rfl, rfl, rfl, fun _ _ h => h,
      fun _ _ h => h, ?_, ?_⟩
    · intro j hj; omega
    · intro j hj; omega
  | succ n ih =>
    intro i ram swap pt hfit
    by_cases hram : 0 < countFree ram
    · -- the page goes to RAM
      have hlt : firstFree ram < ram.length := (firstFree_lt_iff ram).2 hram
      have hcnt := countFree_set_some ram ⟨pid, i, now⟩ hlt
      have hcnt1 : countFree ram - 1
          = countFree (ram.set (firstFree ram) (some ⟨pid, i, now⟩)) := by omega
      obtain ⟨ram1, swap1, pt1, hrun, hlen, hpre, hfree, hrl, hsl, hrk, hsk, hR, hS⟩ :=
        ih (i + 1) (ram.set (firstFree ram) (some ⟨pid, i, now⟩)) swap
          (pt ++ [⟨i, firstFree ram, Location.RAM⟩]) (by omega)
      refine ⟨ram1, swap1, pt1, ?_, ?_, ?_, ?_, ?_, hsl, ?_, hsk, ?_, ?_⟩
      · simp only [allocPages, hram, hlt, if_true]
        rw [hcnt1]
        exact hrun
      · simp only [List.length_append, List.length_singleton] at hlen
        omega
      · intro j hj
        rw [hpre j (by simp; omega)]
        exact List.getElem?_append_left hj
      · omega
      · simpa using hrl
      · intro k pg hk
        exact hrk k pg (getElem?_set_firstFree_of_some ram _ k pg hk)
      · intro j hj hjf
        have hcons := freeSlotsFrom_eq_cons ram 0 ⟨pid, i, now⟩ hlt
        cases j with
        | zero =>
          refine ⟨firstFree ram, ?_, ?_, ?_⟩
          · simp [freeSlots, hcons]
          · rw [Nat.add_zero, Nat.add_zero, hpre pt.length (by simp)]
            simp
          · exact hrk _ _ (List.getElem?_set_self hlt)
        | succ j =>
          obtain ⟨k, hk1, hk2, hk3⟩ := hR j (by omega) (by omega)
          refine ⟨k, ?_, ?_, ?_⟩
          · simp only [freeSlots] at hk1 ⊢
            rw [hcons]
            simpa using hk1
          · simp only [List.length_append, List.length_singleton] at hk2
            rw [show pt.length + (j + 1) = pt.length + 1 + j by omega,
              show i + (j + 1) = i + 1 + j by omega]
            exact hk2
          · rw [show i + (j + 1) = i + 1 + j by omega]
            exact hk3
      · intro j hj hjf
        cases j with
        | zero => omega
        | succ j =>
          obtain ⟨k, hk1, hk2, hk3⟩ := hS j (by omega) (by omega)
          refine ⟨k, ?_, ?_, ?_⟩
          · rw [show j + 1 - countFree ram
                = j - countFree (ram.set (firstFree ram) (some ⟨pid, i, now⟩)) by omega]
            exact hk1
          · simp only [List.length_append, List.length_singleton] at hk2
            rw [show pt.length + (j + 1) = pt.length + 1 + j by omega,
              show i + (j + 1) = i + 1 + j by omega]
            exact hk2
          · rw [show i + (j + 1) = i + 1 + j by omega]
            exact hk3
    · -- RAM is full: the page goes to SWAP
      have hzero : countFree ram = 0 := by omega
      have hswap : 0 < countFree swap := by omega
      have hlt : firstFree swap < swap.length := (firstFree_lt_iff swap).2 hswap
      have hcnt := countFree_set_some swap ⟨pid, i, now⟩ hlt
      obtain ⟨ram1, swap1, pt1, hrun, hlen, hpre, hfree, hrl, hsl, hrk, hsk, hR, hS⟩ :=
        ih (i + 1) ram (swap.set (firstFree swap) (some ⟨pid, i, now⟩))
          (pt ++ [⟨i, firstFree swap, Location.SWAP⟩]) (by omega)
      refine ⟨ram1, swap1, pt1, ?_, ?_, ?_, ?_, hrl, ?_, hrk, ?_, ?_, ?_⟩
      · simp only [allocPages, hram, hlt, if_true, if_false]
        exact hrun
      · simp only [List.length_append, List.length_singleton] at hlen
        omega
      · intro j hj
        rw [hpre j (by simp; omega)]
        exact List.getElem?_append_left hj
      · omega
      · simpa using hsl
      · intro k pg hk
        exact hsk k pg (getElem?_set_firstFree_of_some swap _ k pg hk)
      · intro j hj hjf
        omega
      · intro j hj hjf
        have hcons := freeSlotsFrom_eq_cons swap 0 ⟨pid, i, now⟩ hlt
        cases j with
        | zero =>
          refine ⟨firstFree swap, ?_, ?_, ?_⟩
          · simp [freeSlots, hcons]
          · rw [Nat.add_zero, Nat.add_zero, hpre pt.length (by simp)]
            simp
          · exact hsk _ _ (List.getElem?_set_self hlt)
        | succ j =>
          obtain ⟨k, hk1, hk2, hk3⟩ := hS j (by omega) (by omega)
          refine ⟨k, ?_, ?_, ?_⟩
          · simp only [freeSlots, hzero, Nat.sub_zero] at hk1 ⊢
            rw [hcons]
            simpa using hk1
          · simp only [List.length_append, List.length_singleton] at hk2
            rw [show pt.length + (j + 1) = pt.length + 1 + j by omega,
              show i + (j + 1) = i + 1 + j by omega]
            exact hk2
          · rw [show i + (j + 1) = i + 1 + j by omega]
            exact hk3

theorem getElem?_freeSlotsFrom (xs : Frames) (i j k : Nat)
    (h : (freeSlotsFrom xs i)[j]? = some k) : i ≤ k ∧ xs[k - i]? = some none := by
  induction xs generalizing i j with
  | nil => simp [freeSlotsFrom] at h
  | cons x xs ih =>
    cases x with
    | none =>
      cases j with
      | zero =>
        simp only [freeSlotsFrom, List.getElem?_cons_zero, Option.some.injEq] at h
        subst h
        simp
      | succ j =>
        simp only [freeSlotsFrom, List.getElem?_cons_succ] at h
        obtain ⟨h1, h2⟩ := ih (i + 1) j h
        refine ⟨by omega, ?_⟩
        rw [show k - i = (k - (i + 1)) + 1 by omega]
        simpa using h2
    | some p =>
      simp only [freeSlotsFrom] at h
      obtain ⟨h1, h2⟩ := ih (i + 1) j h
      refine ⟨by omega, ?_⟩
      rw [show k - i = (k - (i + 1)) + 1 by omega]
      simpa using h2

theorem freeSlotsFrom_lower (xs : Frames) (i k : Nat) (h : k ∈ freeSlotsFrom xs i) : i ≤ k := by
  obtain ⟨j, hj⟩ := List.getElem?_of_mem h
  exact (getElem?_freeSlotsFrom xs i j k hj).1

theorem freeSlotsFrom_increasing (xs : Frames) (i : Nat) :
    (freeSlotsFrom xs i).Pairwise (fun a b => a < b) := by
  induction xs generalizing i with
  | nil => simp [freeSlotsFrom]
  | cons x xs ih =>
    cases x with
    | none =>
      simp only [freeSlotsFrom, List.pairwise_cons]
      refine ⟨?_, ih (i + 1)⟩
      intro k hk
      have := freeSlotsFrom_lower xs (i + 1) k hk
      omega
    | some p =>
      simp only [freeSlotsFrom]
      exact ih (i + 1)

theorem mem_freeSlotsFrom (xs : Frames) (i k : Nat) :
    k ∈ freeSlotsFrom xs i ↔ i ≤ k ∧ xs[k - i]? = some none := by
  induction xs generalizing i with
  | nil => simp [freeSlotsFrom]
  | cons x xs ih =>
    have hstep : ∀ (y : Option Page), i + 1 ≤ k →
        ((y :: xs)[k - i]? = xs[k - (i + 1)]?) := by
      intro y hk
      rw [show k - i = (k - (i + 1)) + 1 by omega]
      simp
    cases x with
    | none =>
      simp only [freeSlotsFrom, List.mem_cons, ih (i + 1)]
      constructor
      · rintro (rfl | ⟨h1, h2⟩)
        · simp
        · exact ⟨by omega, by rw [hstep none h1]; exact h2⟩
      · rintro ⟨h1, h2⟩
        by_cases hk : k = i
        · exact Or.inl hk
        · right
          have h3 : i + 1 ≤ k := by omega
          exact ⟨h3, by rw [← hstep none h3]; exact h2⟩
    | some p =>
      simp only [freeSlotsFrom, ih (i + 1)]
      constructor
      · rintro ⟨h1, h2⟩
        exact ⟨by omega, by rw [hstep (some p) h1]; exact h2⟩
      · rintro ⟨h1, h2⟩
        by_cases hk : k = i
        · subst hk
          simp at h2
        · have h3 : i + 1 ≤ k := by omega
          exact ⟨h3, by rw [← hstep (some p) h3]; exact h2⟩

/-- The list `freeSlots xs` holds exactly the indices of the free slots of `xs`. -/
theorem mem_freeSlots (xs : Frames) (k : Nat) : k ∈ freeSlots xs ↔ xs[k]? = some none := by
  simp [freeSlots, mem_freeSlotsFrom]

/-- The list `freeSlots xs` is strictly increasing: its `j`-th element is the free slot with
the `(j+1)`-th lowest index. -/
theorem freeSlots_increasing (xs : Frames) : (freeSlots xs).Pairwise (fun a b => a < b) :=
  freeSlotsFrom_increasing xs 0

theorem length_freeSlots (xs : Frames) : (freeSlots xs).length = countFree xs :=
  length_freeSlotsFrom xs 0

/-! ## The lost victim: a fault taken while the SWAP pool is full -/

/-- The simulator built with 1 MB of physical memory, 2 MB drawn for the virtual memory and
1024 KB pages has one RAM slot and one SWAP slot. -/
theorem construct_one_one : construct 1 2 1024 = some (freshState 1024 1 1) := by
  decide

/-- State after one process of 1500 KB (two pages) is created at clock reading 0 and its
virtual page 1 is accessed at clock reading 1, on one RAM slot and one SWAP slot. -/
theorem run_lost_victim :
    run (freshState 1024 1 1) [Op.create 1500 0 0, Op.access 0 1 1 1]
      = some
          { pageSizeKB := 1024
            ram := [some ⟨1, 1, 1⟩]
            swap := [none]
            processes := [⟨1, 1500, 2, [⟨0, 0, Location.RAM⟩, ⟨1, 0, Location.RAM⟩], 0⟩]
            nextPid := 2
            pageFaults := 1
            processesCreated := 1
            processesFinished := 0 } := by
  decide

/-- C1, evaluated on the code: a reachable state in which one slot is occupied while the
live processes have two pages.  The fault finds the SWAP pool full, the victim is not
moved, and the faulting page overwrites it in RAM. -/
theorem conservation_lost_victim :
    ∃ s, Reachable s ∧ countUsed s.ram + countUsed s.swap = 1 ∧ totalPages s.processes = 2 :=
  ⟨_, ⟨1024, 1, 1, [Op.create 1500 0 0, Op.access 0 1 1 1], by decide, run_lost_victim⟩,
    by decide, by decide⟩

/-- C2, evaluated on the code: a reachable state in which the entries of virtual pages 0 and 1
of the same process both are (RAM, frame 0). -/
theorem uniqueness_lost_victim :
    ∃ s p e0 e1, Reachable s ∧ p ∈ s.processes ∧
      p.pageTable[0]? = some e0 ∧ p.pageTable[1]? = some e1 ∧
      e0.location = e1.location ∧ e0.physicalFrame = e1.physicalFrame :=
  ⟨_, ⟨1, 1500, 2, [⟨0, 0, Location.RAM⟩, ⟨1, 0, Location.RAM⟩], 0⟩, ⟨0, 0, Location.RAM⟩,
    ⟨1, 0, Location.RAM⟩,
    ⟨1024, 1, 1, [Op.create 1500 0 0, Op.access 0 1 1 1], by decide, run_lost_victim⟩,
    by simp, by simp, by simp, rfl, rfl⟩

/-- C6, evaluated on the code: in a reachable state, finishing a live process with
`numPages = 2` raises the number of free slots by one only, since both of its entries point
at the same RAM slot. -/
theorem termination_lost_victim :
    ∃ s p s1, Reachable s ∧ s.processes[0]? = some p ∧ p.numPages = 2 ∧
      finishRandomProcess s 0 = some s1 ∧ totalFree s1 = totalFree s + 1 :=
  ⟨_, ⟨1, 1500, 2, [⟨0, 0, Location.RAM⟩, ⟨1, 0, Location.RAM⟩], 0⟩,
    { pageSizeKB := 1024, ram := [none], swap := [none], processes := [], nextPid := 2,
      pageFaults := 1, processesCreated := 1, processesFinished := 1 },
    ⟨1024, 1, 1, [Op.create 1500 0 0, Op.access 0 1 1 1], by decide, run_lost_victim⟩,
    by simp, rfl, by decide, by decide⟩

/-! ## Process creation -/

/-- C3, admission atomicity: when `createProcess` returns false, the state (both pools, the
process list with the page tables, `nextPid` and the three counters) is the state before
the call. -/
theorem createProcess_failure_unchanged (s s1 : State) (sizeKB creationTime now : Nat)
    (h : createProcess s sizeKB creationTime now = some (false, s1)) : s1 = s := by
  unfold createProcess at h
  split at h
  · simp at h
  · simp only at h
    split at h
    · simp only [Option.some.injEq, Prod.mk.injEq, true_and] at h
      exact h.symm
    · split at h <;> simp at h

theorem createProcess_failure_unchanged_witness :
    createProcess (freshState 4 1 1) 12 0 0 = some (false, freshState 4 1 1) ∧
      freshState 4 1 1 = freshState 4 1 1 :=
  ⟨by decide, createProcess_failure_unchanged (freshState 4 1 1) (freshState 4 1 1) 12 0 0
    (by decide)⟩

/-- Result of `createProcess` when the pages fit. -/
theorem createProcess_success (s : State) (sizeKB creationTime now : Nat)
    (hps : 0 < s.pageSizeKB)
    (hfit : pagesNeeded sizeKB s.pageSizeKB ≤ countFree s.ram + countFree s.swap) :
    ∃ ram1 swap1 pt1,
      allocPages s.nextPid now (pagesNeeded sizeKB s.pageSizeKB) 0 (countFree s.ram)
        s.ram s.swap [] = some (ram1, swap1, pt1) ∧
      createProcess s sizeKB creationTime now = some (true,
        { s with
          ram := ram1
          swap := swap1
          processes := s.processes ++
            [⟨s.nextPid, sizeKB, pagesNeeded sizeKB s.pageSizeKB, pt1, creationTime⟩]
          nextPid := s.nextPid + 1
          processesCreated := s.processesCreated + 1 }) := by
  obtain ⟨ram1, swap1, pt1, hrun, -⟩ :=
    allocPages_spec s.nextPid now (pagesNeeded sizeKB s.pageSizeKB) 0 s.ram s.swap [] hfit
  refine ⟨ram1, swap1, pt1, hrun, ?_⟩
  unfold createProcess
  rw [if_neg (by omega)]
  simp only
  rw [if_neg (by omega), hrun]

/-- C5, creation placement: a successful `createProcess` appends a process with the new pid
whose virtual page `i` is in the `(i+1)`-th lowest free RAM slot of the state before the
call as long as `i` is below the number `f` of free RAM slots, and in the `(i-f+1)`-th
lowest free SWAP slot from there on; the page-table entry holds that tier and index and the
slot holds the new pid, the page number `i` and `loadTime = now`.  Second part: on 4 RAM and
4 SWAP slots, all free, with 4 KB pages, creating A (12 KB, 3 pages) and B (8 KB, 2 pages)
puts A's pages in RAM slots 0, 1, 2, B's page 0 in RAM slot 3 and B's page 1 in SWAP slot 0. -/
theorem createProcess_placement :
    (∀ (s s1 : State) (sizeKB creationTime now : Nat),
      createProcess s sizeKB creationTime now = some (true, s1) →
      ∃ p, s1.processes = s.processes ++ [p] ∧ p.pid = s.nextPid ∧
        p.numPages = pagesNeeded sizeKB s.pageSizeKB ∧
        p.pageTable.length = p.numPages ∧
        (∀ i, i < p.numPages → i < countFree s.ram →
          ∃ k, (freeSlots s.ram)[i]? = some k ∧
            p.pageTable[i]? = some ⟨i, k, Location.RAM⟩ ∧
            s1.ram[k]? = some (some ⟨s.nextPid, i, now⟩)) ∧
        (∀ i, i < p.numPages → countFree s.ram ≤ i →
          ∃ k, (freeSlots s.swap)[i - countFree s.ram]? = some k ∧
            p.pageTable[i]? = some ⟨i, k, Location.SWAP⟩ ∧
            s1.swap[k]? = some (some ⟨s.nextPid, i, now⟩))) ∧
    (∀ cA tA cB tB : Nat,
      run (freshState 4 4 4) [Op.create 12 cA tA, Op.create 8 cB tB]
        = some
            { pageSizeKB := 4
              ram := [some ⟨1, 0, tA⟩, some ⟨1, 1, tA⟩, some ⟨1, 2, tA⟩, some ⟨2, 0, tB⟩]
              swap := [some ⟨2, 1, tB⟩, none, none, none]
              processes :=
                [⟨1, 12, 3, [⟨0, 0, Location.RAM⟩, ⟨1, 1, Location.RAM⟩,
                    ⟨2, 2, Location.RAM⟩], cA⟩,
                  ⟨2, 8, 2, [⟨0, 3, Location.RAM⟩, ⟨1, 0, Location.SWAP⟩], cB⟩]
              nextPid := 3
              pageFaults := 0
              processesCreated := 2
              processesFinished := 0 }) := by
  refine ⟨?_, ?_⟩
  · intro s s1 sizeKB creationTime now h
    have hps : 0 < s.pageSizeKB := by
      by_contra h0
      unfold createProcess at h
      rw [if_pos (by omega)] at h
      simp at h
    have hfit : pagesNeeded sizeKB s.pageSizeKB ≤ countFree s.ram + countFree s.swap := by
      by_contra hnot
      unfold createProcess at h
      rw [if_neg (by omega)] at h
      simp only at h
      rw [if_pos (by omega)] at h
      simp at h
    obtain ⟨ram1, swap1, pt1, hrun, hcp⟩ :=
      createProcess_success s sizeKB creationTime now hps hfit
    obtain ⟨r, w, t, hrun2, hlen, -, -, -, -, -, -, hR, hS⟩ :=
      allocPages_spec s.nextPid now (pagesNeeded sizeKB s.pageSizeKB) 0 s.ram s.swap [] hfit
    rw [hrun] at hrun2
    simp only [Option.some.injEq, Prod.mk.injEq] at hrun2
    obtain ⟨rfl, rfl, rfl⟩ := hrun2
    rw [hcp] at h
    simp only [Option.some.injEq, Prod.mk.injEq, true_and] at h
    subst h
    refine ⟨_, rfl, rfl, rfl, by simpa using hlen, ?_, ?_⟩
    · intro i hi hif
      obtain ⟨k, h1, h2, h3⟩ := hR i hi hif
      exact ⟨k, h1, by simpa using h2, by simpa using h3⟩
    · intro i hi hif
      obtain ⟨k, h1, h2, h3⟩ := hS i hi hif
      exact ⟨k, h1, by simpa using h2, by simpa using h3⟩
  · intro cA tA cB tB
    simp [run, step, createProcess, pagesNeeded, freshState, countFree, allocPages, firstFree,
      List.replicate]

theorem createProcess_placement_witness :
    ∃ p, [⟨1, 12, 3, [⟨0, 0, Location.RAM⟩, ⟨1, 0, Location.SWAP⟩, ⟨2, 1, Location.SWAP⟩], 7⟩]
        = (freshState 4 1 2).processes ++ [p] ∧ p.pid = (freshState 4 1 2).nextPid ∧
      p.numPages = pagesNeeded 12 (freshState 4 1 2).pageSizeKB ∧
      p.pageTable.length = p.numPages ∧
      (∀ i, i < p.numPages → i < countFree (freshState 4 1 2).ram →
        ∃ k, (freeSlots (freshState 4 1 2).ram)[i]? = some k ∧
          p.pageTable[i]? = some ⟨i, k, Location.RAM⟩ ∧
          [some (⟨1, 0, 9⟩ : Page)][k]? = some (some ⟨(freshState 4 1 2).nextPid, i, 9⟩)) ∧
      (∀ i, i < p.numPages → countFree (freshState 4 1 2).ram ≤ i →
        ∃ k, (freeSlots (freshState 4 1 2).swap)[i - countFree (freshState 4 1 2).ram]? = some k ∧
          p.pageTable[i]? = some ⟨i, k, Location.SWAP⟩ ∧
          [some (⟨1, 1, 9⟩ : Page), some ⟨1, 2, 9⟩][k]?
            = some (some ⟨(freshState 4 1 2).nextPid, i, 9⟩)) :=
  createProcess_placement.1 (freshState 4 1 2)
    { pageSizeKB := 4
      ram := [some ⟨1, 0, 9⟩]
      swap := [some ⟨1, 1, 9⟩, some ⟨1, 2, 9⟩]
      processes :=
        [⟨1, 12, 3, [⟨0, 0, Location.RAM⟩, ⟨1, 0, Location.SWAP⟩, ⟨2, 1, Location.SWAP⟩], 7⟩]
      nextPid := 2
      pageFaults := 0
      processesCreated := 1
      processesFinished := 0 }
    12 7 9 (by decide)

/-! ## Access: hit -/

/-- A hit returns the state it was given. -/
theorem access_hit_eq (s : State) (procIdx virtualPage tScan tLoad : Nat)
    (proc : Process) (entry : PageTableEntry)
    (hproc : s.processes[procIdx]? = some proc)
    (hentry : proc.pageTable[virtualPage]? = some entry)
    (hloc : entry.location = Location.RAM) :
    accessVirtualAddress s procIdx virtualPage tScan tLoad = some s := by
  unfold accessVirtualAddress
  split
  · rfl
  · simp only [hproc, hentry, hloc]

/-- C7, hit transparency: an access to a virtual page of a live process whose page-table
entry has location RAM returns the state it was given: every RAM and SWAP slot with its
`loadTime`, every page table, the process list and `pageFaults` are unchanged. -/
theorem access_hit_unchanged (s : State) (procIdx virtualPage tScan tLoad : Nat)
    (proc : Process) (entry : PageTableEntry)
    (hproc : s.processes[procIdx]? = some proc)
    (hentry : proc.pageTable[virtualPage]? = some entry)
    (hloc : entry.location = Location.RAM) :
    accessVirtualAddress s procIdx virtualPage tScan tLoad = some s := by
  unfold accessVirtualAddress
  split
  · rfl
  · simp only [hproc, hentry, hloc]

theorem access_hit_unchanged_witness :
    accessVirtualAddress
      { pageSizeKB := 4, ram := [some ⟨1, 0, 3⟩], swap := [some ⟨1, 1, 3⟩],
        processes := [⟨1, 8, 2, [⟨0, 0, Location.RAM⟩, ⟨1, 0, Location.SWAP⟩], 3⟩],
        nextPid := 2, pageFaults := 0, processesCreated := 1, processesFinished := 0 }
      0 0 10 10
    = some
      { pageSizeKB := 4, ram := [some ⟨1, 0, 3⟩], swap := [some ⟨1, 1, 3⟩],
        processes := [⟨1, 8, 2, [⟨0, 0, Location.RAM⟩, ⟨1, 0, Location.SWAP⟩], 3⟩],
        nextPid := 2, pageFaults := 0, processesCreated := 1, processesFinished := 0 } :=
  access_hit_unchanged _ 0 0 10 10
    ⟨1, 8, 2, [⟨0, 0, Location.RAM⟩, ⟨1, 0, Location.SWAP⟩], 3⟩ ⟨0, 0, Location.RAM⟩
    (by decide) (by decide) rfl

/-! ## Access: victim selection -/

/-- The FIFO scan, whatever its starting values: either no occupied slot is older than
`oldestTime` and the scan keeps `victimFrame`, or it returns the lowest-index slot among
the occupied slots of minimum `loadTime`, and that `loadTime` is below `oldestTime`. -/
theorem scanVictim_spec (xs : Frames) :
    ∀ (i t : Nat) (v : Option Nat),
      (scanVictim xs i t v = v ∧
        ∀ (k : Nat) (p : Page), xs[k]? = some (some p) → t ≤ p.loadTime) ∨
      (∃ (k : Nat) (p : Page), scanVictim xs i t v = some (i + k) ∧
        xs[k]? = some (some p) ∧ p.loadTime < t ∧
        (∀ (m : Nat) (q : Page), xs[m]? = some (some q) → p.loadTime ≤ q.loadTime) ∧
        (∀ (m : Nat) (q : Page), xs[m]? = some (some q) → q.loadTime = p.loadTime → k ≤ m)) := by
  induction xs with
  | nil =>
    intro i t v
    left
    exact ⟨rfl, by intro k p h; simp at h⟩
  | cons x xs ih =>
    intro i t v
    cases x with
    | none =>
      rcases ih (i + 1) t v with ⟨h1, h2⟩ | ⟨k, p, h1, h2, h3, h4, h5⟩
      · left
        refine ⟨by simpa [scanVictim] using h1, ?_⟩
        intro k p hk
        cases k with
        | zero => simp at hk
        | succ k => exact h2 k p (by simpa using hk)
      · right
        refine ⟨k + 1, p, ?_, by simpa using h2, h3, ?_, ?_⟩
        · simp only [scanVictim]
          rw [h1]
          congr 1
          omega
        · intro m q hm
          cases m with
          | zero => simp at hm
          | succ m => exact h4 m q (by simpa using hm)
        · intro m q hm hq
          cases m with
          | zero => simp at hm
          | succ m =>
            have := h5 m q (by simpa using hm) hq
            omega
    | some a =>
      by_cases hlt : a.loadTime < t
      · rcases ih (i + 1) a.loadTime (some i) with ⟨h1, h2⟩ | ⟨k, p, h1, h2, h3, h4, h5⟩
        · right
          refine ⟨0, a, ?_, by simp, hlt, ?_, ?_⟩
          · simp only [scanVictim, hlt, if_true]
            rw [h1]
            simp
          · intro m q hm
            cases m with
            | zero =>
              simp only [List.getElem?_cons_zero, Option.some.injEq] at hm
              subst hm
              exact Nat.le_refl _
            | succ m => exact h2 m q (by simpa using hm)
          · intro m q _ _
            omega
        · right
          refine ⟨k + 1, p, ?_, by simpa using h2, by omega, ?_, ?_⟩
          · simp only [scanVictim, hlt, if_true]
            rw [h1]
            congr 1
            omega
          · intro m q hm
            cases m with
            | zero =>
              simp only [List.getElem?_cons_zero, Option.some.injEq] at hm
              subst hm
              omega
            | succ m => exact h4 m q (by simpa using hm)
          · intro m q hm hq
            cases m with
            | zero =>
              simp only [List.getElem?_cons_zero, Option.some.injEq] at hm
              subst hm
              omega
            | succ m =>
              have := h5 m q (by simpa using hm) hq
              omega
      · rcases ih (i + 1) t v with ⟨h1, h2⟩ | ⟨k, p, h1, h2, h3, h4, h5⟩
        · left
          refine ⟨by simpa [scanVictim, hlt] using h1, ?_⟩
          intro k p hk
          cases k with
          | zero =>
            simp only [List.getElem?_cons_zero, Option.some.injEq] at hk
            subst hk
            omega
          | succ k => exact h2 k p (by simpa using hk)
        · right
          refine ⟨k + 1, p, ?_, by simpa using h2, h3, ?_, ?_⟩
          · simp only [scanVictim, hlt, if_false]
            rw [h1]
            congr 1
            omega
          · intro m q hm
            cases m with
            | zero =>
              simp only [List.getElem?_cons_zero, Option.some.injEq] at hm
              subst hm
              omega
            | succ m => exact h4 m q (by simpa using hm)
          · intro m q hm hq
            cases m with
            | zero =>
              simp only [List.getElem?_cons_zero, Option.some.injEq] at hm
              subst hm
              omega
            | succ m =>
              have := h5 m q (by simpa using hm) hq
              omega

/-- No victim is selected exactly when no occupied RAM slot was loaded before `now`. -/
theorem findVictim_eq_none_iff (ram : Frames) (now : Nat) :
    findVictim ram now = none ↔
      ∀ (k : Nat) (p : Page), ram[k]? = some (some p) → now ≤ p.loadTime := by
  unfold findVictim
  rcases scanVictim_spec ram 0 now none with ⟨h1, h2⟩ | ⟨k, p, h1, h2, h3, -, -⟩
  · exact ⟨fun _ => h2, fun _ => h1⟩
  · constructor
    · intro h
      rw [h1] at h
      simp at h
    · intro h
      have := h k p h2
      omega

/-- A selected victim frame is an occupied RAM slot loaded before `now`, of minimum `loadTime`,
and of lowest index among the slots with that `loadTime`. -/
theorem findVictim_eq_some (ram : Frames) (now v : Nat) (h : findVictim ram now = some v) :
    ∃ victim : Page, ram[v]? = some (some victim) ∧ victim.loadTime < now ∧
      (∀ (m : Nat) (q : Page), ram[m]? = some (some q) → victim.loadTime ≤ q.loadTime) ∧
      (∀ (m : Nat) (q : Page), ram[m]? = some (some q) →
        q.loadTime = victim.loadTime → v ≤ m) := by
  unfold findVictim at h
  rcases scanVictim_spec ram 0 now none with ⟨h1, -⟩ | ⟨k, p, h1, h2, h3, h4, h5⟩
  · rw [h1] at h
    simp at h
  · rw [h1] at h
    simp only [Nat.zero_add, Option.some.injEq] at h
    subst h
    exact ⟨p, h2, h3, h4, h5⟩

/-- C8 as stated fails on the code: one process of two pages is created at clock reading 5
on one RAM slot and one SWAP slot, and its page 1 (in SWAP) is accessed at the same reading.
RAM slot 0 is occupied, yet no victim is selected: the fault is counted and nothing moves. -/
theorem victim_selection_same_reading :
    run (freshState 4 1 1) [Op.create 8 5 5]
      = some
          { pageSizeKB := 4, ram := [some ⟨1, 0, 5⟩], swap := [some ⟨1, 1, 5⟩],
            processes := [⟨1, 8, 2, [⟨0, 0, Location.RAM⟩, ⟨1, 0, Location.SWAP⟩], 5⟩],
            nextPid := 2, pageFaults := 0, processesCreated := 1, processesFinished := 0 } ∧
    findVictim [some ⟨1, 0, 5⟩] 5 = none ∧
    accessVirtualAddress
        { pageSizeKB := 4, ram := [some ⟨1, 0, 5⟩], swap := [some ⟨1, 1, 5⟩],
          processes := [⟨1, 8, 2, [⟨0, 0, Location.RAM⟩, ⟨1, 0, Location.SWAP⟩], 5⟩],
          nextPid := 2, pageFaults := 0, processesCreated := 1, processesFinished := 0 }
        0 1 5 5
      = some
          { pageSizeKB := 4, ram := [some ⟨1, 0, 5⟩], swap := [some ⟨1, 1, 5⟩],
            processes := [⟨1, 8, 2, [⟨0, 0, Location.RAM⟩, ⟨1, 0, Location.SWAP⟩], 5⟩],
            nextPid := 2, pageFaults := 1, processesCreated := 1, processesFinished := 0 } := by
  decide

/-- C8, amended: when at least one occupied RAM slot has a `loadTime` strictly earlier than
the clock reading `now` taken at the fault, the scan selects a victim; the victim is an
occupied RAM slot, its `loadTime` is the minimum over all occupied RAM slots, and it has
the lowest index among the slots with that `loadTime`. -/
theorem victim_selection_oldest_lowest (s : State) (now : Nat)
    (h : ∃ (i : Nat) (p : Page), s.ram[i]? = some (some p) ∧ p.loadTime < now) :
    ∃ (v : Nat) (victim : Page), findVictim s.ram now = some v ∧
      s.ram[v]? = some (some victim) ∧
      (∀ (i : Nat) (p : Page), s.ram[i]? = some (some p) → victim.loadTime ≤ p.loadTime) ∧
      (∀ (i : Nat) (p : Page), s.ram[i]? = some (some p) →
        p.loadTime = victim.loadTime → v ≤ i) := by
  obtain ⟨i, p, hp, hlt⟩ := h
  rcases hres : findVictim s.ram now with _ | v
  · have := (findVictim_eq_none_iff s.ram now).1 hres i p hp
    omega
  · obtain ⟨victim, h1, -, h3, h4⟩ := findVictim_eq_some s.ram now v hres
    exact ⟨v, victim, rfl, h1, h3, h4⟩

theorem victim_selection_oldest_lowest_witness :
    ∃ (v : Nat) (victim : Page),
      findVictim (State.mk 4 [some ⟨1, 0, 7⟩, some ⟨1, 1, 3⟩, some ⟨2, 0, 3⟩] [] [] 3 0 2 0).ram 9
        = some v ∧
      (State.mk 4 [some ⟨1, 0, 7⟩, some ⟨1, 1, 3⟩, some ⟨2, 0, 3⟩] [] [] 3 0 2 0).ram[v]?
        = some (some victim) ∧
      (∀ (i : Nat) (p : Page),
        (State.mk 4 [some ⟨1, 0, 7⟩, some ⟨1, 1, 3⟩, some ⟨2, 0, 3⟩] [] [] 3 0 2 0).ram[i]?
          = some (some p) → victim.loadTime ≤ p.loadTime) ∧
      (∀ (i : Nat) (p : Page),
        (State.mk 4 [some ⟨1, 0, 7⟩, some ⟨1, 1, 3⟩, some ⟨2, 0, 3⟩] [] [] 3 0 2 0).ram[i]?
          = some (some p) → p.loadTime = victim.loadTime → v ≤ i) :=
  victim_selection_oldest_lowest
    (State.mk 4 [some ⟨1, 0, 7⟩, some ⟨1, 1, 3⟩, some ⟨2, 0, 3⟩] [] [] 3 0 2 0) 9
    ⟨1, ⟨1, 1, 3⟩, by decide, by decide⟩

/-! ## In-place updates of the process list -/

theorem length_modifyAt {α : Type} (f : α → α) (xs : List α) (n : Nat) :
    (modifyAt f xs n).length = xs.length := by
  induction xs generalizing n with
  | nil => rfl
  | cons x xs ih =>
    cases n with
    | zero => rfl
    | succ n => simp [modifyAt, ih]

theorem getElem?_modifyAt {α : Type} (f : α → α) (xs : List α) (n m : Nat) :
    (modifyAt f xs n)[m]? = if n = m then xs[m]?.map f else xs[m]? := by
  induction xs generalizing n m with
  | nil => simp [modifyAt]
  | cons x xs ih =>
    cases n with
    | zero =>
      cases m with
      | zero => simp [modifyAt]
      | succ m => simp [modifyAt]
    | succ n =>
      cases m with
      | zero => simp [modifyAt]
      | succ m => simp [modifyAt, ih]

theorem loadEntry_eq_writeEntry (procs : List Process) (i j frame : Nat) :
    loadEntry procs i j frame = writeEntry procs i j frame Location.RAM := rfl

theorem entryAt_eq_some (procs : List Process) (i j : Nat) (e : PageTableEntry) :
    entryAt procs i j = some e ↔ ∃ p, procs[i]? = some p ∧ p.pageTable[j]? = some e := by
  unfold entryAt
  cases procs[i]? with
  | none => simp
  | some p => simp

theorem pidAt_eq_some (procs : List Process) (i pid : Nat) :
    pidAt procs i = some pid ↔ ∃ p, procs[i]? = some p ∧ p.pid = pid := by
  unfold pidAt
  cases procs[i]? with
  | none => simp
  | some p => simp

theorem pidAt_writeEntry (procs : List Process) (i j frame : Nat) (loc : Location) (m : Nat) :
    pidAt (writeEntry procs i j frame loc) m = pidAt procs m := by
  unfold pidAt writeEntry
  rw [getElem?_modifyAt]
  by_cases h : i = m
  · subst h
    cases procs[i]? <;> simp
  · simp [h]

theorem entryAt_writeEntry (procs : List Process) (i j frame : Nat) (loc : Location)
    (m n : Nat) :
    entryAt (writeEntry procs i j frame loc) m n
      = if i = m ∧ j = n then
          (entryAt procs m n).map (fun e => { e with physicalFrame := frame, location := loc })
        else entryAt procs m n := by
  unfold entryAt writeEntry
  rw [getElem?_modifyAt]
  by_cases h : i = m
  · subst h
    cases procs[i]? with
    | none => simp
    | some p =>
      simp only [Option.map_some', if_true, true_and]
      rw [getElem?_modifyAt]
  · simp [h]

theorem length_writeEntry (procs : List Process) (i j frame : Nat) (loc : Location) :
    (writeEntry procs i j frame loc).length = procs.length :=
  length_modifyAt _ _ _

theorem modifyAt_congr {α : Type} (f g : α → α) (xs : List α) (n : Nat)
    (h : ∀ x, xs[n]? = some x → f x = g x) : modifyAt f xs n = modifyAt g xs n := by
  induction xs generalizing n with
  | nil => rfl
  | cons x xs ih =>
    cases n with
    | zero =>
      simp only [modifyAt]
      rw [h x (by simp)]
    | succ n =>
      simp only [modifyAt]
      rw [ih n (fun y hy => h y (by simpa using hy))]

/-! ## Relocation of the victim -/

/-- The inner relocation loop when the entry `j` is the first one that matches and a SWAP slot
is free: entry `j` is rewritten to the first free SWAP slot, which receives the victim. -/
theorem relocateEntry_of_first (victim : Page) (swap : Frames)
    (hfree : firstFree swap < swap.length) :
    ∀ (pt : List PageTableEntry) (j : Nat) (e : PageTableEntry),
      pt[j]? = some e → e.virtualPage = victim.pageNum → e.location = Location.RAM →
      (∀ (m : Nat) (a : PageTableEntry), m < j → pt[m]? = some a →
        ¬ (a.virtualPage = victim.pageNum ∧ a.location = Location.RAM)) →
      relocateEntry victim pt swap
        = (modifyAt
            (fun a => { a with physicalFrame := firstFree swap, location := Location.SWAP })
            pt j,
          swap.set (firstFree swap) (some victim)) := by
  intro pt
  induction pt with
  | nil => intro j e h; simp at h
  | cons x xs ih =>
    intro j e hj hvp hloc hfirst
    cases j with
    | zero =>
      simp only [List.getElem?_cons_zero, Option.some.injEq] at hj
      subst hj
      simp [relocateEntry, hvp, hloc, hfree, modifyAt]
    | succ j =>
      have hx : ¬ (x.virtualPage = victim.pageNum ∧ x.location = Location.RAM) :=
        hfirst 0 x (by omega) (by simp)
      have := ih j e (by simpa using hj) hvp hloc
        (fun m a hm ha => hfirst (m + 1) a (by omega) (by simpa using ha))
      simp only [relocateEntry, hx, if_false, modifyAt]
      rw [this]

/-- The inner relocation loop in general: either nothing changes, or one entry with location
RAM is rewritten to the first free SWAP slot, which receives the victim. -/
theorem relocateEntry_cases (victim : Page) (swap : Frames) :
    ∀ (pt : List PageTableEntry),
      relocateEntry victim pt swap = (pt, swap) ∨
      ∃ (j : Nat) (e : PageTableEntry), pt[j]? = some e ∧ e.location = Location.RAM ∧
        firstFree swap < swap.length ∧
        relocateEntry victim pt swap
          = (modifyAt
              (fun a => { a with physicalFrame := firstFree swap, location := Location.SWAP })
              pt j,
            swap.set (firstFree swap) (some victim)) := by
  intro pt
  induction pt with
  | nil => left; rfl
  | cons x xs ih =>
    by_cases hx : x.virtualPage = victim.pageNum ∧ x.location = Location.RAM
    · by_cases hfree : firstFree swap < swap.length
      · right
        exact ⟨0, x, by simp, hx.2, hfree, by simp [relocateEntry, hx, hfree, modifyAt]⟩
      · left
        simp [relocateEntry, hx, hfree]
    · rcases ih with h | ⟨j, e, h1, h2, h3, h4⟩
      · left
        simp only [relocateEntry, hx, if_false]
        rw [h]
      · right
        refine ⟨j + 1, e, by simpa using h1, h2, h3, ?_⟩
        simp only [relocateEntry, hx, if_false, modifyAt]
        rw [h4]

/-- The outer relocation loop stops at the first process with the victim's pid. -/
theorem relocateVictim_of_first (victim : Page) (swap : Frames) :
    ∀ (procs : List Process) (i : Nat) (p : Process),
      procs[i]? = some p → p.pid = victim.pid →
      (∀ (m : Nat) (a : Process), m < i → procs[m]? = some a → a.pid ≠ victim.pid) →
      relocateVictim victim procs swap
        = (modifyAt
            (fun q => { q with pageTable := (relocateEntry victim q.pageTable swap).1 })
            procs i,
          (relocateEntry victim p.pageTable swap).2) := by
  intro procs
  induction procs with
  | nil => intro i p h; simp at h
  | cons x xs ih =>
    intro i p hi hpid hfirst
    cases i with
    | zero =>
      simp only [List.getElem?_cons_zero, Option.some.injEq] at hi
      subst hi
      simp [relocateVictim, hpid, modifyAt]
    | succ i =>
      have hx : x.pid ≠ victim.pid := hfirst 0 x (by omega) (by simp)
      have := ih i p (by simpa using hi) hpid
        (fun m a hm ha => hfirst (m + 1) a (by omega) (by simpa using ha))
      simp only [relocateVictim, hx, if_false, modifyAt]
      rw [this]

/-- The victim relocation in general: either nothing changes, or one entry with location RAM
is rewritten to the first free SWAP slot, which receives the victim. -/
theorem relocateVictim_cases (victim : Page) (swap : Frames) :
    ∀ (procs : List Process),
      relocateVictim victim procs swap = (procs, swap) ∨
      ∃ (i j : Nat) (e : PageTableEntry), entryAt procs i j = some e ∧
        e.location = Location.RAM ∧ firstFree swap < swap.length ∧
        relocateVictim victim procs swap
          = (writeEntry procs i j (firstFree swap) Location.SWAP,
            swap.set (firstFree swap) (some victim)) := by
  intro procs
  induction procs with
  | nil => left; rfl
  | cons x xs ih =>
    by_cases hx : x.pid = victim.pid
    · rcases relocateEntry_cases victim swap x.pageTable with h | ⟨j, e, h1, h2, h3, h4⟩
      · left
        unfold relocateVictim
        rw [if_pos hx]
        simp only
        rw [h]
      · right
        refine ⟨0, j, e, by simp [entryAt, h1], h2, h3, ?_⟩
        unfold relocateVictim
        rw [if_pos hx]
        simp only [writeEntry, modifyAt]
        rw [h4]
    · rcases ih with h | ⟨i, j, e, h1, h2, h3, h4⟩
      · left
        simp only [relocateVictim, hx, if_false]
        rw [h]
      · right
        refine ⟨i + 1, j, e, by simpa [entryAt] using h1, h2, h3, ?_⟩
        simp only [relocateVictim, hx, if_false]
        rw [h4]
        simp [writeEntry, modifyAt]

/-- The victim relocation when the process `i` is the only one with the victim's pid, its
entry `j` the only one for the victim's page, that entry has location RAM and a SWAP slot is
free. -/
theorem relocateVictim_of_owner (victim : Page) (swap : Frames) (procs : List Process)
    (i j : Nat) (p : Process) (e : PageTableEntry)
    (hfree : firstFree swap < swap.length)
    (hp : procs[i]? = some p) (he : p.pageTable[j]? = some e)
    (hpid : p.pid = victim.pid) (hvp : e.virtualPage = victim.pageNum)
    (hloc : e.location = Location.RAM)
    (hpids : ∀ (m : Nat) (a : Process), procs[m]? = some a → a.pid = victim.pid → m = i)
    (hvps : ∀ (m : Nat) (a : PageTableEntry), p.pageTable[m]? = some a →
      a.virtualPage = victim.pageNum → m = j) :
    relocateVictim victim procs swap
      = (writeEntry procs i j (firstFree swap) Location.SWAP,
        swap.set (firstFree swap) (some victim)) := by
  have hE := relocateEntry_of_first victim swap hfree p.pageTable j e he hvp hloc
    (fun m a hm ha hmatch => by have := hvps m a ha hmatch.1; omega)
  rw [relocateVictim_of_first victim swap procs i p hp hpid
    (fun m a hm ha hpa => by have := hpids m a ha hpa; omega)]
  rw [hE]
  simp only [writeEntry]
  congr 1
  apply modifyAt_congr
  intro x hx
  rw [hp] at hx
  simp only [Option.some.injEq] at hx
  subst hx
  rw [hE]

/-! ## Access: fault -/

/-- The fault path of `accessVirtualAddress`, once its reads are known. -/
theorem access_fault_eq (s : State) (procIdx virtualPage tScan tLoad : Nat)
    (proc : Process) (entry : PageTableEntry) (v : Nat) (victim requested : Page)
    (hproc : s.processes[procIdx]? = some proc)
    (hentry : proc.pageTable[virtualPage]? = some entry)
    (hloc : entry.location = Location.SWAP)
    (hv : findVictim s.ram tScan = some v)
    (hvictim : s.ram[v]? = some (some victim))
    (hreq : (relocateVictim victim s.processes s.swap).2[entry.physicalFrame]?
      = some (some requested)) :
    accessVirtualAddress s procIdx virtualPage tScan tLoad
      = some { s with
          pageFaults := s.pageFaults + 1
          ram := s.ram.set v (some { requested with loadTime := tLoad })
          swap := (relocateVictim victim s.processes s.swap).2.set entry.physicalFrame none
          processes :=
            writeEntry (relocateVictim victim s.processes s.swap).1 procIdx virtualPage v
              Location.RAM } := by
  have hne : s.processes.isEmpty = false := by
    cases hs : s.processes with
    | nil => rw [hs] at hproc; simp at hproc
    | cons a as => rfl
  unfold accessVirtualAddress
  rw [hne]
  simp only [Bool.false_eq_true, if_false, hproc, hentry, hloc, hv, hvictim, hreq]
  rfl

/-- A fault for which no victim is selected only counts the fault. -/
theorem access_fault_no_victim (s : State) (procIdx virtualPage tScan tLoad : Nat)
    (proc : Process) (entry : PageTableEntry)
    (hproc : s.processes[procIdx]? = some proc)
    (hentry : proc.pageTable[virtualPage]? = some entry)
    (hloc : entry.location = Location.SWAP)
    (hv : findVictim s.ram tScan = none) :
    accessVirtualAddress s procIdx virtualPage tScan tLoad
      = some { s with pageFaults := s.pageFaults + 1 } := by
  have hne : s.processes.isEmpty = false := by
    cases hs : s.processes with
    | nil => rw [hs] at hproc; simp at hproc
    | cons a as => rfl
  unfold accessVirtualAddress
  rw [hne]
  simp only [Bool.false_eq_true, if_false, hproc, hentry, hloc, hv]

/-- A fault that selects the victim in RAM slot `v`, in a state with a free SWAP slot in which
every SWAP entry points at its own page, every occupied slot has its owner's entry, pids are
pairwise distinct and the entries of a page table have pairwise distinct page numbers: the
call returns; the victim's record goes to the lowest-index free SWAP slot and its entry
becomes {SWAP, that index}; the faulting page's record goes to RAM slot `v` with
`loadTime = tLoad` and its entry becomes {RAM, v}; its former SWAP slot is freed; nothing else
changes. -/
theorem fault_moves_pages (s : State) (procIdx virtualPage tScan tLoad v : Nat)
    (proc : Process) (entry : PageTableEntry)
    (hswap : SwapEntriesOwnPage s) (howner : SlotsHaveOwner s)
    (hpids : DistinctPids s) (hvps : DistinctVirtualPages s)
    (hfree : 0 < countFree s.swap)
    (hproc : s.processes[procIdx]? = some proc)
    (hentry : proc.pageTable[virtualPage]? = some entry)
    (hloc : entry.location = Location.SWAP)
    (hv : findVictim s.ram tScan = some v) :
    ∃ (victim requested : Page) (iv jv : Nat) (ev : PageTableEntry) (s1 : State),
      s.ram[v]? = some (some victim) ∧
      s.swap[entry.physicalFrame]? = some (some requested) ∧
      entryAt s.processes iv jv = some ev ∧
      ev.location = Location.RAM ∧ ev.physicalFrame = v ∧
      pidAt s.processes iv = some victim.pid ∧ ev.virtualPage = victim.pageNum ∧
      accessVirtualAddress s procIdx virtualPage tScan tLoad = some s1 ∧
      s.swap[firstFree s.swap]? = some none ∧
      (∀ k : Nat, k < firstFree s.swap → ∃ q : Page, s.swap[k]? = some (some q)) ∧
      s1.swap[firstFree s.swap]? = some (some victim) ∧
      entryAt s1.processes iv jv = some ⟨ev.virtualPage, firstFree s.swap, Location.SWAP⟩ ∧
      s1.ram[v]? = some (some { requested with loadTime := tLoad }) ∧
      entryAt s1.processes procIdx virtualPage = some ⟨entry.virtualPage, v, Location.RAM⟩ ∧
      s1.swap[entry.physicalFrame]? = some none ∧
      s1.pageFaults = s.pageFaults + 1 ∧
      (∀ k : Nat, k ≠ v → s1.ram[k]? = s.ram[k]?) ∧
      (∀ k : Nat, k ≠ firstFree s.swap → k ≠ entry.physicalFrame → s1.swap[k]? = s.swap[k]?) ∧
      (∀ i j : Nat, ¬ (i = iv ∧ j = jv) → ¬ (i = procIdx ∧ j = virtualPage) →
        entryAt s1.processes i j = entryAt s.processes i j) ∧
      (∀ i : Nat, pidAt s1.processes i = pidAt s.processes i) ∧
      requested.pid = proc.pid ∧ requested.pageNum = entry.virtualPage ∧
      s1.ram = s.ram.set v (some { requested with loadTime := tLoad }) ∧
      s1.swap = (s.swap.set (firstFree s.swap) (some victim)).set entry.physicalFrame none := by
  obtain ⟨victim, hvictim, -⟩ := findVictim_eq_some s.ram tScan v hv
  -- the entry that owns the victim
  obtain ⟨iv, jv, ev, hpidv, hev, hevvp, hevloc, hevframe⟩ :=
    howner Location.RAM v victim (by simpa [slotAt] using hvictim)
  obtain ⟨pv, hpv, hpvj⟩ := (entryAt_eq_some _ _ _ _).1 hev
  have hpvpid : pv.pid = victim.pid := by
    obtain ⟨a, ha, hpa⟩ := (pidAt_eq_some _ _ _).1 hpidv
    rw [hpv] at ha
    simp only [Option.some.injEq] at ha
    subst ha
    exact hpa
  -- the relocation finds that entry
  have hff : firstFree s.swap < s.swap.length := (firstFree_lt_iff _).2 hfree
  have hrel := relocateVictim_of_owner victim s.swap s.processes iv jv pv ev hff hpv hpvj
    hpvpid hevvp hevloc
    (fun m a ha hpa =>
      hpids m iv victim.pid ((pidAt_eq_some _ _ _).2 ⟨a, ha, hpa⟩) hpidv)
    (fun m a ha hva =>
      hvps iv m jv a ev ((entryAt_eq_some _ _ _ _).2 ⟨pv, hpv, ha⟩) hev (by rw [hva, hevvp]))
  -- the faulting page
  have hentryAt : entryAt s.processes procIdx virtualPage = some entry :=
    (entryAt_eq_some _ _ _ _).2 ⟨proc, hproc, hentry⟩
  obtain ⟨rq, hrq, hrqpid, hrqvp⟩ := hswap procIdx virtualPage proc.pid entry
    ((pidAt_eq_some _ _ _).2 ⟨proc, hproc, rfl⟩) hentryAt hloc
  have hfirst := getElem?_firstFree s.swap hff
  have hne : firstFree s.swap ≠ entry.physicalFrame := by
    intro h
    rw [h, hrq] at hfirst
    simp at hfirst
  have hreq : (relocateVictim victim s.processes s.swap).2[entry.physicalFrame]?
      = some (some rq) := by
    rw [hrel]
    simp only
    rw [List.getElem?_set_ne hne]
    exact hrq
  have hacc := access_fault_eq s procIdx virtualPage tScan tLoad proc entry v victim rq
    hproc hentry hloc hv hvictim hreq
  rw [hrel] at hacc
  simp only at hacc
  have hdiff : ¬ (iv = procIdx ∧ jv = virtualPage) := by
    rintro ⟨h1, h2⟩
    subst h1 h2
    rw [hev] at hentryAt
    simp only [Option.some.injEq] at hentryAt
    subst hentryAt
    rw [hevloc] at hloc
    cases hloc
  have hvlt : v < s.ram.length := by
    by_contra hge
    rw [List.getElem?_eq_none (by omega)] at hvictim
    simp at hvictim
  have hflt : entry.physicalFrame < s.swap.length := by
    by_contra hge
    rw [List.getElem?_eq_none (by omega)] at hrq
    simp at hrq
  refine ⟨victim, rq, iv, jv, ev, _, hvictim, hrq, hev, hevloc, hevframe, hpidv, hevvp, hacc,
    hfirst, firstFree_min s.swap, ?_, ?_, ?_, ?_, ?_, rfl, ?_, ?_, ?_, ?_, hrqpid, hrqvp,
    rfl, rfl⟩
  · simp only
    rw [List.getElem?_set_ne (Ne.symm hne)]
    exact List.getElem?_set_self hff
  · simp only
    rw [entryAt_writeEntry, if_neg (fun h => hdiff ⟨h.1.symm, h.2.symm⟩), entryAt_writeEntry,
      if_pos ⟨rfl, rfl⟩, hev]
    rfl
  · simp only
    exact List.getElem?_set_self hvlt
  · simp only
    rw [entryAt_writeEntry, if_pos ⟨rfl, rfl⟩, entryAt_writeEntry, if_neg hdiff, hentryAt]
    rfl
  · simp only
    exact List.getElem?_set_self (by simpa using hflt)
  · intro k hk
    simp only
    exact List.getElem?_set_ne (Ne.symm hk)
  · intro k hk1 hk2
    simp only
    rw [List.getElem?_set_ne (Ne.symm hk2), List.getElem?_set_ne (Ne.symm hk1)]
  · intro i j h1 h2
    simp only
    rw [entryAt_writeEntry, if_neg (fun h => h2 ⟨h.1.symm, h.2.symm⟩), entryAt_writeEntry,
      if_neg (fun h => h1 ⟨h.1.symm, h.2.symm⟩)]
  · intro i
    simp only
    rw [pidAt_writeEntry, pidAt_writeEntry]

theorem faultExample_consistent : Consistent faultExample := by
  refine ⟨?_, ?_, ?_⟩
  · intro i j pid e hp he
    rcases i with _ | i
    · rcases j with _ | _ | j <;> simp [faultExample, pidAt, entryAt] at hp he <;>
        subst hp he <;> simp [slotAt, faultExample]
    · simp [faultExample, pidAt] at hp
  · intro loc k pg h
    cases loc
    · rcases k with _ | k
      · exact ⟨0, 0, _, rfl, rfl, rfl⟩
      · simp [slotAt, faultExample] at h
    · rcases k with _ | _ | k
      · exact ⟨0, 1, _, rfl, rfl, rfl⟩
      · simp [slotAt, faultExample] at h
      · simp [slotAt, faultExample] at h
  · intro i j i1 j1 e e1 he he1 hl hf
    rcases i with _ | i <;> rcases i1 with _ | i1 <;>
      rcases j with _ | _ | j <;> rcases j1 with _ | _ | j1 <;>
      simp [faultExample, entryAt] at he he1 <;> subst he he1 <;> simp at hl hf ⊢

/-! ## Consecutive faults -/

theorem swapEntriesSound_of_consistent (s : State) (h : Consistent s) : SwapEntriesSound s := by
  obtain ⟨hown, -, hshare⟩ := h
  refine ⟨?_, ?_⟩
  · intro i j e he hloc
    obtain ⟨p, hp, -⟩ := (entryAt_eq_some _ _ _ _).1 he
    obtain ⟨pg, hpg, -⟩ := hown i j p.pid e ((pidAt_eq_some _ _ _).2 ⟨p, hp, rfl⟩) he
    rw [hloc] at hpg
    exact ⟨pg, hpg⟩
  · intro i j i1 j1 e e1 he he1 hl hl1 hf
    exact hshare i j i1 j1 e e1 he he1 (by rw [hl, hl1]) hf

/-- A fault that selects a victim, in a state whose SWAP entries are sound: the call returns,
the victim frame receives the faulting page with the new `loadTime`, no other RAM slot
changes, and the SWAP entries of the new state are sound. -/
theorem fault_step (s : State) (procIdx virtualPage tScan tLoad v : Nat)
    (entry : PageTableEntry)
    (hJ : SwapEntriesSound s)
    (hentry : entryAt s.processes procIdx virtualPage = some entry)
    (hloc : entry.location = Location.SWAP)
    (hv : findVictim s.ram tScan = some v) :
    ∃ (requested : Page) (s1 : State),
      accessVirtualAddress s procIdx virtualPage tScan tLoad = some s1 ∧
      s1.ram = s.ram.set v (some { requested with loadTime := tLoad }) ∧
      SwapEntriesSound s1 := by
  obtain ⟨hocc, hinj⟩ := hJ
  obtain ⟨proc, hproc, hpe⟩ := (entryAt_eq_some _ _ _ _).1 hentry
  obtain ⟨victim, hvictim, -⟩ := findVictim_eq_some s.ram tScan v hv
  obtain ⟨rq, hrq⟩ := hocc procIdx virtualPage entry hentry hloc
  rcases relocateVictim_cases victim s.swap s.processes with hrel | ⟨i0, j0, e0, he0, hl0, hff, hrel⟩
  · -- the victim is not moved
    have hreq : (relocateVictim victim s.processes s.swap).2[entry.physicalFrame]?
        = some (some rq) := by rw [hrel]; exact hrq
    have hacc := access_fault_eq s procIdx virtualPage tScan tLoad proc entry v victim rq
      hproc hpe hloc hv hvictim hreq
    rw [hrel] at hacc
    simp only at hacc
    refine ⟨rq, _, hacc, rfl, ?_, ?_⟩
    · intro i j e he hl
      simp only at he ⊢
      rw [entryAt_writeEntry] at he
      by_cases hij : procIdx = i ∧ virtualPage = j
      · rw [if_pos hij] at he
        obtain ⟨a, -, ha⟩ := Option.map_eq_some'.1 he
        subst ha
        cases hl
      · rw [if_neg hij] at he
        obtain ⟨pg, hpg⟩ := hocc i j e he hl
        refine ⟨pg, ?_⟩
        have hne : entry.physicalFrame ≠ e.physicalFrame := by
          intro hf
          have := hinj procIdx virtualPage i j entry e hentry he hloc hl hf
          exact hij this
        rw [List.getElem?_set_ne hne]
        exact hpg
    · intro i j i1 j1 e e1 he he1 hl hl1 hf
      simp only at he he1
      rw [entryAt_writeEntry] at he he1
      by_cases hij : procIdx = i ∧ virtualPage = j
      · rw [if_pos hij] at he
        obtain ⟨a, -, ha⟩ := Option.map_eq_some'.1 he
        subst ha
        cases hl
      · by_cases hij1 : procIdx = i1 ∧ virtualPage = j1
        · rw [if_pos hij1] at he1
          obtain ⟨a, -, ha⟩ := Option.map_eq_some'.1 he1
          subst ha
          cases hl1
        · rw [if_neg hij] at he
          rw [if_neg hij1] at he1
          exact hinj i j i1 j1 e e1 he he1 hl hl1 hf
  · -- the victim is moved to the first free SWAP slot
    have hfirst := getElem?_firstFree s.swap hff
    have hne : firstFree s.swap ≠ entry.physicalFrame := by
      intro h
      rw [h, hrq] at hfirst
      simp at hfirst
    have hreq : (relocateVictim victim s.processes s.swap).2[entry.physicalFrame]?
        = some (some rq) := by
      rw [hrel]
      simp only
      rw [List.getElem?_set_ne hne]
      exact hrq
    have hacc := access_fault_eq s procIdx virtualPage tScan tLoad proc entry v victim rq
      hproc hpe hloc hv hvictim hreq
    rw [hrel] at hacc
    simp only at hacc
    -- an old SWAP entry points neither at the first free slot nor, unless it is the faulting
    -- entry, at the slot of the faulting page
    have hold : ∀ (i j : Nat) (e : PageTableEntry), entryAt s.processes i j = some e →
        e.location = Location.SWAP → firstFree s.swap ≠ e.physicalFrame := by
      intro i j e he hl h
      obtain ⟨pg, hpg⟩ := hocc i j e he hl
      rw [← h, hfirst] at hpg
      simp at hpg
    refine ⟨rq, _, hacc, rfl, ?_, ?_⟩
    · intro i j e he hl
      simp only at he ⊢
      rw [entryAt_writeEntry] at he
      by_cases hij : procIdx = i ∧ virtualPage = j
      · rw [if_pos hij] at he
        obtain ⟨a, -, ha⟩ := Option.map_eq_some'.1 he
        subst ha
        cases hl
      · rw [if_neg hij, entryAt_writeEntry] at he
        by_cases hij0 : i0 = i ∧ j0 = j
        · rw [if_pos hij0] at he
          obtain ⟨a, -, ha⟩ := Option.map_eq_some'.1 he
          subst ha
          refine ⟨victim, ?_⟩
          simp only
          rw [List.getElem?_set_ne (Ne.symm hne)]
          exact List.getElem?_set_self hff
        · rw [if_neg hij0] at he
          obtain ⟨pg, hpg⟩ := hocc i j e he hl
          refine ⟨pg, ?_⟩
          have hne1 : entry.physicalFrame ≠ e.physicalFrame := by
            intro hf
            have := hinj procIdx virtualPage i j entry e hentry he hloc hl hf
            exact hij this
          rw [List.getElem?_set_ne hne1, List.getElem?_set_ne (hold i j e he hl)]
          exact hpg
    · intro i j i1 j1 e e1 he he1 hl hl1 hf
      simp only at he he1
      rw [entryAt_writeEntry] at he he1
      by_cases hij : procIdx = i ∧ virtualPage = j
      · rw [if_pos hij] at he
        obtain ⟨a, -, ha⟩ := Option.map_eq_some'.1 he
        subst ha
        cases hl
      · by_cases hij1 : procIdx = i1 ∧ virtualPage = j1
        · rw [if_pos hij1] at he1
          obtain ⟨a, -, ha⟩ := Option.map_eq_some'.1 he1
          subst ha
          cases hl1
        · rw [if_neg hij, entryAt_writeEntry] at he
          rw [if_neg hij1, entryAt_writeEntry] at he1
          by_cases hij0 : i0 = i ∧ j0 = j
          · by_cases hij10 : i0 = i1 ∧ j0 = j1
            · exact ⟨hij0.1.symm.trans hij10.1, hij0.2.symm.trans hij10.2⟩
            · rw [if_pos hij0] at he
              rw [if_neg hij10] at he1
              obtain ⟨a, -, ha⟩ := Option.map_eq_some'.1 he
              subst ha
              exact absurd hf (hold i1 j1 e1 he1 hl1)
          · by_cases hij10 : i0 = i1 ∧ j0 = j1
            · rw [if_neg hij0] at he
              rw [if_pos hij10] at he1
              obtain ⟨a, -, ha⟩ := Option.map_eq_some'.1 he1
              subst ha
              exact absurd hf.symm (hold i j e he hl)
            · rw [if_neg hij0] at he
              rw [if_neg hij10] at he1
              exact hinj i j i1 j1 e e1 he he1 hl hl1 hf

theorem evicted_eq (s : State) (a : Access) (e : PageTableEntry) (v : Nat) (pg : Page)
    (he : entryAt s.processes a.procIdx a.virtualPage = some e)
    (hl : e.location = Location.SWAP)
    (hv : findVictim s.ram a.tScan = some v)
    (hpg : s.ram[v]? = some (some pg)) : evicted s a = some (v, pg) := by
  unfold evicted
  rw [he]
  simp only [hl, hv, hpg]

/-- Consecutive faults on a RAM pool made of pages loaded by earlier faults of the sequence
(`newPgs`) followed by the original pages not yet evicted (`rest`, by increasing
`loadTime`): the faults evict the pages of `rest` in order. -/
theorem evictions_in_load_order :
    ∀ (accs : List Access) (s : State) (newPgs rest : List Page),
      s.ram = newPgs.map some ++ rest.map some →
      (∀ q ∈ newPgs, ∀ p ∈ rest, p.loadTime < q.loadTime) →
      rest.Pairwise (fun a b => a.loadTime < b.loadTime) →
      SwapEntriesSound s →
      accs.length = rest.length →
      (∀ a ∈ accs, ∀ p ∈ rest, p.loadTime < a.tScan ∧ p.loadTime < a.tLoad) →
      AllFaults s accs →
      ∃ s1 : State, runAccesses s accs = some s1 ∧
        evictions s accs = numbered newPgs.length rest := by
  intro accs
  induction accs with
  | nil =>
    intro s newPgs rest _ _ _ _ hlen _ _
    have : rest = [] := List.length_eq_zero.1 (by simpa using hlen.symm)
    subst this
    exact ⟨s, rfl, rfl⟩
  | cons a rest_accs ih =>
    intro s newPgs rest hram hnew hinc hJ hlen hlate hfaults
    cases rest with
    | nil => simp at hlen
    | cons p rest1 =>
      obtain ⟨⟨e, he, hl⟩, hnext⟩ := hfaults
      have hk : s.ram[newPgs.length]? = some (some p) := by
        rw [hram, List.getElem?_append_right (by simp)]
        simp
      have hpa := hlate a (List.mem_cons_self _ _) p (List.mem_cons_self _ _)
      -- the scan selects the slot of `p`
      rcases hres : findVictim s.ram a.tScan with _ | v
      · have := (findVictim_eq_none_iff s.ram a.tScan).1 hres _ p hk
        omega
      · obtain ⟨victim, hvic, -, hmin, -⟩ := findVictim_eq_some s.ram a.tScan v hres
        have hle := hmin _ p hk
        have hveq : v = newPgs.length := by
          rcases Nat.lt_trichotomy v newPgs.length with hlt | heq | hgt
          · exfalso
            rw [hram, List.getElem?_append_left (by simpa using hlt), List.getElem?_map] at hvic
            obtain ⟨q, hq, hqv⟩ := Option.map_eq_some'.1 hvic
            simp only [Option.some.injEq] at hqv
            subst hqv
            have := hnew q (List.getElem?_mem hq) p (List.mem_cons_self _ _)
            omega
          · exact heq
          · exfalso
            rw [hram, List.getElem?_append_right (by simp; omega), List.length_map,
              List.getElem?_map] at hvic
            obtain ⟨q, hq, hqv⟩ := Option.map_eq_some'.1 hvic
            simp only [Option.some.injEq] at hqv
            subst hqv
            obtain ⟨d, hd⟩ : ∃ d, v - newPgs.length = d + 1 := ⟨v - newPgs.length - 1, by omega⟩
            rw [hd, List.getElem?_cons_succ] at hq
            have := (List.pairwise_cons.1 hinc).1 q (List.getElem?_mem hq)
            omega
        subst hveq
        rw [hk] at hvic
        simp only [Option.some.injEq] at hvic
        subst hvic
        obtain ⟨rq, s1, hacc, hram1, hJ1⟩ :=
          fault_step s a.procIdx a.virtualPage a.tScan a.tLoad newPgs.length e hJ he hl hres
        have hram2 : s1.ram
            = (newPgs ++ [{ rq with loadTime := a.tLoad }]).map some ++ rest1.map some := by
          rw [hram1, hram, List.set_append_right _ _ (by simp)]
          simp
        obtain ⟨s2, hrun, hev⟩ := ih s1 (newPgs ++ [{ rq with loadTime := a.tLoad }]) rest1
          hram2
          (by
            intro q hq p1 hp1
            rcases List.mem_append.1 hq with hq1 | hq1
            · exact hnew q hq1 p1 (List.mem_cons_of_mem _ hp1)
            · simp only [List.mem_singleton] at hq1
              subst hq1
              exact (hlate a (List.mem_cons_self _ _) p1 (List.mem_cons_of_mem _ hp1)).2)
          (List.pairwise_cons.1 hinc).2 hJ1
          (by simpa using hlen)
          (fun b hb p1 hp1 =>
            hlate b (List.mem_cons_of_mem _ hb) p1 (List.mem_cons_of_mem _ hp1))
          (hnext s1 hacc)
        refine ⟨s2, ?_, ?_⟩
        · simp only [runAccesses, hacc]
          exact hrun
        · simp only [evictions, hacc, numbered]
          rw [evicted_eq s a e newPgs.length p he hl hres hk, hev]
          simp

theorem getElem?_numbered (ps : List Page) (i k : Nat) :
    (numbered i ps)[k]? = ps[k]?.map (fun p => some (i + k, p)) := by
  induction ps generalizing i k with
  | nil => simp [numbered]
  | cons p ps ih =>
    cases k with
    | zero => simp [numbered]
    | succ k =>
      simp only [numbered, List.getElem?_cons_succ, ih]
      congr 1
      funext q
      congr 2
      omega

theorem length_numbered (ps : List Page) (i : Nat) : (numbered i ps).length = ps.length := by
  induction ps generalizing i with
  | nil => rfl
  | cons p ps ih => simp [numbered, ih]

/-! ## The scenario with processes A and B -/

/-- State after A (12 KB, 3 pages) and B (8 KB, 2 pages) are created on 4 RAM and 4 SWAP slots
with 4 KB pages. -/
theorem run_create_A_B (cA tA cB tB : Nat) :
    run (freshState 4 4 4) [Op.create 12 cA tA, Op.create 8 cB tB]
      = some
          { pageSizeKB := 4
            ram := [some ⟨1, 0, tA⟩, some ⟨1, 1, tA⟩, some ⟨1, 2, tA⟩, some ⟨2, 0, tB⟩]
            swap := [some ⟨2, 1, tB⟩, none, none, none]
            processes :=
              [⟨1, 12, 3, [⟨0, 0, Location.RAM⟩, ⟨1, 1, Location.RAM⟩,
                  ⟨2, 2, Location.RAM⟩], cA⟩,
                ⟨2, 8, 2, [⟨0, 3, Location.RAM⟩, ⟨1, 0, Location.SWAP⟩], cB⟩]
            nextPid := 3
            pageFaults := 0
            processesCreated := 2
            processesFinished := 0 } := by
  simp [run, step, createProcess, pagesNeeded, freshState, countFree, allocPages, firstFree,
    List.replicate]

/-- A fault on an entry whose SWAP slot is occupied returns and counts one page fault. -/
theorem access_fault_returns (s : State) (procIdx virtualPage tScan tLoad : Nat)
    (proc : Process) (entry : PageTableEntry) (rq : Page)
    (hproc : s.processes[procIdx]? = some proc)
    (hentry : proc.pageTable[virtualPage]? = some entry)
    (hloc : entry.location = Location.SWAP)
    (hrq : s.swap[entry.physicalFrame]? = some (some rq)) :
    ∃ s1 : State, accessVirtualAddress s procIdx virtualPage tScan tLoad = some s1 ∧
      s1.pageFaults = s.pageFaults + 1 := by
  rcases hres : findVictim s.ram tScan with _ | v
  · exact ⟨_, access_fault_no_victim s procIdx virtualPage tScan tLoad proc entry hproc hentry
      hloc hres, rfl⟩
  · obtain ⟨victim, hvictim, -⟩ := findVictim_eq_some s.ram tScan v hres
    have hreq : (relocateVictim victim s.processes s.swap).2[entry.physicalFrame]?
        = some (some rq) := by
      rcases relocateVictim_cases victim s.swap s.processes with hrel | ⟨i0, j0, e0, -, -, hff, hrel⟩
      · rw [hrel]
        exact hrq
      · have hfirst := getElem?_firstFree s.swap hff
        have hne : firstFree s.swap ≠ entry.physicalFrame := by
          intro h
          rw [h, hrq] at hfirst
          simp at hfirst
        rw [hrel]
        simp only
        rw [List.getElem?_set_ne hne]
        exact hrq
    exact ⟨_, access_fault_eq s procIdx virtualPage tScan tLoad proc entry v victim rq
      hproc hentry hloc hres hvictim hreq, rfl⟩

/-- C11 as stated fails on the code: after A and B are created at reading 0 and B's page 1 is
accessed at reading 1, A's page 0 is in SWAP slot 1 and its entry is {SWAP, 1}; SWAP slot 0,
which B's page 1 still occupied when the free slot was searched, is free. -/
theorem scenario_victim_slot :
    ∃ s1 : State,
      run (freshState 4 4 4) [Op.create 12 0 0, Op.create 8 0 0, Op.access 1 1 1 1] = some s1 ∧
      s1.swap[0]? = some none ∧
      s1.swap[1]? = some (some ⟨1, 0, 0⟩) ∧
      entryAt s1.processes 0 0 = some ⟨0, 1, Location.SWAP⟩ ∧
      entryAt s1.processes 0 0 ≠ some ⟨0, 0, Location.SWAP⟩ :=
  ⟨{ pageSizeKB := 4
     ram := [some ⟨2, 1, 1⟩, some ⟨1, 1, 0⟩, some ⟨1, 2, 0⟩, some ⟨2, 0, 0⟩]
     swap := [none, some ⟨1, 0, 0⟩, none, none]
     processes :=
       [⟨1, 12, 3, [⟨0, 1, Location.SWAP⟩, ⟨1, 1, Location.RAM⟩, ⟨2, 2, Location.RAM⟩], 0⟩,
         ⟨2, 8, 2, [⟨0, 3, Location.RAM⟩, ⟨1, 0, Location.RAM⟩], 0⟩]
     nextPid := 3
     pageFaults := 1
     processesCreated := 2
     processesFinished := 0 },
    by decide, by decide, by decide, by decide, by decide⟩

/-- C11, amended: with 4 KB pages, 4 RAM slots and 4 SWAP slots, all free, A (3 pages) is
created at reading `tA`, B (2 pages) at reading `tB ≥ tA`, and B's virtual page 1 is accessed
at a strictly later reading.  The access is a fault whose victim is RAM slot 0 (A's page 0).
Afterwards A's page 0 is in SWAP slot 1 (the lowest slot that was free while B's page 1 still
held slot 0) and A's entry for page 0 is {SWAP, 1}; B's page 1 is in RAM slot 0 and B's entry
for page 1 is {RAM, 0}; SWAP slot 0 is free; and an access of A's virtual page 0 at any
reading is again a fault: it returns and counts a second page fault. -/
theorem scenario_fault (cA tA cB tB tScan tLoad : Nat) (hAB : tA ≤ tB) (hlater : tB < tScan) :
    ∃ s s1 : State,
      run (freshState 4 4 4) [Op.create 12 cA tA, Op.create 8 cB tB] = some s ∧
      entryAt s.processes 1 1 = some ⟨1, 0, Location.SWAP⟩ ∧
      findVictim s.ram tScan = some 0 ∧
      s.ram[0]? = some (some ⟨1, 0, tA⟩) ∧
      accessVirtualAddress s 1 1 tScan tLoad = some s1 ∧
      s1.pageFaults = 1 ∧
      s1.swap[1]? = some (some ⟨1, 0, tA⟩) ∧
      entryAt s1.processes 0 0 = some ⟨0, 1, Location.SWAP⟩ ∧
      s1.ram[0]? = some (some ⟨2, 1, tLoad⟩) ∧
      entryAt s1.processes 1 1 = some ⟨1, 0, Location.RAM⟩ ∧
      s1.swap[0]? = some none ∧
      ∀ t3 t4 : Nat, ∃ s2 : State,
        accessVirtualAddress s1 0 0 t3 t4 = some s2 ∧ s2.pageFaults = 2 := by
  have h1 : tA < tScan := by omega
  have h2 : ¬ tB < tA := by omega
  have hacc : accessVirtualAddress
      { pageSizeKB := 4
        ram := [some ⟨1, 0, tA⟩, some ⟨1, 1, tA⟩, some ⟨1, 2, tA⟩, some ⟨2, 0, tB⟩]
        swap := [some ⟨2, 1, tB⟩, none, none, none]
        processes :=
          [⟨1, 12, 3, [⟨0, 0, Location.RAM⟩, ⟨1, 1, Location.RAM⟩,
              ⟨2, 2, Location.RAM⟩], cA⟩,
            ⟨2, 8, 2, [⟨0, 3, Location.RAM⟩, ⟨1, 0, Location.SWAP⟩], cB⟩]
        nextPid := 3
        pageFaults := 0
        processesCreated := 2
        processesFinished := 0 } 1 1 tScan tLoad
      = some
          { pageSizeKB := 4
            ram := [some ⟨2, 1, tLoad⟩, some ⟨1, 1, tA⟩, some ⟨1, 2, tA⟩, some ⟨2, 0, tB⟩]
            swap := [none, some ⟨1, 0, tA⟩, none, none]
            processes :=
              [⟨1, 12, 3, [⟨0, 1, Location.SWAP⟩, ⟨1, 1, Location.RAM⟩,
                  ⟨2, 2, Location.RAM⟩], cA⟩,
                ⟨2, 8, 2, [⟨0, 3, Location.RAM⟩, ⟨1, 0, Location.RAM⟩], cB⟩]
            nextPid := 3
            pageFaults := 1
            processesCreated := 2
            processesFinished := 0 } := by
    simp [accessVirtualAddress, findVictim, scanVictim, relocateVictim, relocateEntry,
      firstFree, loadEntry, modifyAt, h1, h2]
  refine ⟨_, _, run_create_A_B cA tA cB tB, rfl, ?_, rfl, hacc, rfl, rfl, rfl, rfl, rfl, rfl, ?_⟩
  · simp [findVictim, scanVictim, h1, h2]
  · intro t3 t4
    exact access_fault_returns _ 0 0 t3 t4
      ⟨1, 12, 3, [⟨0, 1, Location.SWAP⟩, ⟨1, 1, Location.RAM⟩, ⟨2, 2, Location.RAM⟩], cA⟩
      ⟨0, 1, Location.SWAP⟩ ⟨1, 0, tA⟩ rfl rfl rfl rfl

theorem scenario_fault_witness :
    ∃ s s1 : State,
      run (freshState 4 4 4) [Op.create 12 0 0, Op.create 8 0 0] = some s ∧
      entryAt s.processes 1 1 = some ⟨1, 0, Location.SWAP⟩ ∧
      findVictim s.ram 1 = some 0 ∧
      s.ram[0]? = some (some ⟨1, 0, 0⟩) ∧
      accessVirtualAddress s 1 1 1 1 = some s1 ∧
      s1.pageFaults = 1 ∧
      s1.swap[1]? = some (some ⟨1, 0, 0⟩) ∧
      entryAt s1.processes 0 0 = some ⟨0, 1, Location.SWAP⟩ ∧
      s1.ram[0]? = some (some ⟨2, 1, 1⟩) ∧
      entryAt s1.processes 1 1 = some ⟨1, 0, Location.RAM⟩ ∧
      s1.swap[0]? = some none ∧
      ∀ t3 t4 : Nat, ∃ s2 : State,
        accessVirtualAddress s1 0 0 t3 t4 = some s2 ∧ s2.pageFaults = 2 :=
  scenario_fault 0 0 0 0 1 1 (by decide) (by decide)

/-- C12, evaluated on the code: in the reachable state with one RAM slot and one SWAP slot,
both occupied by the two pages of one process, the access to page 1 (in SWAP) at a later
reading is a fault that selects the victim in RAM slot 0; the SWAP pool has no free slot,
`find` returns `swap.end()`, and the relocation leaves the page tables and the SWAP pool as
they are: the victim is not moved. -/
theorem relocation_finds_no_slot :
    ∃ (s : State) (victim : Page), Reachable s ∧
      entryAt s.processes 0 1 = some ⟨1, 0, Location.SWAP⟩ ∧
      findVictim s.ram 1 = some 0 ∧
      s.ram[0]? = some (some victim) ∧
      countFree s.swap = 0 ∧
      firstFree s.swap = s.swap.length ∧
      relocateVictim victim s.processes s.swap = (s.processes, s.swap) :=
  ⟨{ pageSizeKB := 1024
     ram := [some ⟨1, 0, 0⟩]
     swap := [some ⟨1, 1, 0⟩]
     processes := [⟨1, 1500, 2, [⟨0, 0, Location.RAM⟩, ⟨1, 0, Location.SWAP⟩], 0⟩]
     nextPid := 2
     pageFaults := 0
     processesCreated := 1
     processesFinished := 0 },
    ⟨1, 0, 0⟩, ⟨1024, 1, 1, [Op.create 1500 0 0], by decide, by decide⟩,
    by decide, by decide, by decide, by decide, by decide, by decide⟩

/-! ## Page count -/

theorem pagesNeeded_covers (sizeKB pageSizeKB : Nat) (h : 0 < pageSizeKB) :
    sizeKB ≤ pagesNeeded sizeKB pageSizeKB * pageSizeKB := by
  unfold pagesNeeded
  have := Nat.lt_mul_div_succ (sizeKB + pageSizeKB - 1) h
  rw [Nat.mul_add, Nat.mul_one, Nat.mul_comm] at this
  omega

theorem pagesNeeded_least (sizeKB pageSizeKB n : Nat) (h : 0 < pageSizeKB)
    (hn : sizeKB ≤ n * pageSizeKB) : pagesNeeded sizeKB pageSizeKB ≤ n := by
  unfold pagesNeeded
  apply Nat.le_of_lt_succ
  rw [Nat.div_lt_iff_lt_mul h, Nat.succ_mul]
  omega

/-- C14, page count: for a page size above zero, `pagesNeeded = (sizeKB + pageSizeKB - 1) /
pageSizeKB` is the least `n` with `n * pageSizeKB ≥ sizeKB`, that is the ceiling of
`sizeKB / pageSizeKB`; a size of 12000 with pages of 4096 needs 3 pages, a size of 8192
needs 2. -/
theorem pagesNeeded_is_ceiling (sizeKB pageSizeKB : Nat) (h : 0 < pageSizeKB) :
    sizeKB ≤ pagesNeeded sizeKB pageSizeKB * pageSizeKB ∧
    (∀ n : Nat, sizeKB ≤ n * pageSizeKB → pagesNeeded sizeKB pageSizeKB ≤ n) ∧
    pagesNeeded sizeKB pageSizeKB = ⌈(sizeKB : ℚ) / (pageSizeKB : ℚ)⌉₊ ∧
    pagesNeeded 12000 4096 = 3 ∧ pagesNeeded 8192 4096 = 2 := by
  have hpos : (0 : ℚ) < (pageSizeKB : ℚ) := by exact_mod_cast h
  refine ⟨pagesNeeded_covers sizeKB pageSizeKB h,
    fun n hn => pagesNeeded_least sizeKB pageSizeKB n h hn, ?_, by decide, by decide⟩
  apply le_antisymm
  · apply pagesNeeded_least sizeKB pageSizeKB _ h
    have hle := Nat.le_ceil ((sizeKB : ℚ) / (pageSizeKB : ℚ))
    rw [div_le_iff₀ hpos] at hle
    exact_mod_cast hle
  · rw [Nat.ceil_le, div_le_iff₀ hpos]
    exact_mod_cast pagesNeeded_covers sizeKB pageSizeKB h

theorem pagesNeeded_is_ceiling_witness :
    12000 ≤ pagesNeeded 12000 4096 * 4096 ∧
    (∀ n : Nat, 12000 ≤ n * 4096 → pagesNeeded 12000 4096 ≤ n) ∧
    pagesNeeded 12000 4096 = ⌈((12000 : Nat) : ℚ) / ((4096 : Nat) : ℚ)⌉₊ ∧
    pagesNeeded 12000 4096 = 3 ∧ pagesNeeded 8192 4096 = 2 :=
  pagesNeeded_is_ceiling 12000 4096 (by decide)

/-! ## Access: fault without a victim -/

/-- C17, fault without a victim: on an access to an entry with location SWAP, when no occupied
RAM slot has a `loadTime` strictly earlier than the clock reading taken at the fault (RAM
has no slot, is all free, or holds only pages loaded at that reading or later), the call
adds one to `pageFaults` and changes nothing else: every RAM slot, every SWAP slot and every
page table is as before, and the faulting page stays in SWAP. -/
theorem fault_without_victim (s : State) (procIdx virtualPage tScan tLoad : Nat)
    (proc : Process) (entry : PageTableEntry)
    (hproc : s.processes[procIdx]? = some proc)
    (hentry : proc.pageTable[virtualPage]? = some entry)
    (hloc : entry.location = Location.SWAP)
    (hnone : ∀ (k : Nat) (p : Page), s.ram[k]? = some (some p) → tScan ≤ p.loadTime) :
    accessVirtualAddress s procIdx virtualPage tScan tLoad
      = some { s with pageFaults := s.pageFaults + 1 } :=
  access_fault_no_victim s procIdx virtualPage tScan tLoad proc entry hproc hentry hloc
    ((findVictim_eq_none_iff s.ram tScan).2 hnone)

theorem fault_without_victim_witness :
    accessVirtualAddress
        { pageSizeKB := 4, ram := [some ⟨1, 0, 5⟩], swap := [some ⟨1, 1, 5⟩],
          processes := [⟨1, 8, 2, [⟨0, 0, Location.RAM⟩, ⟨1, 0, Location.SWAP⟩], 5⟩],
          nextPid := 2, pageFaults := 0, processesCreated := 1, processesFinished := 0 }
        0 1 5 5
      = some
          { pageSizeKB := 4, ram := [some ⟨1, 0, 5⟩], swap := [some ⟨1, 1, 5⟩],
            processes := [⟨1, 8, 2, [⟨0, 0, Location.RAM⟩, ⟨1, 0, Location.SWAP⟩], 5⟩],
            nextPid := 2, pageFaults := 1, processesCreated := 1, processesFinished := 0 } :=
  fault_without_victim _ 0 1 5 5
    ⟨1, 8, 2, [⟨0, 0, Location.RAM⟩, ⟨1, 0, Location.SWAP⟩], 5⟩ ⟨1, 0, Location.SWAP⟩
    rfl rfl rfl
    (by
      intro k p hk
      rcases k with _ | k
      · simp only [List.getElem?_cons_zero, Option.some.injEq] at hk
        subst hk
        exact Nat.le_refl 5
      · simp at hk)

/-! ## Placement in SWAP -/

/-- Dropping the ghost log from the result of `allocPagesLogged` gives `allocPages`. -/
theorem allocPagesLogged_erase (pid now : Nat) (n : Nat) :
    ∀ (i rf : Nat) (ram swap : Frames) (pt : List PageTableEntry) (log : List (Location × Nat)),
      (allocPagesLogged pid now n i rf ram swap pt log).map (fun r => (r.1, r.2.1, r.2.2.1))
        = allocPages pid now n i rf ram swap pt := by
  induction n with
  | zero => intro i rf ram swap pt log; rfl
  | succ n ih =>
    intro i rf ram swap pt log
    simp only [allocPagesLogged, allocPages]
    split
    · split
      · exact ih _ _ _ _ _ _
      · rfl
    · split
      · exact ih _ _ _ _ _ _
      · rfl

/-- In the logged loop started with the counter equal to the number of free RAM slots, the
log runs parallel to the page table and every page placed in SWAP is logged with zero free
RAM slots. -/
theorem allocPagesLogged_swap_full (pid now : Nat) (n : Nat) :
    ∀ (i : Nat) (ram swap : Frames) (pt : List PageTableEntry) (log : List (Location × Nat))
      (r : Frames × Frames × List PageTableEntry × List (Location × Nat)),
      allocPagesLogged pid now n i (countFree ram) ram swap pt log = some r →
      log.length = pt.length →
      (∀ (j : Nat) (e : PageTableEntry), pt[j]? = some e → e.location = Location.SWAP →
        log[j]? = some (Location.SWAP, 0)) →
      r.2.2.2.length = r.2.2.1.length ∧
      ∀ (j : Nat) (e : PageTableEntry), r.2.2.1[j]? = some e → e.location = Location.SWAP →
        r.2.2.2[j]? = some (Location.SWAP, 0) := by
  induction n with
  | zero =>
    intro i ram swap pt log r h hlen hlog
    simp only [allocPagesLogged, Option.some.injEq] at h
    subst h
    exact ⟨hlen, hlog⟩
  | succ n ih =>
    intro i ram swap pt log r h hlen hlog
    by_cases hram : 0 < countFree ram
    · have hlt : firstFree ram < ram.length := (firstFree_lt_iff ram).2 hram
      have hcnt := countFree_set_some ram ⟨pid, i, now⟩ hlt
      have hcnt1 : countFree ram - 1
          = countFree (ram.set (firstFree ram) (some ⟨pid, i, now⟩)) := by omega
      simp only [allocPagesLogged, hram, hlt, if_true] at h
      rw [hcnt1] at h
      refine ih _ _ _ _ _ r h (by simp [hlen]) ?_
      intro j e hj hloc
      by_cases hjl : j < pt.length
      · rw [List.getElem?_append_left hjl] at hj
        rw [List.getElem?_append_left (by omega)]
        exact hlog j e hj hloc
      · rw [List.getElem?_append_right (by omega)] at hj
        rcases hd : j - pt.length with _ | d
        · rw [hd] at hj
          simp only [List.getElem?_cons_zero, Option.some.injEq] at hj
          subst hj
          cases hloc
        · rw [hd] at hj
          simp at hj
    · have hzero : countFree ram = 0 := by omega
      simp only [allocPagesLogged, hram, if_false] at h
      split at h
      · refine ih _ _ _ _ _ r h (by simp [hlen]) ?_
        intro j e hj hloc
        by_cases hjl : j < pt.length
        · rw [List.getElem?_append_left hjl] at hj
          rw [List.getElem?_append_left (by omega)]
          exact hlog j e hj hloc
        · rw [List.getElem?_append_right (by omega)] at hj
          rcases hd : j - pt.length with _ | d
          · rw [List.getElem?_append_right (by omega), hlen, hd, hzero]
            rfl
          · rw [hd] at hj
            simp at hj
      · simp at h

/-- C13 as stated fails on the code: on 2 RAM and 2 SWAP slots, A (1 page) and B (2 pages) are
created at reading 0 and A is finished, which frees RAM slot 0.  The access to B's page 1 at
reading 1 is a fault; B's page 0 is evicted and its entry is set to SWAP although RAM has a
free slot. -/
theorem eviction_with_free_ram :
    ∃ s s1 : State, Reachable s ∧ 0 < countFree s.ram ∧
      entryAt s.processes 0 0 = some ⟨0, 1, Location.RAM⟩ ∧
      accessVirtualAddress s 0 1 1 1 = some s1 ∧
      entryAt s1.processes 0 0 = some ⟨0, 1, Location.SWAP⟩ ∧
      0 < countFree s1.ram :=
  ⟨{ pageSizeKB := 4
     ram := [none, some ⟨2, 0, 0⟩]
     swap := [some ⟨2, 1, 0⟩, none]
     processes := [⟨2, 8, 2, [⟨0, 1, Location.RAM⟩, ⟨1, 0, Location.SWAP⟩], 0⟩]
     nextPid := 3
     pageFaults := 0
     processesCreated := 2
     processesFinished := 1 },
    { pageSizeKB := 4
      ram := [none, some ⟨2, 1, 1⟩]
      swap := [none, some ⟨2, 0, 0⟩]
      processes := [⟨2, 8, 2, [⟨0, 1, Location.SWAP⟩, ⟨1, 1, Location.RAM⟩], 0⟩]
      nextPid := 3
      pageFaults := 1
      processesCreated := 2
      processesFinished := 1 },
    ⟨4, 2, 2, [Op.create 4 0 0, Op.create 8 0 0, Op.finish 0], by decide, by decide⟩,
    by decide, by decide, by decide, by decide, by decide⟩

/-- C13, amended: whenever `createProcess` sets a page-table entry's location to SWAP, the RAM
pool had no free slot at the moment of that placement.  The logged loop, which is the loop
of `createProcess` with a record of the number of free RAM slots at each placement, returns
the pools and the page table that `createProcess` returns, and every entry with location
SWAP is logged with zero free RAM slots. -/
theorem creation_swap_only_when_ram_full (s s1 : State) (sizeKB creationTime now : Nat)
    (h : createProcess s sizeKB creationTime now = some (true, s1)) :
    ∃ (p : Process) (log : List (Location × Nat)),
      s1.processes = s.processes ++ [p] ∧
      allocPagesLogged s.nextPid now (pagesNeeded sizeKB s.pageSizeKB) 0 (countFree s.ram)
        s.ram s.swap [] [] = some (s1.ram, s1.swap, p.pageTable, log) ∧
      log.length = p.pageTable.length ∧
      ∀ (j : Nat) (e : PageTableEntry), p.pageTable[j]? = some e →
        e.location = Location.SWAP → log[j]? = some (Location.SWAP, 0) := by
  have hps : 0 < s.pageSizeKB := by
    by_contra h0
    unfold createProcess at h
    rw [if_pos (by omega)] at h
    simp at h
  have hfit : pagesNeeded sizeKB s.pageSizeKB ≤ countFree s.ram + countFree s.swap := by
    by_contra hnot
    unfold createProcess at h
    rw [if_neg (by omega)] at h
    simp only at h
    rw [if_pos (by omega)] at h
    simp at h
  obtain ⟨ram1, swap1, pt1, hrun, hcp⟩ :=
    createProcess_success s sizeKB creationTime now hps hfit
  rw [hcp] at h
  simp only [Option.some.injEq, Prod.mk.injEq, true_and] at h
  subst h
  have herase := allocPagesLogged_erase s.nextPid now (pagesNeeded sizeKB s.pageSizeKB) 0
    (countFree s.ram) s.ram s.swap [] []
  rw [hrun] at herase
  obtain ⟨r, hr, hproj⟩ := Option.map_eq_some'.1 herase
  obtain ⟨r1, r2, r3, r4⟩ := r
  simp only [Prod.mk.injEq] at hproj
  obtain ⟨rfl, rfl, rfl⟩ := hproj
  obtain ⟨hlen, hlog⟩ := allocPagesLogged_swap_full s.nextPid now
    (pagesNeeded sizeKB s.pageSizeKB) 0 s.ram s.swap [] [] _ hr rfl
    (by intro j e hj; simp at hj)
  exact ⟨_, r4, rfl, hr, hlen, hlog⟩

theorem creation_swap_only_when_ram_full_witness :
    ∃ (p : Process) (log : List (Location × Nat)),
      [(⟨1, 8, 2, [⟨0, 0, Location.RAM⟩, ⟨1, 0, Location.SWAP⟩], 5⟩ : Process)]
        = (freshState 4 1 1).processes ++ [p] ∧
      allocPagesLogged (freshState 4 1 1).nextPid 5 (pagesNeeded 8 (freshState 4 1 1).pageSizeKB)
        0 (countFree (freshState 4 1 1).ram) (freshState 4 1 1).ram (freshState 4 1 1).swap [] []
        = some ([some ⟨1, 0, 5⟩], [some ⟨1, 1, 5⟩], p.pageTable, log) ∧
      log.length = p.pageTable.length ∧
      ∀ (j : Nat) (e : PageTableEntry), p.pageTable[j]? = some e →
        e.location = Location.SWAP → log[j]? = some (Location.SWAP, 0) :=
  creation_swap_only_when_ram_full (freshState 4 1 1)
    { pageSizeKB := 4, ram := [some ⟨1, 0, 5⟩], swap := [some ⟨1, 1, 5⟩],
      processes := [⟨1, 8, 2, [⟨0, 0, Location.RAM⟩, ⟨1, 0, Location.SWAP⟩], 5⟩],
      nextPid := 2, pageFaults := 0, processesCreated := 1, processesFinished := 0 }
    8 5 5 (by decide)

/-! ## Lookups in the process list -/

theorem sizesAt_writeEntry (procs : List Process) (i j frame : Nat) (loc : Location) (m : Nat) :
    sizesAt (writeEntry procs i j frame loc) m = sizesAt procs m := by
  unfold sizesAt writeEntry
  rw [getElem?_modifyAt]
  by_cases h : i = m
  · subst h
    cases procs[i]? <;> simp [length_modifyAt]
  · simp [h]

theorem pidAt_lt (procs : List Process) (m pid : Nat) (h : pidAt procs m = some pid) :
    m < procs.length := by
  by_contra hge
  unfold pidAt at h
  rw [List.getElem?_eq_none (by omega)] at h
  simp at h

theorem entryAt_lt (procs : List Process) (m j : Nat) (e : PageTableEntry)
    (h : entryAt procs m j = some e) : m < procs.length := by
  by_contra hge
  unfold entryAt at h
  rw [List.getElem?_eq_none (by omega)] at h
  simp at h

theorem pidAt_append (procs : List Process) (p : Process) (m : Nat) :
    pidAt (procs ++ [p]) m
      = if m < procs.length then pidAt procs m
        else if m = procs.length then some p.pid else none := by
  unfold pidAt
  by_cases h : m < procs.length
  · rw [List.getElem?_append_left h, if_pos h]
  · rw [List.getElem?_append_right (by omega), if_neg h]
    by_cases h1 : m = procs.length
    · subst h1
      simp
    · rw [if_neg h1]
      obtain ⟨d, hd⟩ : ∃ d, m - procs.length = d + 1 := ⟨m - procs.length - 1, by omega⟩
      rw [hd]
      simp

theorem entryAt_append (procs : List Process) (p : Process) (m j : Nat) :
    entryAt (procs ++ [p]) m j
      = if m < procs.length then entryAt procs m j
        else if m = procs.length then p.pageTable[j]? else none := by
  unfold entryAt
  by_cases h : m < procs.length
  · rw [List.getElem?_append_left h, if_pos h]
  · rw [List.getElem?_append_right (by omega), if_neg h]
    by_cases h1 : m = procs.length
    · subst h1
      simp
    · rw [if_neg h1]
      obtain ⟨d, hd⟩ : ∃ d, m - procs.length = d + 1 := ⟨m - procs.length - 1, by omega⟩
      rw [hd]
      simp

theorem sizesAt_append (procs : List Process) (p : Process) (m : Nat) :
    sizesAt (procs ++ [p]) m
      = if m < procs.length then sizesAt procs m
        else if m = procs.length then some (p.pageTable.length, p.numPages) else none := by
  unfold sizesAt
  by_cases h : m < procs.length
  · rw [List.getElem?_append_left h, if_pos h]
  · rw [List.getElem?_append_right (by omega), if_neg h]
    by_cases h1 : m = procs.length
    · subst h1
      simp
    · rw [if_neg h1]
      obtain ⟨d, hd⟩ : ∃ d, m - procs.length = d + 1 := ⟨m - procs.length - 1, by omega⟩
      rw [hd]
      simp

theorem pidAt_eraseIdx (procs : List Process) (idx m : Nat) :
    pidAt (procs.eraseIdx idx) m = pidAt procs (if m < idx then m else m + 1) := by
  unfold pidAt
  rw [List.getElem?_eraseIdx]
  by_cases h : m < idx <;> simp [h]

theorem entryAt_eraseIdx (procs : List Process) (idx m j : Nat) :
    entryAt (procs.eraseIdx idx) m j = entryAt procs (if m < idx then m else m + 1) j := by
  unfold entryAt
  rw [List.getElem?_eraseIdx]
  by_cases h : m < idx <;> simp [h]

theorem sizesAt_eraseIdx (procs : List Process) (idx m : Nat) :
    sizesAt (procs.eraseIdx idx) m = sizesAt procs (if m < idx then m else m + 1) := by
  unfold sizesAt
  rw [List.getElem?_eraseIdx]
  by_cases h : m < idx <;> simp [h]

/-- The invariant looks only at the process list, the two pools and `nextPid`. -/
theorem Inv.congr (s s1 : State) (h : Inv s)
    (hp : s1.processes = s.processes) (hr : s1.ram = s.ram) (hs : s1.swap = s.swap)
    (hn : s1.nextPid = s.nextPid) : Inv s1 := by
  obtain ⟨h0, h1, h2, h3, h4, h5⟩ := h
  refine ⟨by rw [hn]; exact h0, ?_, ?_, ?_, ?_, ?_⟩
  · unfold DistinctPids at h1 ⊢
    rw [hp]
    exact h1
  · unfold PidsInRange at h2 ⊢
    rw [hp, hn]
    exact h2
  · unfold PageTableShape at h3 ⊢
    rw [hp]
    exact h3
  · unfold SwapEntriesOwnPage at h4 ⊢
    rw [hp, hs]
    exact h4
  · unfold SlotsHaveOwner at h5 ⊢
    intro loc k pg hslot
    rw [hp]
    apply h5 loc k pg
    cases loc
    · simp only [slotAt] at hslot ⊢
      rw [← hr]
      exact hslot
    · simp only [slotAt] at hslot ⊢
      rw [← hs]
      exact hslot

theorem inv_freshState (pageSizeKB ramPages swapPages : Nat) :
    Inv (freshState pageSizeKB ramPages swapPages) := by
  refine ⟨Nat.le_refl 1, ?_, ?_, ⟨?_, ?_⟩, ?_, ?_⟩
  · intro i i1 pid h
    simp [freshState, pidAt] at h
  · intro i pid h
    simp [freshState, pidAt] at h
  · intro i len n h
    simp [freshState, sizesAt] at h
  · intro i j e h
    simp [freshState, entryAt] at h
  · intro i j pid e h
    simp [freshState, pidAt] at h
  · intro loc k pg h
    cases loc
    · simp only [slotAt, freshState, List.getElem?_replicate] at h
      split at h <;> simp at h
    · simp only [slotAt, freshState, List.getElem?_replicate] at h
      split at h <;> simp at h

/-! ## The invariant is kept by `createProcess` -/

/-- Where the content of the pools comes from after the page-assignment loop: an occupied slot
held its page before the loop, or holds a page of the new process that the page table built
by the loop points at. -/
theorem allocPages_origin (pid now : Nat) (n : Nat) :
    ∀ (i rf : Nat) (ram swap : Frames) (pt : List PageTableEntry) (ram1 swap1 : Frames)
      (pt1 : List PageTableEntry),
      allocPages pid now n i rf ram swap pt = some (ram1, swap1, pt1) →
      (∀ j : Nat, j < pt.length → pt1[j]? = pt[j]?) ∧
      (∀ (k : Nat) (pg : Page), ram1[k]? = some (some pg) →
        ram[k]? = some (some pg) ∨
        (pg.pid = pid ∧ ∃ j : Nat, pt.length ≤ j ∧
          pt1[j]? = some ⟨pg.pageNum, k, Location.RAM⟩)) ∧
      (∀ (k : Nat) (pg : Page), swap1[k]? = some (some pg) →
        swap[k]? = some (some pg) ∨
        (pg.pid = pid ∧ ∃ j : Nat, pt.length ≤ j ∧
          pt1[j]? = some ⟨pg.pageNum, k, Location.SWAP⟩)) := by
  induction n with
  | zero =>
    intro i rf ram swap pt ram1 swap1 pt1 h
    simp only [allocPages, Option.some.injEq, Prod.mk.injEq] at h
    obtain ⟨rfl, rfl, rfl⟩ := h
    exact ⟨fun _ _ => rfl, fun _ _ h => Or.inl h, fun _ _ h => Or.inl h⟩
  | succ n ih =>
    intro i rf ram swap pt ram1 swap1 pt1 h
    simp only [allocPages] at h
    split at h
    · split at h
      · rename_i hlt
        obtain ⟨hpre, hR, hS⟩ := ih _ _ _ _ _ _ _ _ h
        have hlast : pt1[pt.length]? = some ⟨i, firstFree ram, Location.RAM⟩ := by
          rw [hpre pt.length (by simp)]
          simp
        refine ⟨?_, ?_, ?_⟩
        · intro j hj
          rw [hpre j (by simp; omega)]
          exact List.getElem?_append_left hj
        · intro k pg hk
          rcases hR k pg hk with h1 | ⟨h1, j, hj, h2⟩
          · by_cases hkf : firstFree ram = k
            · subst hkf
              rw [List.getElem?_set_self hlt] at h1
              simp only [Option.some.injEq] at h1
              subst h1
              exact Or.inr ⟨rfl, pt.length, Nat.le_refl _, hlast⟩
            · rw [List.getElem?_set_ne hkf] at h1
              exact Or.inl h1
          · refine Or.inr ⟨h1, j, ?_, h2⟩
            simp only [List.length_append, List.length_singleton] at hj
            omega
        · intro k pg hk
          rcases hS k pg hk with h1 | ⟨h1, j, hj, h2⟩
          · exact Or.inl h1
          · refine Or.inr ⟨h1, j, ?_, h2⟩
            simp only [List.length_append, List.length_singleton] at hj
            omega
      · simp at h
    · split at h
      · rename_i hlt
        obtain ⟨hpre, hR, hS⟩ := ih _ _ _ _ _ _ _ _ h
        have hlast : pt1[pt.length]? = some ⟨i, firstFree swap, Location.SWAP⟩ := by
          rw [hpre pt.length (by simp)]
          simp
        refine ⟨?_, ?_, ?_⟩
        · intro j hj
          rw [hpre j (by simp; omega)]
          exact List.getElem?_append_left hj
        · intro k pg hk
          rcases hR k pg hk with h1 | ⟨h1, j, hj, h2⟩
          · exact Or.inl h1
          · refine Or.inr ⟨h1, j, ?_, h2⟩
            simp only [List.length_append, List.length_singleton] at hj
            omega
        · intro k pg hk
          rcases hS k pg hk with h1 | ⟨h1, j, hj, h2⟩
          · by_cases hkf : firstFree swap = k
            · subst hkf
              rw [List.getElem?_set_self hlt] at h1
              simp only [Option.some.injEq] at h1
              subst h1
              exact Or.inr ⟨rfl, pt.length, Nat.le_refl _, hlast⟩
            · rw [List.getElem?_set_ne hkf] at h1
              exact Or.inl h1
          · refine Or.inr ⟨h1, j, ?_, h2⟩
            simp only [List.length_append, List.length_singleton] at hj
            omega
      · simp at h

/-- The two ways `createProcess` returns. -/
theorem createProcess_cases (s s1 : State) (b : Bool) (sizeKB creationTime now : Nat)
    (h : createProcess s sizeKB creationTime now = some (b, s1)) :
    (b = false ∧ s1 = s) ∨
    (b = true ∧ 0 < s.pageSizeKB ∧
      pagesNeeded sizeKB s.pageSizeKB ≤ countFree s.ram + countFree s.swap ∧
      ∃ (ram1 swap1 : Frames) (pt1 : List PageTableEntry),
        allocPages s.nextPid now (pagesNeeded sizeKB s.pageSizeKB) 0 (countFree s.ram)
          s.ram s.swap [] = some (ram1, swap1, pt1) ∧
        s1 = { s with
          ram := ram1
          swap := swap1
          processes := s.processes ++
            [⟨s.nextPid, sizeKB, pagesNeeded sizeKB s.pageSizeKB, pt1, creationTime⟩]
          nextPid := s.nextPid + 1
          processesCreated := s.processesCreated + 1 }) := by
  by_cases hps : s.pageSizeKB = 0
  · unfold createProcess at h
    rw [if_pos hps] at h
    simp at h
  · by_cases hfit : pagesNeeded sizeKB s.pageSizeKB ≤ countFree s.ram + countFree s.swap
    · right
      obtain ⟨ram1, swap1, pt1, hrun, hcp⟩ :=
        createProcess_success s sizeKB creationTime now (by omega) hfit
      rw [hcp] at h
      simp only [Option.some.injEq, Prod.mk.injEq] at h
      exact ⟨h.1.symm, by omega, hfit, ram1, swap1, pt1, hrun, h.2.symm⟩
    · left
      unfold createProcess at h
      rw [if_neg hps] at h
      simp only at h
      rw [if_pos (by omega)] at h
      simp only [Option.some.injEq, Prod.mk.injEq] at h
      exact ⟨h.1.symm, h.2.symm⟩

theorem inv_createProcess (s s1 : State) (b : Bool) (sizeKB creationTime now : Nat)
    (hinv : Inv s) (h : createProcess s sizeKB creationTime now = some (b, s1)) : Inv s1 := by
  rcases createProcess_cases s s1 b sizeKB creationTime now h with
    ⟨-, rfl⟩ | ⟨-, -, hfit, ram1, swap1, pt1, hrun, rfl⟩
  · exact hinv
  obtain ⟨hpos, hpids, hrange, ⟨hsizes, hvps⟩, hswap, howner⟩ := hinv
  obtain ⟨r, w, t, hrun2, hlen, -, -, -, -, hrk, hsk, hR, hS⟩ :=
    allocPages_spec s.nextPid now (pagesNeeded sizeKB s.pageSizeKB) 0 s.ram s.swap [] hfit
  rw [hrun] at hrun2
  simp only [Option.some.injEq, Prod.mk.injEq] at hrun2
  obtain ⟨rfl, rfl, rfl⟩ := hrun2
  obtain ⟨-, hRo, hSo⟩ := allocPages_origin s.nextPid now (pagesNeeded sizeKB s.pageSizeKB) 0
    (countFree s.ram) s.ram s.swap [] ram1 swap1 pt1 hrun
  simp only [List.length_nil, Nat.zero_add] at hlen hR hS
  -- the entries of the new page table
  have hnew : ∀ (j : Nat) (e : PageTableEntry), pt1[j]? = some e →
      e.virtualPage = j ∧
      (e.location = Location.SWAP →
        swap1[e.physicalFrame]? = some (some ⟨s.nextPid, j, now⟩)) := by
    intro j e hj
    have hjn : j < pagesNeeded sizeKB s.pageSizeKB := by
      by_contra hge
      rw [List.getElem?_eq_none (by omega)] at hj
      simp at hj
    by_cases hjf : j < countFree s.ram
    · obtain ⟨k, -, h2, -⟩ := hR j hjn hjf
      rw [hj] at h2
      simp only [Option.some.injEq] at h2
      subst h2
      exact ⟨rfl, fun hl => by cases hl⟩
    · obtain ⟨k, -, h2, h3⟩ := hS j hjn (by omega)
      rw [hj] at h2
      simp only [Option.some.injEq] at h2
      subst h2
      exact ⟨rfl, fun _ => h3⟩
  refine ⟨?_, ?_, ?_, ⟨?_, ?_⟩, ?_, ?_⟩
  · show 1 ≤ s.nextPid + 1
    omega
  · intro i i1 pid hi hi1
    simp only [pidAt_append] at hi hi1
    by_cases h1 : i < s.processes.length
    · rw [if_pos h1] at hi
      by_cases h2 : i1 < s.processes.length
      · rw [if_pos h2] at hi1
        exact hpids i i1 pid hi hi1
      · rw [if_neg h2] at hi1
        split at hi1
        · simp only [Option.some.injEq] at hi1
          have := (hrange i pid hi).2
          omega
        · simp at hi1
    · rw [if_neg h1] at hi
      split at hi
      · rename_i h3
        simp only [Option.some.injEq] at hi
        by_cases h2 : i1 < s.processes.length
        · rw [if_pos h2] at hi1
          have := (hrange i1 pid hi1).2
          omega
        · rw [if_neg h2] at hi1
          split at hi1
          · omega
          · simp at hi1
      · simp at hi
  · intro i pid hi
    simp only [pidAt_append] at hi
    show 1 ≤ pid ∧ pid < s.nextPid + 1
    by_cases h1 : i < s.processes.length
    · rw [if_pos h1] at hi
      have := hrange i pid hi
      omega
    · rw [if_neg h1] at hi
      split at hi
      · simp only [Option.some.injEq] at hi
        omega
      · simp at hi
  · intro i len n hi
    simp only [sizesAt_append] at hi
    by_cases h1 : i < s.processes.length
    · rw [if_pos h1] at hi
      exact hsizes i len n hi
    · rw [if_neg h1] at hi
      split at hi
      · simp only [Option.some.injEq, Prod.mk.injEq] at hi
        omega
      · simp at hi
  · intro i j e hi
    simp only [entryAt_append] at hi
    by_cases h1 : i < s.processes.length
    · rw [if_pos h1] at hi
      exact hvps i j e hi
    · rw [if_neg h1] at hi
      split at hi
      · exact (hnew j e hi).1
      · simp at hi
  · intro i j pid e hp he hl
    simp only [pidAt_append] at hp
    simp only [entryAt_append] at he
    by_cases h1 : i < s.processes.length
    · rw [if_pos h1] at hp he
      obtain ⟨pg, hpg, h2, h3⟩ := hswap i j pid e hp he hl
      exact ⟨pg, hsk _ _ hpg, h2, h3⟩
    · rw [if_neg h1] at hp he
      split at hp
      · rename_i h3
        rw [if_pos h3] at he
        simp only [Option.some.injEq] at hp
        obtain ⟨hv, hw⟩ := hnew j e he
        exact ⟨_, hw hl, hp, hv.symm⟩
      · simp at hp
  · intro loc k pg hslot
    have hold : (∃ (i j : Nat) (e : PageTableEntry), pidAt s.processes i = some pg.pid ∧
        entryAt s.processes i j = some e ∧ e.virtualPage = pg.pageNum ∧
        e.location = loc ∧ e.physicalFrame = k) →
        ∃ (i j : Nat) (e : PageTableEntry),
          pidAt (s.processes ++
            [⟨s.nextPid, sizeKB, pagesNeeded sizeKB s.pageSizeKB, pt1, creationTime⟩]) i
            = some pg.pid ∧
          entryAt (s.processes ++
            [⟨s.nextPid, sizeKB, pagesNeeded sizeKB s.pageSizeKB, pt1, creationTime⟩]) i j
            = some e ∧
          e.virtualPage = pg.pageNum ∧ e.location = loc ∧ e.physicalFrame = k := by
      rintro ⟨i, j, e, h1, h2, h3, h4, h5⟩
      have hi := pidAt_lt _ _ _ h1
      exact ⟨i, j, e, by rw [pidAt_append, if_pos hi]; exact h1,
        by rw [entryAt_append, if_pos hi]; exact h2, h3, h4, h5⟩
    have hfresh : pg.pid = s.nextPid → (∃ j : Nat, pt1[j]? = some ⟨pg.pageNum, k, loc⟩) →
        ∃ (i j : Nat) (e : PageTableEntry),
          pidAt (s.processes ++
            [⟨s.nextPid, sizeKB, pagesNeeded sizeKB s.pageSizeKB, pt1, creationTime⟩]) i
            = some pg.pid ∧
          entryAt (s.processes ++
            [⟨s.nextPid, sizeKB, pagesNeeded sizeKB s.pageSizeKB, pt1, creationTime⟩]) i j
            = some e ∧
          e.virtualPage = pg.pageNum ∧ e.location = loc ∧ e.physicalFrame = k := by
      rintro hpid ⟨j, hj⟩
      refine ⟨s.processes.length, j, ⟨pg.pageNum, k, loc⟩, ?_, ?_, rfl, rfl, rfl⟩
      · rw [pidAt_append, if_neg (by omega), if_pos rfl, hpid]
      · rw [entryAt_append, if_neg (by omega), if_pos rfl]
        exact hj
    cases loc
    · simp only [slotAt] at hslot
      rcases hRo k pg hslot with h1 | ⟨h1, j, -, h2⟩
      · exact hold (howner Location.RAM k pg (by simpa [slotAt] using h1))
      · exact hfresh h1 ⟨j, h2⟩
    · simp only [slotAt] at hslot
      rcases hSo k pg hslot with h1 | ⟨h1, j, -, h2⟩
      · exact hold (howner Location.SWAP k pg (by simpa [slotAt] using h1))
      · exact hfresh h1 ⟨j, h2⟩

/-! ## The invariant is kept by `finishRandomProcess` -/

/-- The pools after the release loop: a slot is occupied after the loop exactly when it was
occupied before and no entry of the released page table points at it. -/
theorem releaseFrames_spec :
    ∀ (pt : List PageTableEntry) (ram swap ram1 swap1 : Frames),
      releaseFrames pt ram swap = some (ram1, swap1) →
      (∀ (k : Nat) (pg : Page), ram1[k]? = some (some pg) →
        ram[k]? = some (some pg) ∧
        ∀ e ∈ pt, ¬ (e.location = Location.RAM ∧ e.physicalFrame = k)) ∧
      (∀ (k : Nat) (pg : Page), swap1[k]? = some (some pg) →
        swap[k]? = some (some pg) ∧
        ∀ e ∈ pt, ¬ (e.location = Location.SWAP ∧ e.physicalFrame = k)) ∧
      (∀ (k : Nat) (pg : Page), ram[k]? = some (some pg) →
        (∀ e ∈ pt, ¬ (e.location = Location.RAM ∧ e.physicalFrame = k)) →
        ram1[k]? = some (some pg)) ∧
      (∀ (k : Nat) (pg : Page), swap[k]? = some (some pg) →
        (∀ e ∈ pt, ¬ (e.location = Location.SWAP ∧ e.physicalFrame = k)) →
        swap1[k]? = some (some pg)) := by
  intro pt
  induction pt with
  | nil =>
    intro ram swap ram1 swap1 h
    simp only [releaseFrames, Option.some.injEq, Prod.mk.injEq] at h
    obtain ⟨rfl, rfl⟩ := h
    exact ⟨fun _ _ h => ⟨h, by simp⟩, fun _ _ h => ⟨h, by simp⟩, fun _ _ h _ => h,
      fun _ _ h _ => h⟩
  | cons e es ih =>
    intro ram swap ram1 swap1 h
    cases hloc : e.location with
    | RAM =>
      simp only [releaseFrames, hloc] at h
      split at h
      · rename_i hlt
        obtain ⟨h1, h2, h3, h4⟩ := ih _ _ _ _ h
        refine ⟨?_, ?_, ?_, ?_⟩
        · intro k pg hk
          obtain ⟨ha, hb⟩ := h1 k pg hk
          have hne : e.physicalFrame ≠ k := by
            intro heq
            rw [heq, List.getElem?_set_self (by omega)] at ha
            simp at ha
          rw [List.getElem?_set_ne hne] at ha
          refine ⟨ha, ?_⟩
          intro e1 he1
          rcases List.mem_cons.1 he1 with rfl | hmem
          · exact fun hc => hne hc.2
          · exact hb e1 hmem
        · intro k pg hk
          obtain ⟨ha, hb⟩ := h2 k pg hk
          refine ⟨ha, ?_⟩
          intro e1 he1
          rcases List.mem_cons.1 he1 with rfl | hmem
          · intro hc
            rw [hloc] at hc
            cases hc.1
          · exact hb e1 hmem
        · intro k pg hk hno
          have hne : e.physicalFrame ≠ k :=
            fun heq => hno e (List.mem_cons_self _ _) ⟨hloc, heq⟩
          exact h3 k pg (by rw [List.getElem?_set_ne hne]; exact hk)
            (fun e1 he1 => hno e1 (List.mem_cons_of_mem _ he1))
        · intro k pg hk hno
          exact h4 k pg hk (fun e1 he1 => hno e1 (List.mem_cons_of_mem _ he1))
      · simp at h
    | SWAP =>
      simp only [releaseFrames, hloc] at h
      split at h
      · rename_i hlt
        obtain ⟨h1, h2, h3, h4⟩ := ih _ _ _ _ h
        refine ⟨?_, ?_, ?_, ?_⟩
        · intro k pg hk
          obtain ⟨ha, hb⟩ := h1 k pg hk
          refine ⟨ha, ?_⟩
          intro e1 he1
          rcases List.mem_cons.1 he1 with rfl | hmem
          · intro hc
            rw [hloc] at hc
            cases hc.1
          · exact hb e1 hmem
        · intro k pg hk
          obtain ⟨ha, hb⟩ := h2 k pg hk
          have hne : e.physicalFrame ≠ k := by
            intro heq
            rw [heq, List.getElem?_set_self (by omega)] at ha
            simp at ha
          rw [List.getElem?_set_ne hne] at ha
          refine ⟨ha, ?_⟩
          intro e1 he1
          rcases List.mem_cons.1 he1 with rfl | hmem
          · exact fun hc => hne hc.2
          · exact hb e1 hmem
        · intro k pg hk hno
          exact h3 k pg hk (fun e1 he1 => hno e1 (List.mem_cons_of_mem _ he1))
        · intro k pg hk hno
          have hne : e.physicalFrame ≠ k :=
            fun heq => hno e (List.mem_cons_self _ _) ⟨hloc, heq⟩
          exact h4 k pg (by rw [List.getElem?_set_ne hne]; exact hk)
            (fun e1 he1 => hno e1 (List.mem_cons_of_mem _ he1))
      · simp at h

/-- The two ways `finishRandomProcess` returns. -/
theorem finishRandomProcess_cases (s s1 : State) (idx : Nat)
    (h : finishRandomProcess s idx = some s1) :
    s1 = s ∨
    ∃ (proc : Process) (ram1 swap1 : Frames), s.processes[idx]? = some proc ∧
      releaseFrames proc.pageTable s.ram s.swap = some (ram1, swap1) ∧
      s1 = { s with
        ram := ram1
        swap := swap1
        processesFinished := s.processesFinished + 1
        processes := s.processes.eraseIdx idx } := by
  unfold finishRandomProcess at h
  split at h
  · left
    simp only [Option.some.injEq] at h
    exact h.symm
  · right
    cases hp : s.processes[idx]? with
    | none => rw [hp] at h; simp at h
    | some proc =>
      rw [hp] at h
      simp only at h
      cases hr : releaseFrames proc.pageTable s.ram s.swap with
      | none => rw [hr] at h; simp at h
      | some r =>
        obtain ⟨ram1, swap1⟩ := r
        rw [hr] at h
        simp only [Option.some.injEq] at h
        exact ⟨proc, ram1, swap1, rfl, hr, h.symm⟩

theorem inv_finishRandomProcess (s s1 : State) (idx : Nat)
    (hinv : Inv s) (h : finishRandomProcess s idx = some s1) : Inv s1 := by
  rcases finishRandomProcess_cases s s1 idx h with rfl | ⟨proc, ram1, swap1, hproc, hrel, rfl⟩
  · exact hinv
  obtain ⟨hpos, hpids, hrange, ⟨hsizes, hvps⟩, hswap, howner⟩ := hinv
  obtain ⟨hA, hB, hC, hD⟩ := releaseFrames_spec proc.pageTable s.ram s.swap ram1 swap1 hrel
  have hpidx : pidAt s.processes idx = some proc.pid := (pidAt_eq_some _ _ _).2 ⟨proc, hproc, rfl⟩
  -- the index before the erasure is never `idx`
  have hshift : ∀ m : Nat, (if m < idx then m else m + 1) ≠ idx := by
    intro m
    split <;> omega
  refine ⟨hpos, ?_, ?_, ⟨?_, ?_⟩, ?_, ?_⟩
  · intro i i1 pid hi hi1
    simp only [pidAt_eraseIdx] at hi hi1
    have := hpids _ _ pid hi hi1
    split at this <;> split at this <;> omega
  · intro i pid hi
    simp only [pidAt_eraseIdx] at hi
    exact hrange _ pid hi
  · intro i len n hi
    simp only [sizesAt_eraseIdx] at hi
    exact hsizes _ len n hi
  · intro i j e hi
    simp only [entryAt_eraseIdx] at hi
    exact hvps _ j e hi
  · intro i j pid e hp he hl
    simp only [pidAt_eraseIdx] at hp
    simp only [entryAt_eraseIdx] at he
    obtain ⟨pg, hpg, h2, h3⟩ := hswap _ j pid e hp he hl
    refine ⟨pg, hD _ pg hpg ?_, h2, h3⟩
    intro e1 he1 hc
    obtain ⟨j1, hj1⟩ := List.getElem?_of_mem he1
    have he1At : entryAt s.processes idx j1 = some e1 :=
      (entryAt_eq_some _ _ _ _).2 ⟨proc, hproc, hj1⟩
    obtain ⟨pg1, hpg1, h4, -⟩ := hswap idx j1 proc.pid e1 hpidx he1At hc.1
    rw [hc.2, hpg] at hpg1
    simp only [Option.some.injEq] at hpg1
    subst hpg1
    have := hpids _ idx pid hp (by rw [hpidx, ← h4, h2])
    exact hshift i this
  · intro loc k pg hslot
    have hold : slotAt s loc k = some (some pg) ∧
        ∀ e ∈ proc.pageTable, ¬ (e.location = loc ∧ e.physicalFrame = k) := by
      cases loc
      · simp only [slotAt] at hslot ⊢
        exact hA k pg hslot
      · simp only [slotAt] at hslot ⊢
        exact hB k pg hslot
    obtain ⟨i, j, e, h1, h2, h3, h4, h5⟩ := howner loc k pg hold.1
    have hne : i ≠ idx := by
      rintro rfl
      obtain ⟨p, hp, hpe⟩ := (entryAt_eq_some _ _ _ _).1 h2
      rw [hproc] at hp
      simp only [Option.some.injEq] at hp
      subst hp
      exact hold.2 e (List.getElem?_mem hpe) ⟨h4, h5⟩
    refine ⟨if i < idx then i else i - 1, j, e, ?_, ?_, h3, h4, h5⟩
    · rw [pidAt_eraseIdx]
      have : (if (if i < idx then i else i - 1) < idx then (if i < idx then i else i - 1)
          else (if i < idx then i else i - 1) + 1) = i := by
        by_cases hlt : i < idx
        · simp [hlt]
        · have hge : ¬ (i - 1 < idx) := by omega
          simp only [hlt, hge, if_false]
          omega
      rw [this]
      exact h1
    · rw [entryAt_eraseIdx]
      have : (if (if i < idx then i else i - 1) < idx then (if i < idx then i else i - 1)
          else (if i < idx then i else i - 1) + 1) = i := by
        by_cases hlt : i < idx
        · simp [hlt]
        · have hge : ¬ (i - 1 < idx) := by omega
          simp only [hlt, hge, if_false]
          omega
      rw [this]
      exact h2

/-! ## The invariant is kept by `accessVirtualAddress` -/

/-- The inner relocation loop, with what the rewritten entry was matched on. -/
theorem relocateEntry_cases_match (victim : Page) (swap : Frames) :
    ∀ (pt : List PageTableEntry),
      relocateEntry victim pt swap = (pt, swap) ∨
      ∃ (j : Nat) (e : PageTableEntry), pt[j]? = some e ∧ e.location = Location.RAM ∧
        e.virtualPage = victim.pageNum ∧ firstFree swap < swap.length ∧
        relocateEntry victim pt swap
          = (modifyAt
              (fun a => { a with physicalFrame := firstFree swap, location := Location.SWAP })
              pt j,
            swap.set (firstFree swap) (some victim)) := by
  intro pt
  induction pt with
  | nil => left; rfl
  | cons x xs ih =>
    by_cases hx : x.virtualPage = victim.pageNum ∧ x.location = Location.RAM
    · by_cases hfree : firstFree swap < swap.length
      · right
        exact ⟨0, x, by simp, hx.2, hx.1, hfree, by simp [relocateEntry, hx, hfree, modifyAt]⟩
      · left
        simp [relocateEntry, hx, hfree]
    · rcases ih with h | ⟨j, e, h1, h2, h3, h4, h5⟩
      · left
        simp only [relocateEntry, hx, if_false]
        rw [h]
      · right
        refine ⟨j + 1, e, by simpa using h1, h2, h3, h4, ?_⟩
        simp only [relocateEntry, hx, if_false, modifyAt]
        rw [h5]

/-- The victim relocation, with what the rewritten entry was matched on: the pid of its
process is the victim's pid and its virtual page is the victim's page number. -/
theorem relocateVictim_cases_match (victim : Page) (swap : Frames) :
    ∀ (procs : List Process),
      relocateVictim victim procs swap = (procs, swap) ∨
      ∃ (i j : Nat) (e : PageTableEntry), entryAt procs i j = some e ∧
        pidAt procs i = some victim.pid ∧
        e.location = Location.RAM ∧ e.virtualPage = victim.pageNum ∧
        firstFree swap < swap.length ∧
        relocateVictim victim procs swap
          = (writeEntry procs i j (firstFree swap) Location.SWAP,
            swap.set (firstFree swap) (some victim)) := by
  intro procs
  induction procs with
  | nil => left; rfl
  | cons x xs ih =>
    by_cases hx : x.pid = victim.pid
    · rcases relocateEntry_cases_match victim swap x.pageTable with
        h | ⟨j, e, h1, h2, h3, h4, h5⟩
      · left
        unfold relocateVictim
        rw [if_pos hx]
        simp only
        rw [h]
      · right
        refine ⟨0, j, e, by simp [entryAt, h1], by simp [pidAt, hx], h2, h3, h4, ?_⟩
        unfold relocateVictim
        rw [if_pos hx]
        simp only [writeEntry, modifyAt]
        rw [h5]
    · rcases ih with h | ⟨i, j, e, h1, h2, h3, h4, h5, h6⟩
      · left
        simp only [relocateVictim, hx, if_false]
        rw [h]
      · right
        refine ⟨i + 1, j, e, by simpa [entryAt] using h1, by simpa [pidAt] using h2, h3, h4,
          h5, ?_⟩
        simp only [relocateVictim, hx, if_false]
        rw [h6]
        simp [writeEntry, modifyAt]

/-- The ways `accessVirtualAddress` returns: nothing changes (no process, or a hit); only the
fault is counted (no victim); or a victim is selected and the faulting page takes its
frame. -/
theorem accessVirtualAddress_cases (s s1 : State) (procIdx virtualPage tScan tLoad : Nat)
    (h : accessVirtualAddress s procIdx virtualPage tScan tLoad = some s1) :
    s1 = s ∨ s1 = { s with pageFaults := s.pageFaults + 1 } ∨
    ∃ (proc : Process) (entry : PageTableEntry) (v : Nat) (victim requested : Page),
      s.processes[procIdx]? = some proc ∧
      proc.pageTable[virtualPage]? = some entry ∧
      entry.location = Location.SWAP ∧
      findVictim s.ram tScan = some v ∧
      s.ram[v]? = some (some victim) ∧
      (relocateVictim victim s.processes s.swap).2[entry.physicalFrame]?
        = some (some requested) ∧
      s1 = { s with
          pageFaults := s.pageFaults + 1
          ram := s.ram.set v (some { requested with loadTime := tLoad })
          swap := (relocateVictim victim s.processes s.swap).2.set entry.physicalFrame none
          processes :=
            writeEntry (relocateVictim victim s.processes s.swap).1 procIdx virtualPage v
              Location.RAM } := by
  by_cases hemp : s.processes.isEmpty = true
  · left
    unfold accessVirtualAddress at h
    rw [if_pos hemp] at h
    simp only [Option.some.injEq] at h
    exact h.symm
  · cases hproc : s.processes[procIdx]? with
    | none =>
      unfold accessVirtualAddress at h
      rw [if_neg hemp, hproc] at h
      simp at h
    | some proc =>
      cases hentry : proc.pageTable[virtualPage]? with
      | none =>
        unfold accessVirtualAddress at h
        rw [if_neg hemp, hproc] at h
        simp only [hentry] at h
        simp at h
      | some entry =>
        cases hloc : entry.location with
        | RAM =>
          left
          rw [access_hit_eq s procIdx virtualPage tScan tLoad proc entry hproc hentry hloc] at h
          simp only [Option.some.injEq] at h
          exact h.symm
        | SWAP =>
          right
          cases hv : findVictim s.ram tScan with
          | none =>
            left
            rw [access_fault_no_victim s procIdx virtualPage tScan tLoad proc entry hproc hentry
              hloc hv] at h
            simp only [Option.some.injEq] at h
            exact h.symm
          | some v =>
            right
            obtain ⟨victim, hvictim, -⟩ := findVictim_eq_some s.ram tScan v hv
            cases hreq : (relocateVictim victim s.processes s.swap).2[entry.physicalFrame]? with
            | none =>
              unfold accessVirtualAddress at h
              rw [if_neg hemp, hproc] at h
              simp only [hentry, hloc, hv, hvictim, hreq] at h
              simp at h
            | some slot =>
              cases slot with
              | none =>
                unfold accessVirtualAddress at h
                rw [if_neg hemp, hproc] at h
                simp only [hentry, hloc, hv, hvictim, hreq] at h
                simp at h
              | some requested =>
                rw [access_fault_eq s procIdx virtualPage tScan tLoad proc entry v victim
                  requested hproc hentry hloc hv hvictim hreq] at h
                simp only [Option.some.injEq] at h
                exact ⟨proc, entry, v, victim, requested, rfl, hentry, hloc, rfl, hvictim,
                  hreq, h.symm⟩

theorem entryAt_writeEntry_of_ne (procs : List Process) (i j frame : Nat) (loc : Location)
    (m n : Nat) (h : ¬ (i = m ∧ j = n)) :
    entryAt (writeEntry procs i j frame loc) m n = entryAt procs m n := by
  rw [entryAt_writeEntry, if_neg h]

theorem entryAt_writeEntry_self (procs : List Process) (i j frame : Nat) (loc : Location)
    (e : PageTableEntry) (h : entryAt procs i j = some e) :
    entryAt (writeEntry procs i j frame loc) i j
      = some { e with physicalFrame := frame, location := loc } := by
  rw [entryAt_writeEntry, if_pos ⟨rfl, rfl⟩, h]
  rfl

theorem entryAt_writeEntry_some (procs : List Process) (i j frame : Nat) (loc : Location)
    (m n : Nat) (e1 : PageTableEntry)
    (h : entryAt (writeEntry procs i j frame loc) m n = some e1) :
    ∃ e : PageTableEntry, entryAt procs m n = some e ∧
      ((i = m ∧ j = n ∧ e1 = { e with physicalFrame := frame, location := loc }) ∨
        (¬ (i = m ∧ j = n) ∧ e1 = e)) := by
  rw [entryAt_writeEntry] at h
  by_cases hij : i = m ∧ j = n
  · rw [if_pos hij] at h
    obtain ⟨e, he, hee⟩ := Option.map_eq_some'.1 h
    exact ⟨e, he, Or.inl ⟨hij.1, hij.2, hee.symm⟩⟩
  · rw [if_neg hij] at h
    exact ⟨e1, h, Or.inr ⟨hij, rfl⟩⟩

/-- In a state that satisfies the invariant, a pid and a virtual page number name one entry. -/
theorem Inv.entry_unique (s : State) (hinv : Inv s) (i j i1 j1 pid : Nat)
    (e e1 : PageTableEntry)
    (hp : pidAt s.processes i = some pid) (hp1 : pidAt s.processes i1 = some pid)
    (he : entryAt s.processes i j = some e) (he1 : entryAt s.processes i1 j1 = some e1)
    (hv : e.virtualPage = e1.virtualPage) : i = i1 ∧ j = j1 := by
  have hi := hinv.pids i i1 pid hp hp1
  have h1 := hinv.shape.2 i j e he
  have h2 := hinv.shape.2 i1 j1 e1 he1
  exact ⟨hi, by omega⟩

/-- In a state that satisfies the invariant, the entry that owns an occupied slot is the
entry named by the pid and the page number of the page in the slot. -/
theorem Inv.owner_of_match (s : State) (hinv : Inv s) (loc : Location) (k : Nat) (pg : Page)
    (hslot : slotAt s loc k = some (some pg)) (i j : Nat) (e : PageTableEntry)
    (hp : pidAt s.processes i = some pg.pid) (he : entryAt s.processes i j = some e)
    (hv : e.virtualPage = pg.pageNum) : e.location = loc ∧ e.physicalFrame = k := by
  obtain ⟨io, jo, eo, h1, h2, h3, h4, h5⟩ := hinv.owner loc k pg hslot
  obtain ⟨rfl, rfl⟩ := hinv.entry_unique s io jo i j pg.pid eo e h1 hp h2 he (by rw [h3, hv])
  rw [h2] at he
  simp only [Option.some.injEq] at he
  subst he
  exact ⟨h4, h5⟩

/-- The invariant is kept by a fault that selects a victim, whether or not the victim is
moved to SWAP. -/
theorem inv_fault (s : State) (procIdx virtualPage tLoad v : Nat)
    (proc : Process) (entry : PageTableEntry) (victim requested : Page)
    (hinv : Inv s)
    (hproc : s.processes[procIdx]? = some proc)
    (hentry : proc.pageTable[virtualPage]? = some entry)
    (hloc : entry.location = Location.SWAP)
    (hvictim : s.ram[v]? = some (some victim))
    (hreq : (relocateVictim victim s.processes s.swap).2[entry.physicalFrame]?
      = some (some requested)) :
    Inv { s with
      pageFaults := s.pageFaults + 1
      ram := s.ram.set v (some { requested with loadTime := tLoad })
      swap := (relocateVictim victim s.processes s.swap).2.set entry.physicalFrame none
      processes :=
        writeEntry (relocateVictim victim s.processes s.swap).1 procIdx virtualPage v
          Location.RAM } := by
  have hentryAt : entryAt s.processes procIdx virtualPage = some entry :=
    (entryAt_eq_some _ _ _ _).2 ⟨proc, hproc, hentry⟩
  have hpidP : pidAt s.processes procIdx = some proc.pid :=
    (pidAt_eq_some _ _ _).2 ⟨proc, hproc, rfl⟩
  obtain ⟨rq0, hrq0, hrqpid, hrqvp⟩ :=
    hinv.swapOwn procIdx virtualPage proc.pid entry hpidP hentryAt hloc
  have hvlt : v < s.ram.length := by
    by_contra hge
    rw [List.getElem?_eq_none (by omega)] at hvictim
    simp at hvictim
  have hflt : entry.physicalFrame < s.swap.length := by
    by_contra hge
    rw [List.getElem?_eq_none (by omega)] at hrq0
    simp at hrq0
  -- a SWAP entry that points at the slot of the faulting page is the faulting entry
  have hfaultOnly : ∀ (m n : Nat) (e : PageTableEntry), entryAt s.processes m n = some e →
      e.location = Location.SWAP → e.physicalFrame = entry.physicalFrame →
      m = procIdx ∧ n = virtualPage := by
    intro m n e he hl hf
    obtain ⟨p, hp, -⟩ := (entryAt_eq_some _ _ _ _).1 he
    have hpm : pidAt s.processes m = some p.pid := (pidAt_eq_some _ _ _).2 ⟨p, hp, rfl⟩
    obtain ⟨pg, hpg, h1, h2⟩ := hinv.swapOwn m n p.pid e hpm he hl
    rw [hf, hrq0] at hpg
    simp only [Option.some.injEq] at hpg
    subst hpg
    exact hinv.entry_unique s m n procIdx virtualPage p.pid e entry hpm
      (by rw [hpidP, ← hrqpid, h1]) he hentryAt (by rw [← h2, hrqvp])
  have hvslot : slotAt s Location.RAM v = some (some victim) := by
    simpa [slotAt] using hvictim
  rcases relocateVictim_cases_match victim s.swap s.processes with
    hrel | ⟨i0, j0, e0, he0, hp0, hl0, hv0, hff, hrel⟩
  · -- the victim is not moved
    rw [hrel] at hreq ⊢
    simp only at hreq ⊢
    rw [hrq0] at hreq
    simp only [Option.some.injEq] at hreq
    subst hreq
    refine ⟨hinv.nextPos, ?_, ?_, ⟨?_, ?_⟩, ?_, ?_⟩
    · intro i i1 pid hi hi1
      simp only [pidAt_writeEntry] at hi hi1
      exact hinv.pids i i1 pid hi hi1
    · intro i pid hi
      simp only [pidAt_writeEntry] at hi
      exact hinv.range i pid hi
    · intro i len n hi
      simp only [sizesAt_writeEntry] at hi
      exact hinv.shape.1 i len n hi
    · intro i j e hi
      obtain ⟨e1, he1, ⟨-, -, rfl⟩ | ⟨-, rfl⟩⟩ := entryAt_writeEntry_some _ _ _ _ _ _ _ _ hi
      · exact hinv.shape.2 i j e1 he1
      · exact hinv.shape.2 i j e he1
    · intro i j pid e hp he hl
      simp only [pidAt_writeEntry] at hp
      obtain ⟨e1, he1, ⟨-, -, rfl⟩ | ⟨hne, rfl⟩⟩ := entryAt_writeEntry_some _ _ _ _ _ _ _ _ he
      · cases hl
      · obtain ⟨pg, hpg, h1, h2⟩ := hinv.swapOwn i j pid e hp he1 hl
        refine ⟨pg, ?_, h1, h2⟩
        simp only
        have hfe : entry.physicalFrame ≠ e.physicalFrame := by
          intro hf
          obtain ⟨ha, hb⟩ := hfaultOnly i j e he1 hl hf.symm
          exact hne ⟨ha.symm, hb.symm⟩
        rw [List.getElem?_set_ne hfe]
        exact hpg
    · intro loc k pg hslot
      cases loc
      · simp only [slotAt] at hslot
        by_cases hk : v = k
        · subst hk
          rw [List.getElem?_set_self hvlt] at hslot
          simp only [Option.some.injEq] at hslot
          subst hslot
          exact ⟨procIdx, virtualPage, _, by rw [pidAt_writeEntry, hpidP, ← hrqpid],
            entryAt_writeEntry_self _ _ _ _ _ _ hentryAt, hrqvp.symm, rfl, rfl⟩
        · rw [List.getElem?_set_ne hk] at hslot
          obtain ⟨i, j, e, h1, h2, h3, h4, h5⟩ :=
            hinv.owner Location.RAM k pg (by simpa [slotAt] using hslot)
          have hne : ¬ (procIdx = i ∧ virtualPage = j) := by
            rintro ⟨rfl, rfl⟩
            rw [hentryAt] at h2
            simp only [Option.some.injEq] at h2
            subst h2
            rw [hloc] at h4
            cases h4
          exact ⟨i, j, e, by rw [pidAt_writeEntry]; exact h1,
            by rw [entryAt_writeEntry_of_ne _ _ _ _ _ _ _ hne]; exact h2, h3, h4, h5⟩
      · simp only [slotAt] at hslot
        by_cases hk : entry.physicalFrame = k
        · subst hk
          rw [List.getElem?_set_self hflt] at hslot
          simp at hslot
        · rw [List.getElem?_set_ne hk] at hslot
          obtain ⟨i, j, e, h1, h2, h3, h4, h5⟩ :=
            hinv.owner Location.SWAP k pg (by simpa [slotAt] using hslot)
          have hne : ¬ (procIdx = i ∧ virtualPage = j) := by
            rintro ⟨rfl, rfl⟩
            rw [hentryAt] at h2
            simp only [Option.some.injEq] at h2
            subst h2
            exact hk h5
          exact ⟨i, j, e, by rw [pidAt_writeEntry]; exact h1,
            by rw [entryAt_writeEntry_of_ne _ _ _ _ _ _ _ hne]; exact h2, h3, h4, h5⟩
  · -- the victim is moved to the first free SWAP slot
    obtain ⟨hl0v, hf0v⟩ := hinv.owner_of_match s Location.RAM v victim hvslot i0 j0 e0 hp0 he0 hv0
    have hfirst := getElem?_firstFree s.swap hff
    have hne : firstFree s.swap ≠ entry.physicalFrame := by
      intro h
      rw [h, hrq0] at hfirst
      simp at hfirst
    have hdiff : ¬ (i0 = procIdx ∧ j0 = virtualPage) := by
      rintro ⟨rfl, rfl⟩
      rw [he0] at hentryAt
      simp only [Option.some.injEq] at hentryAt
      subst hentryAt
      rw [hl0] at hloc
      cases hloc
    rw [hrel] at hreq ⊢
    simp only at hreq ⊢
    rw [List.getElem?_set_ne hne, hrq0] at hreq
    simp only [Option.some.injEq] at hreq
    subst hreq
    have hffset : ((s.swap.set (firstFree s.swap) (some victim)).set entry.physicalFrame
        none)[firstFree s.swap]? = some (some victim) := by
      rw [List.getElem?_set_ne (Ne.symm hne)]
      exact List.getElem?_set_self hff
    refine ⟨hinv.nextPos, ?_, ?_, ⟨?_, ?_⟩, ?_, ?_⟩
    · intro i i1 pid hi hi1
      simp only [pidAt_writeEntry] at hi hi1
      exact hinv.pids i i1 pid hi hi1
    · intro i pid hi
      simp only [pidAt_writeEntry] at hi
      exact hinv.range i pid hi
    · intro i len n hi
      simp only [sizesAt_writeEntry] at hi
      exact hinv.shape.1 i len n hi
    · intro i j e hi
      obtain ⟨e1, he1, hcase⟩ := entryAt_writeEntry_some _ _ _ _ _ _ _ _ hi
      obtain ⟨e2, he2, hcase2⟩ := entryAt_writeEntry_some _ _ _ _ _ _ _ _ he1
      have h2 := hinv.shape.2 i j e2 he2
      rcases hcase with ⟨-, -, rfl⟩ | ⟨-, rfl⟩ <;>
        rcases hcase2 with ⟨-, -, rfl⟩ | ⟨-, rfl⟩ <;> exact h2
    · intro i j pid e hp he hl
      simp only [pidAt_writeEntry] at hp
      obtain ⟨e1, he1, ⟨-, -, rfl⟩ | ⟨hne1, rfl⟩⟩ := entryAt_writeEntry_some _ _ _ _ _ _ _ _ he
      · cases hl
      · obtain ⟨e2, he2, ⟨rfl, rfl, rfl⟩ | ⟨hne2, rfl⟩⟩ :=
          entryAt_writeEntry_some _ _ _ _ _ _ _ _ he1
        · rw [he0] at he2
          simp only [Option.some.injEq] at he2
          subst he2
          rw [hp0] at hp
          simp only [Option.some.injEq] at hp
          exact ⟨victim, hffset, hp, hv0.symm⟩
        · obtain ⟨pg, hpg, h1, h2⟩ := hinv.swapOwn i j pid e hp he2 hl
          refine ⟨pg, ?_, h1, h2⟩
          simp only
          have hfe : entry.physicalFrame ≠ e.physicalFrame := by
            intro hf
            obtain ⟨ha, hb⟩ := hfaultOnly i j e he2 hl hf.symm
            exact hne1 ⟨ha.symm, hb.symm⟩
          have hffe : firstFree s.swap ≠ e.physicalFrame := by
            intro hf
            rw [← hf, hfirst] at hpg
            simp at hpg
          rw [List.getElem?_set_ne hfe, List.getElem?_set_ne hffe]
          exact hpg
    · intro loc k pg hslot
      cases loc
      · simp only [slotAt] at hslot
        by_cases hk : v = k
        · subst hk
          rw [List.getElem?_set_self hvlt] at hslot
          simp only [Option.some.injEq] at hslot
          subst hslot
          refine ⟨procIdx, virtualPage, _, ?_, entryAt_writeEntry_self _ _ _ _ _ _ ?_,
            hrqvp.symm, rfl, rfl⟩
          · rw [pidAt_writeEntry, pidAt_writeEntry, hpidP, ← hrqpid]
          · rw [entryAt_writeEntry_of_ne _ _ _ _ _ _ _ hdiff]
            exact hentryAt
        · rw [List.getElem?_set_ne hk] at hslot
          obtain ⟨i, j, e, h1, h2, h3, h4, h5⟩ :=
            hinv.owner Location.RAM k pg (by simpa [slotAt] using hslot)
          have hne1 : ¬ (procIdx = i ∧ virtualPage = j) := by
            rintro ⟨rfl, rfl⟩
            rw [hentryAt] at h2
            simp only [Option.some.injEq] at h2
            subst h2
            rw [hloc] at h4
            cases h4
          have hne2 : ¬ (i0 = i ∧ j0 = j) := by
            rintro ⟨rfl, rfl⟩
            rw [he0] at h2
            simp only [Option.some.injEq] at h2
            subst h2
            exact hk (hf0v.symm.trans h5)
          exact ⟨i, j, e, by rw [pidAt_writeEntry, pidAt_writeEntry]; exact h1,
            by
              rw [entryAt_writeEntry_of_ne _ _ _ _ _ _ _ hne1,
                entryAt_writeEntry_of_ne _ _ _ _ _ _ _ hne2]
              exact h2,
            h3, h4, h5⟩
      · simp only [slotAt] at hslot
        by_cases hk : entry.physicalFrame = k
        · subst hk
          rw [List.getElem?_set_self (by simpa using hflt)] at hslot
          simp at hslot
        · rw [List.getElem?_set_ne hk] at hslot
          by_cases hkf : firstFree s.swap = k
          · subst hkf
            rw [List.getElem?_set_self hff] at hslot
            simp only [Option.some.injEq] at hslot
            subst hslot
            refine ⟨i0, j0,
              { e0 with physicalFrame := firstFree s.swap, location := Location.SWAP },
              ?_, ?_, hv0, rfl, rfl⟩
            · rw [pidAt_writeEntry, pidAt_writeEntry]
              exact hp0
            · rw [entryAt_writeEntry_of_ne _ _ _ _ _ _ _
                (fun h => hdiff ⟨h.1.symm, h.2.symm⟩)]
              exact entryAt_writeEntry_self _ _ _ _ _ _ he0
          · rw [List.getElem?_set_ne hkf] at hslot
            obtain ⟨i, j, e, h1, h2, h3, h4, h5⟩ :=
              hinv.owner Location.SWAP k pg (by simpa [slotAt] using hslot)
            have hne1 : ¬ (procIdx = i ∧ virtualPage = j) := by
              rintro ⟨rfl, rfl⟩
              rw [hentryAt] at h2
              simp only [Option.some.injEq] at h2
              subst h2
              exact hk h5
            have hne2 : ¬ (i0 = i ∧ j0 = j) := by
              rintro ⟨rfl, rfl⟩
              rw [he0] at h2
              simp only [Option.some.injEq] at h2
              subst h2
              rw [hl0] at h4
              cases h4
            exact ⟨i, j, e, by rw [pidAt_writeEntry, pidAt_writeEntry]; exact h1,
              by
                rw [entryAt_writeEntry_of_ne _ _ _ _ _ _ _ hne1,
                  entryAt_writeEntry_of_ne _ _ _ _ _ _ _ hne2]
                exact h2,
              h3, h4, h5⟩

theorem inv_accessVirtualAddress (s s1 : State) (procIdx virtualPage tScan tLoad : Nat)
    (hinv : Inv s) (h : accessVirtualAddress s procIdx virtualPage tScan tLoad = some s1) :
    Inv s1 := by
  rcases accessVirtualAddress_cases s s1 procIdx virtualPage tScan tLoad h with
    rfl | rfl | ⟨proc, entry, v, victim, requested, hproc, hentry, hloc, -, hvictim, hreq, rfl⟩
  · exact hinv
  · exact Inv.congr s _ hinv rfl rfl rfl rfl
  · exact inv_fault s procIdx virtualPage tLoad v proc entry victim requested hinv hproc hentry
      hloc hvictim hreq

/-! ## The invariant holds in every reachable state -/

theorem inv_step (s s1 : State) (op : Op) (hinv : Inv s) (h : step s op = some s1) : Inv s1 := by
  cases op with
  | create sizeKB creationTime now =>
    simp only [step] at h
    obtain ⟨r, hr, hs⟩ := Option.map_eq_some'.1 h
    obtain ⟨b, s2⟩ := r
    simp only at hs
    subst hs
    exact inv_createProcess s s2 b sizeKB creationTime now hinv hr
  | finish idx => exact inv_finishRandomProcess s s1 idx hinv h
  | access procIdx virtualPage tScan tLoad =>
    exact inv_accessVirtualAddress s s1 procIdx virtualPage tScan tLoad hinv h

theorem inv_run (ops : List Op) : ∀ (s s1 : State), Inv s → run s ops = some s1 → Inv s1 := by
  induction ops with
  | nil =>
    intro s s1 hinv h
    simp only [run, Option.some.injEq] at h
    subst h
    exact hinv
  | cons op ops ih =>
    intro s s1 hinv h
    simp only [run] at h
    cases hstep : step s op with
    | none => rw [hstep] at h; simp at h
    | some s2 =>
      rw [hstep] at h
      exact ih s2 s1 (inv_step s s2 op hinv hstep) h

theorem inv_reachable (s : State) (h : Reachable s) : Inv s := by
  obtain ⟨pageSizeKB, ramPages, swapPages, ops, -, hrun⟩ := h
  exact inv_run ops _ s (inv_freshState pageSizeKB ramPages swapPages) hrun

theorem scenarioState_reachable : Reachable scenarioState :=
  ⟨4, 4, 4, [Op.create 12 0 0, Op.create 8 0 0], by decide, run_create_A_B 0 0 0 0⟩

/-! ## Properties of the reachable states -/

/-- From any state, the pids that a sequence of calls gives to the processes it creates are
at least `nextPid` and strictly increasing. -/
theorem createdPids_increasing (ops : List Op) :
    ∀ s : State, (∀ q ∈ createdPids s ops, s.nextPid ≤ q) ∧
      (createdPids s ops).Pairwise (fun a b => a < b) := by
  induction ops with
  | nil => intro s; simp [createdPids]
  | cons op ops ih =>
    intro s
    cases op with
    | create sizeKB creationTime now =>
      simp only [createdPids]
      cases hc : createProcess s sizeKB creationTime now with
      | none => simp
      | some r =>
        obtain ⟨b, s1⟩ := r
        rcases createProcess_cases s s1 b sizeKB creationTime now hc with
          ⟨rfl, rfl⟩ | ⟨rfl, -, -, ram1, swap1, pt1, -, rfl⟩
        · exact ih _
        · obtain ⟨h1, h2⟩ := ih
            { s with
              ram := ram1
              swap := swap1
              processes := s.processes ++
                [⟨s.nextPid, sizeKB, pagesNeeded sizeKB s.pageSizeKB, pt1, creationTime⟩]
              nextPid := s.nextPid + 1
              processesCreated := s.processesCreated + 1 }
          simp only [List.getLast?_concat]
          refine ⟨?_, ?_⟩
          · intro q hq
            rcases List.mem_cons.1 hq with rfl | hq1
            · exact Nat.le_refl _
            · have := h1 q hq1
              simp only at this
              omega
          · refine List.pairwise_cons.2 ⟨?_, h2⟩
            intro q hq
            have := h1 q hq
            simp only at this
            omega
    | finish idx =>
      simp only [createdPids]
      cases hf : finishRandomProcess s idx with
      | none => simp
      | some s1 =>
        rcases finishRandomProcess_cases s s1 idx hf with rfl | ⟨proc, ram1, swap1, -, -, rfl⟩
        · exact ih _
        · exact ih _
    | access procIdx virtualPage tScan tLoad =>
      simp only [createdPids]
      cases ha : accessVirtualAddress s procIdx virtualPage tScan tLoad with
      | none => simp
      | some s1 =>
        rcases accessVirtualAddress_cases s s1 procIdx virtualPage tScan tLoad ha with
          rfl | rfl | ⟨proc, entry, v, victim, requested, -, -, -, -, -, -, rfl⟩
        · exact ih _
        · exact ih _
        · exact ih _

/-- C16, pids: in every reachable state the live processes have pairwise distinct pids, each
at least 1 and strictly below `nextPid`; a successful `createProcess` gives the new process
the pid `nextPid`, above every live pid; and along every run from a freshly constructed
simulator the pids given to the created processes are strictly increasing, so each new pid
is above the pid of every process created before it, finished or not. -/
theorem pids_unique_monotone :
    (∀ s : State, Reachable s →
      (∀ (i i1 : Nat) (p p1 : Process), s.processes[i]? = some p →
        s.processes[i1]? = some p1 → p.pid = p1.pid → i = i1) ∧
      (∀ p ∈ s.processes, 1 ≤ p.pid ∧ p.pid < s.nextPid) ∧
      (∀ (s1 : State) (sizeKB creationTime now : Nat),
        createProcess s sizeKB creationTime now = some (true, s1) →
        ∃ p : Process, s1.processes = s.processes ++ [p] ∧ p.pid = s.nextPid ∧
          s1.nextPid = s.nextPid + 1 ∧ ∀ q ∈ s.processes, q.pid < p.pid)) ∧
    (∀ (pageSizeKB ramPages swapPages : Nat) (ops : List Op),
      (createdPids (freshState pageSizeKB ramPages swapPages) ops).Pairwise
        (fun a b => a < b)) := by
  refine ⟨?_, fun pageSizeKB ramPages swapPages ops =>
    (createdPids_increasing ops (freshState pageSizeKB ramPages swapPages)).2⟩
  intro s h
  have hinv := inv_reachable s h
  have hrange : ∀ p ∈ s.processes, 1 ≤ p.pid ∧ p.pid < s.nextPid := by
    intro p hp
    obtain ⟨m, hm⟩ := List.getElem?_of_mem hp
    exact hinv.range m p.pid ((pidAt_eq_some _ _ _).2 ⟨p, hm, rfl⟩)
  refine ⟨?_, hrange, ?_⟩
  · intro i i1 p p1 hp hp1 heq
    exact hinv.pids i i1 p.pid ((pidAt_eq_some _ _ _).2 ⟨p, hp, rfl⟩)
      ((pidAt_eq_some _ _ _).2 ⟨p1, hp1, heq.symm⟩)
  · intro s1 sizeKB creationTime now hc
    rcases createProcess_cases s s1 true sizeKB creationTime now hc with
      ⟨hb, -⟩ | ⟨-, -, -, ram1, swap1, pt1, -, rfl⟩
    · cases hb
    · exact ⟨_, rfl, rfl, rfl, fun q hq => (hrange q hq).2⟩

theorem pids_unique_monotone_witness :
    (∀ (i i1 : Nat) (p p1 : Process), scenarioState.processes[i]? = some p →
        scenarioState.processes[i1]? = some p1 → p.pid = p1.pid → i = i1) ∧
      (∀ p ∈ scenarioState.processes, 1 ≤ p.pid ∧ p.pid < scenarioState.nextPid) ∧
      (∀ (s1 : State) (sizeKB creationTime now : Nat),
        createProcess scenarioState sizeKB creationTime now = some (true, s1) →
        ∃ p : Process, s1.processes = scenarioState.processes ++ [p] ∧
          p.pid = scenarioState.nextPid ∧
          s1.nextPid = scenarioState.nextPid + 1 ∧ ∀ q ∈ scenarioState.processes, q.pid < p.pid) :=
  pids_unique_monotone.1 scenarioState scenarioState_reachable

/-- The slot read on the fault path after the relocation still holds the faulting page. -/
theorem requested_after_relocation (victim : Page) (procs : List Process) (swap : Frames)
    (f : Nat) (rq : Page) (hrq : swap[f]? = some (some rq)) :
    (relocateVictim victim procs swap).2[f]? = some (some rq) := by
  rcases relocateVictim_cases victim swap procs with hrel | ⟨i0, j0, e0, -, -, hff, hrel⟩
  · rw [hrel]
    exact hrq
  · have hfirst := getElem?_firstFree swap hff
    have hne : firstFree swap ≠ f := by
      intro h
      rw [h, hrq] at hfirst
      simp at hfirst
    rw [hrel]
    simp only
    rw [List.getElem?_set_ne hne]
    exact hrq

/-- C18, SWAP entries are never stale: in every reachable state, every page-table entry of a
live process with location SWAP has an in-range `physicalFrame` whose SWAP slot holds a page
carrying that process's pid and that entry's `virtualPage`.  Hence on a fault the read of
`swap[entry.physicalFrame]`, made after the victim relocation, yields a page of the faulting
process, and the call returns. -/
theorem swap_entries_never_stale (s : State) (h : Reachable s) :
    (∀ (i j : Nat) (p : Process) (e : PageTableEntry),
      s.processes[i]? = some p → p.pageTable[j]? = some e → e.location = Location.SWAP →
      e.physicalFrame < s.swap.length ∧
      ∃ pg : Page, s.swap[e.physicalFrame]? = some (some pg) ∧
        pg.pid = p.pid ∧ pg.pageNum = e.virtualPage) ∧
    (∀ (procIdx virtualPage tScan tLoad : Nat) (proc : Process) (entry : PageTableEntry),
      s.processes[procIdx]? = some proc → proc.pageTable[virtualPage]? = some entry →
      entry.location = Location.SWAP →
      (∀ victim : Page, ∃ rq : Page,
        (relocateVictim victim s.processes s.swap).2[entry.physicalFrame]? = some (some rq) ∧
        rq.pid = proc.pid ∧ rq.pageNum = entry.virtualPage) ∧
      ∃ s1 : State, accessVirtualAddress s procIdx virtualPage tScan tLoad = some s1) := by
  have hinv := inv_reachable s h
  have hmain : ∀ (i j : Nat) (p : Process) (e : PageTableEntry),
      s.processes[i]? = some p → p.pageTable[j]? = some e → e.location = Location.SWAP →
      ∃ pg : Page, s.swap[e.physicalFrame]? = some (some pg) ∧
        pg.pid = p.pid ∧ pg.pageNum = e.virtualPage := by
    intro i j p e hp he hl
    exact hinv.swapOwn i j p.pid e ((pidAt_eq_some _ _ _).2 ⟨p, hp, rfl⟩)
      ((entryAt_eq_some _ _ _ _).2 ⟨p, hp, he⟩) hl
  refine ⟨?_, ?_⟩
  · intro i j p e hp he hl
    obtain ⟨pg, hpg, h1, h2⟩ := hmain i j p e hp he hl
    refine ⟨?_, pg, hpg, h1, h2⟩
    by_contra hge
    rw [List.getElem?_eq_none (by omega)] at hpg
    simp at hpg
  · intro procIdx virtualPage tScan tLoad proc entry hproc hentry hloc
    obtain ⟨pg, hpg, h1, h2⟩ := hmain procIdx virtualPage proc entry hproc hentry hloc
    refine ⟨fun victim => ⟨pg, requested_after_relocation victim _ _ _ pg hpg, h1, h2⟩, ?_⟩
    obtain ⟨s1, hs1, -⟩ := access_fault_returns s procIdx virtualPage tScan tLoad proc entry pg
      hproc hentry hloc hpg
    exact ⟨s1, hs1⟩

theorem swap_entries_never_stale_witness :
    Reachable scenarioState ∧
    (∀ (i j : Nat) (p : Process) (e : PageTableEntry),
      scenarioState.processes[i]? = some p → p.pageTable[j]? = some e →
      e.location = Location.SWAP →
      e.physicalFrame < scenarioState.swap.length ∧
      ∃ pg : Page, scenarioState.swap[e.physicalFrame]? = some (some pg) ∧
        pg.pid = p.pid ∧ pg.pageNum = e.virtualPage) :=
  ⟨scenarioState_reachable, (swap_entries_never_stale scenarioState scenarioState_reachable).1⟩

/-- C19, every occupied frame has a live owner entry: in every reachable state, for every
occupied RAM or SWAP slot holding a page (pid, pageNum) there is a live process with that
pid whose page-table entry for virtual page pageNum has that slot's tier and index.  Hence,
when a fault selects a victim in RAM slot `v`, the lookup finds the owner: process `i` is
the first one with the victim's pid, its entry `j` is the first one with the victim's page
number and location RAM, and that entry points at RAM slot `v`; the relocation rewrites
that entry when a SWAP slot is free and changes nothing when none is. -/
theorem occupied_slots_have_owner (s : State) (h : Reachable s) :
    (∀ (loc : Location) (k : Nat) (pg : Page), slotAt s loc k = some (some pg) →
      ∃ (i j : Nat) (p : Process) (e : PageTableEntry),
        s.processes[i]? = some p ∧ p.pid = pg.pid ∧ p.pageTable[j]? = some e ∧
        e.virtualPage = pg.pageNum ∧ e.location = loc ∧ e.physicalFrame = k) ∧
    (∀ (tScan v : Nat) (victim : Page), findVictim s.ram tScan = some v →
      s.ram[v]? = some (some victim) →
      ∃ (i j : Nat) (p : Process) (e : PageTableEntry),
        s.processes[i]? = some p ∧ p.pid = victim.pid ∧
        (∀ (m : Nat) (a : Process), m < i → s.processes[m]? = some a → a.pid ≠ victim.pid) ∧
        p.pageTable[j]? = some e ∧ e.virtualPage = victim.pageNum ∧
        e.location = Location.RAM ∧ e.physicalFrame = v ∧
        (∀ (m : Nat) (a : PageTableEntry), m < j → p.pageTable[m]? = some a →
          ¬ (a.virtualPage = victim.pageNum ∧ a.location = Location.RAM)) ∧
        relocateVictim victim s.processes s.swap
          = if firstFree s.swap < s.swap.length then
              (writeEntry s.processes i j (firstFree s.swap) Location.SWAP,
                s.swap.set (firstFree s.swap) (some victim))
            else (s.processes, s.swap)) := by
  have hinv := inv_reachable s h
  have hmain : ∀ (loc : Location) (k : Nat) (pg : Page), slotAt s loc k = some (some pg) →
      ∃ (i j : Nat) (p : Process) (e : PageTableEntry),
        s.processes[i]? = some p ∧ p.pid = pg.pid ∧ p.pageTable[j]? = some e ∧
        e.virtualPage = pg.pageNum ∧ e.location = loc ∧ e.physicalFrame = k := by
    intro loc k pg hslot
    obtain ⟨i, j, e, h1, h2, h3, h4, h5⟩ := hinv.owner loc k pg hslot
    obtain ⟨p, hp, hpid⟩ := (pidAt_eq_some _ _ _).1 h1
    obtain ⟨p1, hp1, he⟩ := (entryAt_eq_some _ _ _ _).1 h2
    rw [hp] at hp1
    simp only [Option.some.injEq] at hp1
    subst hp1
    exact ⟨i, j, p, e, hp, hpid, he, h3, h4, h5⟩
  refine ⟨hmain, ?_⟩
  intro tScan v victim _ hvictim
  obtain ⟨i, j, p, e, hp, hpid, he, hvp, hloc, hframe⟩ :=
    hmain Location.RAM v victim (by simpa [slotAt] using hvictim)
  have hpids : ∀ (m : Nat) (a : Process), s.processes[m]? = some a → a.pid = victim.pid →
      m = i := by
    intro m a ha hpa
    exact hinv.pids m i victim.pid ((pidAt_eq_some _ _ _).2 ⟨a, ha, hpa⟩)
      ((pidAt_eq_some _ _ _).2 ⟨p, hp, hpid⟩)
  have hvps : ∀ (m : Nat) (a : PageTableEntry), p.pageTable[m]? = some a →
      a.virtualPage = victim.pageNum → m = j := by
    intro m a ha hva
    have h1 := hinv.shape.2 i m a ((entryAt_eq_some _ _ _ _).2 ⟨p, hp, ha⟩)
    have h2 := hinv.shape.2 i j e ((entryAt_eq_some _ _ _ _).2 ⟨p, hp, he⟩)
    omega
  refine ⟨i, j, p, e, hp, hpid, ?_, he, hvp, hloc, hframe, ?_, ?_⟩
  · intro m a hm ha hpa
    have := hpids m a ha hpa
    omega
  · intro m a hm ha hmatch
    have := hvps m a ha hmatch.1
    omega
  · by_cases hff : firstFree s.swap < s.swap.length
    · rw [if_pos hff]
      exact relocateVictim_of_owner victim s.swap s.processes i j p e hff hp he hpid hvp hloc
        hpids hvps
    · rw [if_neg hff]
      rcases relocateVictim_cases victim s.swap s.processes with hrel | ⟨_, _, _, -, -, hc, -⟩
      · exact hrel
      · exact absurd hc hff

theorem occupied_slots_have_owner_witness :
    Reachable scenarioState ∧
    ∀ (loc : Location) (k : Nat) (pg : Page), slotAt scenarioState loc k = some (some pg) →
      ∃ (i j : Nat) (p : Process) (e : PageTableEntry),
        scenarioState.processes[i]? = some p ∧ p.pid = pg.pid ∧ p.pageTable[j]? = some e ∧
        e.virtualPage = pg.pageNum ∧ e.location = loc ∧ e.physicalFrame = k :=
  ⟨scenarioState_reachable, (occupied_slots_have_owner scenarioState scenarioState_reachable).1⟩
/-! ## Faults in the reachable states -/

theorem distinctVirtualPages_of_inv (s : State) (hinv : Inv s) : DistinctVirtualPages s := by
  intro i j j1 e e1 he he1 hvp
  have h1 := hinv.shape.2 i j e he
  have h2 := hinv.shape.2 i j1 e1 he1
  omega

theorem countFree_set_none (xs : Frames) (k : Nat) (y : Page) (h : xs[k]? = some (some y)) :
    countFree (xs.set k none) = countFree xs + 1 := by
  induction xs generalizing k with
  | nil => simp at h
  | cons x xs ih =>
    cases k with
    | zero =>
      simp only [List.getElem?_cons_zero, Option.some.injEq] at h
      subst h
      simp [countFree]
    | succ k =>
      simp only [List.getElem?_cons_succ] at h
      cases x with
      | none => simp [countFree, ih k h]
      | some q => simp [countFree, ih k h]

/-- Under the invariant of the reachable states, a state is consistent as soon as every entry
with location RAM points at a RAM slot that holds its page. -/
theorem consistent_of_inv (s : State) (hinv : Inv s)
    (hram : ∀ (i j pid : Nat) (e : PageTableEntry), pidAt s.processes i = some pid →
      entryAt s.processes i j = some e → e.location = Location.RAM →
      ∃ pg : Page, s.ram[e.physicalFrame]? = some (some pg) ∧
        pg.pid = pid ∧ pg.pageNum = e.virtualPage) :
    Consistent s := by
  have hown : EntriesPointAtOwnPage s := by
    intro i j pid e hp he
    cases hloc : e.location with
    | RAM => exact hram i j pid e hp he hloc
    | SWAP => exact hinv.swapOwn i j pid e hp he hloc
  refine ⟨hown, ?_, ?_⟩
  · intro loc k pg h
    obtain ⟨i, j, e, -, he, -, hl, hf⟩ := hinv.owner loc k pg h
    exact ⟨i, j, e, he, hl, hf⟩
  · intro i j i1 j1 e e1 he he1 hl hf
    obtain ⟨p, hp, -⟩ := (entryAt_eq_some _ _ _ _).1 he
    obtain ⟨p1, hp1, -⟩ := (entryAt_eq_some _ _ _ _).1 he1
    have hpid : pidAt s.processes i = some p.pid := (pidAt_eq_some _ _ _).2 ⟨p, hp, rfl⟩
    have hpid1 : pidAt s.processes i1 = some p1.pid := (pidAt_eq_some _ _ _).2 ⟨p1, hp1, rfl⟩
    obtain ⟨pg, hpg, hpgpid, hpgvp⟩ := hown i j p.pid e hpid he
    obtain ⟨pg1, hpg1, hpgpid1, hpgvp1⟩ := hown i1 j1 p1.pid e1 hpid1 he1
    rw [hl, hf, hpg1] at hpg
    simp only [Option.some.injEq] at hpg
    subst hpg
    exact hinv.entry_unique s i j i1 j1 p.pid e e1 hpid (by rw [hpid1, ← hpgpid, hpgpid1])
      he he1 (by rw [← hpgvp, hpgvp1])

/-- A fault that selects a victim, taken with a free SWAP slot in a consistent state that
satisfies the invariant of the reachable states, returns a consistent state with as many free
SWAP slots as before. -/
theorem fault_keeps_consistent (s s1 : State) (procIdx virtualPage tScan tLoad v : Nat)
    (proc : Process) (entry : PageTableEntry)
    (hinv : Inv s) (hcons : Consistent s)
    (hfree : 0 < countFree s.swap)
    (hproc : s.processes[procIdx]? = some proc)
    (hentry : proc.pageTable[virtualPage]? = some entry)
    (hloc : entry.location = Location.SWAP)
    (hv : findVictim s.ram tScan = some v)
    (hacc : accessVirtualAddress s procIdx virtualPage tScan tLoad = some s1) :
    Consistent s1 ∧ countFree s1.swap = countFree s.swap := by
  have hinv1 : Inv s1 := inv_accessVirtualAddress s s1 procIdx virtualPage tScan tLoad hinv hacc
  obtain ⟨victim, rq, iv, jv, ev, s2, hvictim, hrq, hev, hevloc, hevframe, hpidv, hevvp, hacc2,
    hfirst, -, hsw1, hev1, hram1, hentry1, -, -, hramO, -, hentO, hpidO, hrqpid, hrqvp, -,
    hswapeq⟩ :=
    fault_moves_pages s procIdx virtualPage tScan tLoad v proc entry hinv.swapOwn hinv.owner
      hinv.pids (distinctVirtualPages_of_inv s hinv) hfree hproc hentry hloc hv
  rw [hacc] at hacc2
  simp only [Option.some.injEq] at hacc2
  subst hacc2
  refine ⟨consistent_of_inv s1 hinv1 ?_, ?_⟩
  · intro i j pid e hp he hl
    by_cases h1 : i = procIdx ∧ j = virtualPage
    · obtain ⟨rfl, rfl⟩ := h1
      rw [hentry1] at he
      simp only [Option.some.injEq] at he
      subst he
      refine ⟨_, hram1, ?_, hrqvp⟩
      rw [hpidO, (pidAt_eq_some _ _ _).2 ⟨proc, hproc, rfl⟩] at hp
      simp only [Option.some.injEq] at hp
      rw [← hp]
      exact hrqpid
    · by_cases h2 : i = iv ∧ j = jv
      · obtain ⟨rfl, rfl⟩ := h2
        rw [hev1] at he
        simp only [Option.some.injEq] at he
        subst he
        cases hl
      · rw [hentO i j h2 h1] at he
        rw [hpidO] at hp
        obtain ⟨pg, hpg, hpgpid, hpgvp⟩ := hcons.1 i j pid e hp he
        rw [hl] at hpg
        simp only [slotAt] at hpg
        have hne : e.physicalFrame ≠ v := by
          intro hf
          exact h2 (hcons.2.2 i j iv jv e ev he hev (by rw [hl, hevloc]) (by rw [hf, hevframe]))
        exact ⟨pg, by rw [hramO _ hne]; exact hpg, hpgpid, hpgvp⟩
  · have hff : firstFree s.swap < s.swap.length := (firstFree_lt_iff _).2 hfree
    have hne : firstFree s.swap ≠ entry.physicalFrame := by
      intro h
      rw [h, hrq] at hfirst
      simp at hfirst
    rw [hswapeq, countFree_set_none _ _ rq (by rw [List.getElem?_set_ne hne]; exact hrq)]
    exact countFree_set_some s.swap victim hff

theorem faultExample_reachable : Reachable faultExample :=
  ⟨4, 1, 2, [Op.create 8 3 3], by decide, by decide⟩

/-- C9, fault page-move: in every consistent state reached by a run of the simulator in which
the SWAP pool has a free slot, a fault (access to an entry with location SWAP) that selects
the victim in RAM slot `v` returns a state in which: the victim's record is in the
lowest-index SWAP slot that was free before the call and the victim's entry is
{SWAP, that index}; the faulting page's record is in RAM slot `v` with `loadTime = tLoad`
(the reading taken at the load) and its entry is {RAM, v}; the SWAP slot the faulting page had
is free; `pageFaults` is one more; every other RAM slot, SWAP slot and page-table entry is as
before.  The victim's entry is the only entry that pointed at RAM slot `v`, and the state
returned is consistent. -/
theorem fault_page_move (s : State) (procIdx virtualPage tScan tLoad v : Nat)
    (proc : Process) (entry : PageTableEntry)
    (hreach : Reachable s) (hcons : Consistent s)
    (hfree : 0 < countFree s.swap)
    (hproc : s.processes[procIdx]? = some proc)
    (hentry : proc.pageTable[virtualPage]? = some entry)
    (hloc : entry.location = Location.SWAP)
    (hv : findVictim s.ram tScan = some v) :
    ∃ (victim requested : Page) (iv jv : Nat) (ev : PageTableEntry) (s1 : State),
      s.ram[v]? = some (some victim) ∧
      s.swap[entry.physicalFrame]? = some (some requested) ∧
      entryAt s.processes iv jv = some ev ∧
      ev.location = Location.RAM ∧ ev.physicalFrame = v ∧
      pidAt s.processes iv = some victim.pid ∧ ev.virtualPage = victim.pageNum ∧
      accessVirtualAddress s procIdx virtualPage tScan tLoad = some s1 ∧
      s.swap[firstFree s.swap]? = some none ∧
      (∀ k : Nat, k < firstFree s.swap → ∃ q : Page, s.swap[k]? = some (some q)) ∧
      s1.swap[firstFree s.swap]? = some (some victim) ∧
      entryAt s1.processes iv jv = some ⟨ev.virtualPage, firstFree s.swap, Location.SWAP⟩ ∧
      s1.ram[v]? = some (some { requested with loadTime := tLoad }) ∧
      entryAt s1.processes procIdx virtualPage = some ⟨entry.virtualPage, v, Location.RAM⟩ ∧
      s1.swap[entry.physicalFrame]? = some none ∧
      s1.pageFaults = s.pageFaults + 1 ∧
      (∀ k : Nat, k ≠ v → s1.ram[k]? = s.ram[k]?) ∧
      (∀ k : Nat, k ≠ firstFree s.swap → k ≠ entry.physicalFrame → s1.swap[k]? = s.swap[k]?) ∧
      (∀ i j : Nat, ¬ (i = iv ∧ j = jv) → ¬ (i = procIdx ∧ j = virtualPage) →
        entryAt s1.processes i j = entryAt s.processes i j) ∧
      (∀ i : Nat, pidAt s1.processes i = pidAt s.processes i) ∧
      (∀ (i j : Nat) (e : PageTableEntry), entryAt s.processes i j = some e →
        e.location = Location.RAM → e.physicalFrame = v → i = iv ∧ j = jv) ∧
      Consistent s1 := by
  have hinv := inv_reachable s hreach
  obtain ⟨victim, rq, iv, jv, ev, s1, h1, h2, h3, h4, h5, h6, h7, h8, h9, h10, h11, h12, h13,
    h14, h15, h16, h17, h18, h19, h20, -⟩ :=
    fault_moves_pages s procIdx virtualPage tScan tLoad v proc entry hinv.swapOwn hinv.owner
      hinv.pids (distinctVirtualPages_of_inv s hinv) hfree hproc hentry hloc hv
  refine ⟨victim, rq, iv, jv, ev, s1, h1, h2, h3, h4, h5, h6, h7, h8, h9, h10, h11, h12, h13,
    h14, h15, h16, h17, h18, h19, h20, ?_, ?_⟩
  · intro i j e he hl hf
    exact hcons.2.2 i j iv jv e ev he h3 (by rw [hl, h4]) (by rw [hf, h5])
  · exact (fault_keeps_consistent s s1 procIdx virtualPage tScan tLoad v proc entry hinv hcons
      hfree hproc hentry hloc hv h8).1

theorem fault_page_move_witness :
    Reachable faultExample ∧ Consistent faultExample ∧ 0 < countFree faultExample.swap ∧
    findVictim faultExample.ram 10 = some 0 ∧
    ∃ s1 : State, accessVirtualAddress faultExample 0 1 10 11 = some s1 ∧
      s1.ram[0]? = some (some ⟨1, 1, 11⟩) ∧
      s1.swap[1]? = some (some ⟨1, 0, 3⟩) ∧
      s1.swap[0]? = some none ∧
      entryAt s1.processes 0 0 = some ⟨0, 1, Location.SWAP⟩ ∧
      entryAt s1.processes 0 1 = some ⟨1, 0, Location.RAM⟩ ∧
      s1.pageFaults = 1 ∧ Consistent s1 := by
  obtain ⟨victim, requested, iv, jv, ev, s1, -, -, -, -, -, -, -, hacc, -, -, -, -, -, -, -, -,
    -, -, -, -, -, hcons1⟩ :=
    fault_page_move faultExample 0 1 10 11 0
      ⟨1, 8, 2, [⟨0, 0, Location.RAM⟩, ⟨1, 0, Location.SWAP⟩], 3⟩ ⟨1, 0, Location.SWAP⟩
      faultExample_reachable faultExample_consistent (by decide) rfl rfl rfl (by decide)
  have hval : accessVirtualAddress faultExample 0 1 10 11
      = some
          { pageSizeKB := 4
            ram := [some ⟨1, 1, 11⟩]
            swap := [none, some ⟨1, 0, 3⟩]
            processes := [⟨1, 8, 2, [⟨0, 1, Location.SWAP⟩, ⟨1, 0, Location.RAM⟩], 3⟩]
            nextPid := 2
            pageFaults := 1
            processesCreated := 1
            processesFinished := 0 } := by decide
  rw [hval] at hacc
  simp only [Option.some.injEq] at hacc
  subst hacc
  exact ⟨faultExample_reachable, faultExample_consistent, by decide, by decide,
    _, hval, by decide, by decide, by decide, by decide, by decide, rfl, hcons1⟩

/-! ## FIFO order of the evictions -/

/-- The scan on a RAM pool made of pages `newPgs` followed by a page `p` and pages `rest1`,
all loaded later than `p`, at a reading later than the load of `p`: the slot of `p` is
selected. -/
theorem findVictim_oldest_first (ram : Frames) (newPgs rest1 : List Page) (p : Page) (now : Nat)
    (hram : ram = newPgs.map some ++ (p :: rest1).map some)
    (hnew : ∀ q ∈ newPgs, p.loadTime < q.loadTime)
    (hrest : ∀ q ∈ rest1, p.loadTime < q.loadTime)
    (hnow : p.loadTime < now) :
    findVictim ram now = some newPgs.length := by
  have hk : ram[newPgs.length]? = some (some p) := by
    rw [hram, List.getElem?_append_right (by simp)]
    simp
  rcases hres : findVictim ram now with _ | v
  · have := (findVictim_eq_none_iff ram now).1 hres _ p hk
    omega
  · obtain ⟨victim, hvic, -, hmin, -⟩ := findVictim_eq_some ram now v hres
    have hle := hmin _ p hk
    rcases Nat.lt_trichotomy v newPgs.length with hlt | heq | hgt
    · exfalso
      rw [hram, List.getElem?_append_left (by simpa using hlt), List.getElem?_map] at hvic
      obtain ⟨q, hq, hqv⟩ := Option.map_eq_some'.1 hvic
      simp only [Option.some.injEq] at hqv
      subst hqv
      have := hnew q (List.getElem?_mem hq)
      omega
    · rw [heq]
    · exfalso
      rw [hram, List.getElem?_append_right (by simp; omega), List.length_map,
        List.getElem?_map] at hvic
      obtain ⟨q, hq, hqv⟩ := Option.map_eq_some'.1 hvic
      simp only [Option.some.injEq] at hqv
      subst hqv
      obtain ⟨d, hd⟩ : ∃ d, v - newPgs.length = d + 1 := ⟨v - newPgs.length - 1, by omega⟩
      rw [hd, List.getElem?_cons_succ] at hq
      have := hrest q (List.getElem?_mem hq)
      omega

/-- A fault that selects the victim in RAM slot `k`, taken with a free SWAP slot in a state
that satisfies the invariant of the reachable states, evicts the page of slot `k`: its record
leaves RAM for a SWAP slot and its entry follows. -/
theorem fault_evicts (s s1 : State) (a : Access) (k : Nat) (p : Page) (e : PageTableEntry)
    (hinv : Inv s) (hfree : 0 < countFree s.swap)
    (he : entryAt s.processes a.procIdx a.virtualPage = some e)
    (hl : e.location = Location.SWAP)
    (hv : findVictim s.ram a.tScan = some k)
    (hk : s.ram[k]? = some (some p))
    (hacc : accessVirtualAddress s a.procIdx a.virtualPage a.tScan a.tLoad = some s1) :
    Evicts s s1 k p ∧
      ∃ rq : Page, s1.ram = s.ram.set k (some { rq with loadTime := a.tLoad }) := by
  obtain ⟨proc, hproc, hentry⟩ := (entryAt_eq_some _ _ _ _).1 he
  obtain ⟨victim, rq, iv, jv, ev, s2, hvictim, hrq, hev, hevloc, hevframe, hpidv, hevvp, hacc2,
    hfirst, -, hsw1, hev1, hram1, -, -, -, hramO, -, -, hpidO, hrqpid, hrqvp, hrameq, -⟩ :=
    fault_moves_pages s a.procIdx a.virtualPage a.tScan a.tLoad k proc e hinv.swapOwn
      hinv.owner hinv.pids (distinctVirtualPages_of_inv s hinv) hfree hproc hentry hl hv
  rw [hacc] at hacc2
  simp only [Option.some.injEq] at hacc2
  subst hacc2
  rw [hk] at hvictim
  simp only [Option.some.injEq] at hvictim
  subst hvictim
  have hjv : ev.virtualPage = jv := hinv.shape.2 iv jv ev hev
  have hjp : jv = p.pageNum := by rw [← hjv, hevvp]
  subst hjp
  refine ⟨⟨hk, ?_, hramO, firstFree s.swap, iv, hfirst, hsw1, hpidv, ?_, ?_, ?_⟩, rq, hrameq⟩
  · rintro m q hq ⟨hqpid, hqvp⟩
    by_cases hm : m = k
    · subst hm
      rw [hram1] at hq
      simp only [Option.some.injEq] at hq
      subst hq
      simp only at hqpid hqvp
      have hpp : pidAt s.processes a.procIdx = some p.pid := by
        rw [(pidAt_eq_some _ _ _).2 ⟨proc, hproc, rfl⟩, ← hrqpid, hqpid]
      obtain ⟨h1, h2⟩ := hinv.entry_unique s a.procIdx a.virtualPage iv p.pageNum p.pid e ev
        hpp hpidv he hev (by rw [← hrqvp, hqvp, hevvp])
      rw [h1, h2, hev] at he
      simp only [Option.some.injEq] at he
      subst he
      rw [hevloc] at hl
      cases hl
    · rw [hramO m hm] at hq
      obtain ⟨-, hf⟩ := hinv.owner_of_match s Location.RAM m q (by simpa [slotAt] using hq)
        iv p.pageNum ev (by rw [hpidv, hqpid]) hev (by rw [hevvp, hqvp])
      exact hm (by rw [← hf, hevframe])
  · rw [hpidO, hpidv]
  · rw [hev]
    congr 1
    cases ev
    simp only at hevloc hevframe hevvp
    subst hevloc hevframe hevvp
    rfl
  · rw [hev1, hevvp]

/-- Consecutive faults on a RAM pool made of pages loaded by earlier faults of the sequence
(`newPgs`) followed by the original pages not yet evicted (`rest`, by increasing
`loadTime`), in a consistent state that satisfies the invariant of the reachable states and
has a free SWAP slot: the calls return and evict the pages of `rest` in order, each one to
SWAP. -/
theorem evicts_in_load_order :
    ∀ (accs : List Access) (s : State) (newPgs rest : List Page),
      Inv s → Consistent s → 0 < countFree s.swap →
      s.ram = newPgs.map some ++ rest.map some →
      (∀ q ∈ newPgs, ∀ p ∈ rest, p.loadTime < q.loadTime) →
      rest.Pairwise (fun a b => a.loadTime < b.loadTime) →
      accs.length = rest.length →
      (∀ a ∈ accs, ∀ p ∈ rest, p.loadTime < a.tScan ∧ p.loadTime < a.tLoad) →
      AllFaults s accs →
      ∃ s1 : State, runAccesses s accs = some s1 ∧ Consistent s1 ∧
        0 < countFree s1.swap ∧ EvictsInOrder s accs newPgs.length rest := by
  intro accs
  induction accs with
  | nil =>
    intro s newPgs rest _ hcons hfree _ _ _ hlen _ _
    have : rest = [] := List.length_eq_zero.1 (by simpa using hlen.symm)
    subst this
    exact ⟨s, rfl, hcons, hfree, trivial⟩
  | cons a rest_accs ih =>
    intro s newPgs rest hinv hcons hfree hram hnew hinc hlen hlate hfaults
    cases rest with
    | nil => simp at hlen
    | cons p rest1 =>
      obtain ⟨⟨e, he, hl⟩, hnext⟩ := hfaults
      have hk : s.ram[newPgs.length]? = some (some p) := by
        rw [hram, List.getElem?_append_right (by simp)]
        simp
      have hpa := hlate a (List.mem_cons_self _ _) p (List.mem_cons_self _ _)
      have hres : findVictim s.ram a.tScan = some newPgs.length :=
        findVictim_oldest_first s.ram newPgs rest1 p a.tScan hram
          (fun q hq => hnew q hq p (List.mem_cons_self _ _))
          (List.pairwise_cons.1 hinc).1 hpa.1
      obtain ⟨proc, hproc, hentry⟩ := (entryAt_eq_some _ _ _ _).1 he
      obtain ⟨s1, hacc⟩ : ∃ s1 : State,
          accessVirtualAddress s a.procIdx a.virtualPage a.tScan a.tLoad = some s1 := by
        obtain ⟨_, s1, hacc, -⟩ :=
          fault_step s a.procIdx a.virtualPage a.tScan a.tLoad newPgs.length e
            (swapEntriesSound_of_consistent s hcons) he hl hres
        exact ⟨s1, hacc⟩
      have hinv1 : Inv s1 :=
        inv_accessVirtualAddress s s1 a.procIdx a.virtualPage a.tScan a.tLoad hinv hacc
      obtain ⟨hcons1, hfree1⟩ :=
        fault_keeps_consistent s s1 a.procIdx a.virtualPage a.tScan a.tLoad newPgs.length proc e
          hinv hcons hfree hproc hentry hl hres hacc
      obtain ⟨hevicts, rq, hram1⟩ := fault_evicts s s1 a newPgs.length p e hinv hfree he hl hres
        hk hacc
      have hram2 : s1.ram
          = (newPgs ++ [{ rq with loadTime := a.tLoad }]).map some ++ rest1.map some := by
        rw [hram1, hram, List.set_append_right _ _ (by simp)]
        simp
      obtain ⟨s2, hrun, hcons2, hfree2, hord⟩ :=
        ih s1 (newPgs ++ [{ rq with loadTime := a.tLoad }]) rest1 hinv1 hcons1
          (by rw [hfree1]; exact hfree) hram2
          (by
            intro q hq p1 hp1
            rcases List.mem_append.1 hq with hq1 | hq1
            · exact hnew q hq1 p1 (List.mem_cons_of_mem _ hp1)
            · simp only [List.mem_singleton] at hq1
              subst hq1
              exact (hlate a (List.mem_cons_self _ _) p1 (List.mem_cons_of_mem _ hp1)).2)
          (List.pairwise_cons.1 hinc).2
          (by simpa using hlen)
          (fun b hb p1 hp1 =>
            hlate b (List.mem_cons_of_mem _ hb) p1 (List.mem_cons_of_mem _ hp1))
          (hnext s1 hacc)
      refine ⟨s2, ?_, hcons2, hfree2, hres, s1, hacc, hevicts, ?_⟩
      · simp only [runAccesses, hacc]
        exact hrun
      · simpa using hord

/-- The `k`-th access of a sequence that evicts the pages of a list in order, made in the
state returned by the accesses before it, selects the victim in RAM slot `k0 + k` and evicts
the `k`-th page of the list from that slot. -/
theorem evictsInOrder_nth :
    ∀ (accs : List Access) (s : State) (k0 : Nat) (pages : List Page),
      EvictsInOrder s accs k0 pages →
      ∀ (k : Nat) (a : Access) (p : Page), accs[k]? = some a → pages[k]? = some p →
        ∃ sk sk1 : State, runAccesses s (accs.take k) = some sk ∧
          findVictim sk.ram a.tScan = some (k0 + k) ∧
          accessVirtualAddress sk a.procIdx a.virtualPage a.tScan a.tLoad = some sk1 ∧
          Evicts sk sk1 (k0 + k) p := by
  intro accs
  induction accs with
  | nil =>
    intro s k0 pages _ k a p ha _
    simp at ha
  | cons a0 rest ih =>
    intro s k0 pages h k a p ha hp
    cases pages with
    | nil => simp at hp
    | cons p0 ps =>
      obtain ⟨hv, s1, hacc, hev, hrest⟩ := h
      cases k with
      | zero =>
        simp only [List.getElem?_cons_zero, Option.some.injEq] at ha hp
        subst ha hp
        exact ⟨s, s1, rfl, hv, hacc, hev⟩
      | succ k =>
        simp only [List.getElem?_cons_succ] at ha hp
        obtain ⟨sk, sk1, hrun, hv1, hacc1, hev1⟩ := ih s1 (k0 + 1) ps hrest k a p ha hp
        refine ⟨sk, sk1, ?_, ?_, hacc1, ?_⟩
        · simp only [List.take_succ_cons, runAccesses, hacc]
          exact hrun
        · rw [hv1]
          congr 1
          omega
        · have : k0 + (k + 1) = k0 + 1 + k := by omega
          rw [this]
          exact hev1

/-- C10, FIFO ordering: from a consistent state reached by a run of the simulator, whose RAM
slots `0..N-1` all hold pages with strictly increasing `loadTime` in slot order and whose SWAP
pool has a free slot, `N` consecutive faults taken at clock readings all later than the last
of these load times all return, and the `k`-th fault evicts the original page of RAM slot
`k-1`: the scan selects that slot, the page's record leaves RAM (no RAM slot holds it
afterwards, no other RAM slot changes) for a SWAP slot that was free, and the entry of the
page's owner changes from {RAM, k-1} to {SWAP, that slot}.  The pages are thus evicted in the
order they were loaded, exactly the `N` original ones.  The state returned is consistent and
has a free SWAP slot.  (The order of the readings among themselves is not needed.) -/
theorem fifo_eviction_order (s : State) (pages : List Page) (accs : List Access)
    (hreach : Reachable s) (hcons : Consistent s)
    (hram : s.ram = pages.map some)
    (hinc : pages.Pairwise (fun a b => a.loadTime < b.loadTime))
    (hfree : 0 < countFree s.swap)
    (hlen : accs.length = pages.length)
    (hlate : ∀ a ∈ accs, ∀ p ∈ pages, p.loadTime < a.tScan ∧ p.loadTime < a.tLoad)
    (hfaults : AllFaults s accs) :
    ∃ s1 : State, runAccesses s accs = some s1 ∧
      EvictsInOrder s accs 0 pages ∧
      (∀ (k : Nat) (a : Access) (p : Page), accs[k]? = some a → pages[k]? = some p →
        ∃ sk sk1 : State, runAccesses s (accs.take k) = some sk ∧
          findVictim sk.ram a.tScan = some k ∧
          accessVirtualAddress sk a.procIdx a.virtualPage a.tScan a.tLoad = some sk1 ∧
          Evicts sk sk1 k p) ∧
      evictions s accs = numbered 0 pages ∧
      (evictions s accs).length = pages.length ∧
      (∀ (k : Nat) (p : Page), pages[k]? = some p →
        (evictions s accs)[k]? = some (some (k, p))) ∧
      Consistent s1 ∧ 0 < countFree s1.swap := by
  have hinv := inv_reachable s hreach
  obtain ⟨s1, hrun, hcons1, hfree1, hord⟩ := evicts_in_load_order accs s [] pages hinv hcons
    hfree (by simpa using hram) (by intro q hq; simp at hq) hinc hlen hlate hfaults
  obtain ⟨s2, hrun2, hev⟩ := evictions_in_load_order accs s [] pages (by simpa using hram)
    (by intro q hq; simp at hq) hinc (swapEntriesSound_of_consistent s hcons) hlen hlate hfaults
  refine ⟨s1, hrun, hord, ?_, hev, ?_, ?_, hcons1, hfree1⟩
  · intro k a p ha hp
    simpa using evictsInOrder_nth accs s 0 pages hord k a p ha hp
  · rw [hev]
    exact length_numbered pages 0
  · intro k p hk
    rw [hev, getElem?_numbered, hk]
    simp

theorem fifoExample_reachable : Reachable fifoExample :=
  ⟨4, 2, 3, [Op.create 4 1 1, Op.create 4 2 2, Op.create 8 3 3], by decide, by decide⟩

theorem fifoExample_consistent : Consistent fifoExample := by
  refine consistent_of_inv _ (inv_reachable _ fifoExample_reachable) ?_
  intro i j pid e hp he hl
  rcases i with _ | _ | _ | i <;> rcases j with _ | _ | j <;>
    simp [fifoExample, pidAt, entryAt] at hp he <;>
    subst hp he <;> simp [fifoExample] at hl ⊢

theorem fifoExample_allFaults :
    AllFaults fifoExample [⟨2, 0, 10, 10⟩, ⟨2, 1, 11, 12⟩] := by
  refine ⟨⟨_, rfl, rfl⟩, ?_⟩
  intro s1 h
  have hval : accessVirtualAddress fifoExample 2 0 10 10
      = some
          { pageSizeKB := 4
            ram := [some ⟨3, 0, 10⟩, some ⟨2, 0, 2⟩]
            swap := [none, some ⟨3, 1, 3⟩, some ⟨1, 0, 1⟩]
            processes :=
              [⟨1, 4, 1, [⟨0, 2, Location.SWAP⟩], 1⟩,
                ⟨2, 4, 1, [⟨0, 1, Location.RAM⟩], 2⟩,
                ⟨3, 8, 2, [⟨0, 0, Location.RAM⟩, ⟨1, 1, Location.SWAP⟩], 3⟩]
            nextPid := 4
            pageFaults := 1
            processesCreated := 3
            processesFinished := 0 } := by decide
  rw [hval] at h
  simp only [Option.some.injEq] at h
  subst h
  exact ⟨⟨_, rfl, rfl⟩, fun _ _ => trivial⟩

theorem fifo_eviction_order_witness :
    Reachable fifoExample ∧ Consistent fifoExample ∧ 0 < countFree fifoExample.swap ∧
    ∃ s1 : State, runAccesses fifoExample [⟨2, 0, 10, 10⟩, ⟨2, 1, 11, 12⟩] = some s1 ∧
      EvictsInOrder fifoExample [⟨2, 0, 10, 10⟩, ⟨2, 1, 11, 12⟩] 0 [⟨1, 0, 1⟩, ⟨2, 0, 2⟩] ∧
      (∀ (k : Nat) (a : Access) (p : Page),
        [(⟨2, 0, 10, 10⟩ : Access), ⟨2, 1, 11, 12⟩][k]? = some a →
        [(⟨1, 0, 1⟩ : Page), ⟨2, 0, 2⟩][k]? = some p →
        ∃ sk sk1 : State,
          runAccesses fifoExample ([(⟨2, 0, 10, 10⟩ : Access), ⟨2, 1, 11, 12⟩].take k)
            = some sk ∧
          findVictim sk.ram a.tScan = some k ∧
          accessVirtualAddress sk a.procIdx a.virtualPage a.tScan a.tLoad = some sk1 ∧
          Evicts sk sk1 k p) ∧
      evictions fifoExample [⟨2, 0, 10, 10⟩, ⟨2, 1, 11, 12⟩]
        = numbered 0 [⟨1, 0, 1⟩, ⟨2, 0, 2⟩] ∧
      (evictions fifoExample [⟨2, 0, 10, 10⟩, ⟨2, 1, 11, 12⟩]).length
        = [(⟨1, 0, 1⟩ : Page), ⟨2, 0, 2⟩].length ∧
      (∀ (k : Nat) (p : Page), [(⟨1, 0, 1⟩ : Page), ⟨2, 0, 2⟩][k]? = some p →
        (evictions fifoExample [⟨2, 0, 10, 10⟩, ⟨2, 1, 11, 12⟩])[k]? = some (some (k, p))) ∧
      Consistent s1 ∧ 0 < countFree s1.swap :=
  ⟨fifoExample_reachable, fifoExample_consistent, by decide,
    fifo_eviction_order fifoExample [⟨1, 0, 1⟩, ⟨2, 0, 2⟩] [⟨2, 0, 10, 10⟩, ⟨2, 1, 11, 12⟩]
      fifoExample_reachable fifoExample_consistent rfl (by decide) (by decide) rfl (by decide)
      fifoExample_allFaults⟩

end PagingSimulator
